import Mathlib

/-!
# Graphs: adjacency-list graph, binary-heap priority queue, Prim and Dijkstra

A shallow embedding of `Graph.h` / `Graph.cpp` / `PriorityQueue.h`.

Conventions of the embedding:

* `unsigned int` values are natural numbers; arithmetic on them that can wrap is written
  with an explicit `% UINT_RANGE`.
* `double` weights are exact rationals (`ℚ`).
* `vector<T>` and `list<T>` are `List T`.
* An operation that indexes a vector outside its bounds, or reads the front of an empty
  vector, yields `Res.outOfBounds`. Loops are run with an explicit iteration budget and
  yield `Res.outOfFuel` when the budget is exhausted.
* `std::push_heap` / `std::pop_heap` are library functions; they are a parameter
  (`StlHeap`) constrained only by the contract the C++ standard gives them
  (`StlHeap.Conforms`). `binaryHeap` is the implementation of the GNU library; it meets
  the contract (`binaryHeap_conforms`) and is used where the storage order of the vector
  matters.
* `rand()` is a stream of values handed to the random constructor.
-/

set_option autoImplicit false
set_option linter.unusedSectionVars false

/-! ## Results of fallible code -/

/-- Outcome of running a piece of code: a value, an out-of-bounds access, or an exhausted
iteration budget. -/
inductive Res (α : Type) where
  | ok : α → Res α
  | outOfBounds : Res α
  | outOfFuel : Res α
deriving DecidableEq, Repr

/-- Sequencing of fallible computations. -/
def Res.bind {α β : Type} (r : Res α) (f : α → Res β) : Res β :=
  match r with
  | .ok a => f a
  | .outOfBounds => .outOfBounds
  | .outOfFuel => .outOfFuel

/-- Number of values of an `unsigned int` (32 bits). -/
def UINT_RANGE : Nat := 4294967296

/-- The constant `UINT_MAX`. -/
def UINT_MAX : Nat := 4294967295

/-- The constant `DBL_MAX`, as an exact rational (2^1024 - 2^971). -/
def DBL_MAX : ℚ :=
  179769313486231570814527423731704356798070567525844996598917476803157260780028538760589558632766878171540458953514382464234321326889464182768467546703537516986049910576551282076245490090389328944075868508455133942304583236903222948165808559332123348274797826204144723168738177180919299881250404026184124858368

/-! ## Edge -/

/-- Class `Edge`: start vertex, end vertex and weight. -/
structure Edge where
  m_startVertex : Nat
  m_endVertex : Nat
  m_Weight : ℚ
deriving DecidableEq, Repr

/-- Default constructor `Edge::Edge()`. -/
def Edge.default : Edge := ⟨UINT_MAX, UINT_MAX, DBL_MAX⟩

/-- Getter `Edge::GetStartVertexNumber`. -/
def Edge.GetStartVertexNumber (e : Edge) : Nat := e.m_startVertex

/-- Getter `Edge::GetEndVertexNumber`. -/
def Edge.GetEndVertexNumber (e : Edge) : Nat := e.m_endVertex

/-- Getter `Edge::GetEdgeWeight`. -/
def Edge.GetEdgeWeight (e : Edge) : ℚ := e.m_Weight

/-- Setter `Edge::SetEdgeWeight`. -/
def Edge.SetEdgeWeight (e : Edge) (weight : ℚ) : Edge := { e with m_Weight := weight }

/-! ## Graph -/

/-- Class `Graph`: one adjacency list per vertex and the edge counter. -/
structure Graph where
  m_EdgeList : List (List Edge)
  m_EdgesAmount : Nat
deriving DecidableEq, Repr

namespace Graph

/-- Constructor `Graph::Graph(unsigned int size)`: `size` vertices, no edges. -/
def ofSize (size : Nat) : Graph := ⟨List.replicate size [], 0⟩

/-- Method `Graph::GetVerticesAmount`: the vector size, converted to `unsigned int`. -/
def GetVerticesAmount (G : Graph) : Nat := G.m_EdgeList.length % UINT_RANGE

/-- Method `Graph::GetEdgesAmount`. -/
def GetEdgesAmount (G : Graph) : Nat := G.m_EdgesAmount

/-- The bound `GetVerticesAmount() + 1` used by the range checks, in `unsigned int`
arithmetic. -/
def rangeBound (G : Graph) : Nat := (G.GetVerticesAmount + 1) % UINT_RANGE

/-- Method `Graph::Adjacent`: the range check, then a scan of `m_EdgeList[v1]`. -/
def Adjacent (G : Graph) (v1 v2 : Nat) : Res Bool :=
  if v1 > G.rangeBound ∨ v2 > G.rangeBound then .ok false
  else
    match G.m_EdgeList[v1]? with
    | none => .outOfBounds
    | some l => .ok (l.any (fun e => e.GetEndVertexNumber == v2))

/-- The scan of `GetEdgeValue`: weight of the first edge of the list that ends in `v2`. -/
def firstWeightTo (v2 : Nat) : List Edge → Option ℚ
  | [] => none
  | e :: es => if e.GetEndVertexNumber = v2 then some e.GetEdgeWeight else firstWeightTo v2 es

/-- Method `Graph::GetEdgeValue`. -/
def GetEdgeValue (G : Graph) (v1 v2 : Nat) : Res ℚ :=
  (G.Adjacent v1 v2).bind fun adj =>
    if adj then
      match G.m_EdgeList[v1]? with
      | none => .outOfBounds
      | some l =>
        match firstWeightTo v2 l with
        | some w => .ok w
        | none => .ok (-1)
    else .ok (-1)

/-- Method `Graph::GetNodeEdges`. Out of the checked range the function returns a
temporary empty list. -/
def GetNodeEdges (G : Graph) (v : Nat) : Res (List Edge) :=
  if v > G.rangeBound then .ok []
  else
    match G.m_EdgeList[v]? with
    | none => .outOfBounds
    | some l => .ok l

/-- The statement `m_EdgeList[i].push_back(e)`. -/
def pushBackAt (ls : List (List Edge)) (i : Nat) (e : Edge) : Res (List (List Edge)) :=
  match ls[i]? with
  | none => .outOfBounds
  | some l => .ok (ls.set i (l ++ [e]))

/-- Method `Graph::AddEdge(v1, v2, distance)`. -/
def AddEdge (G : Graph) (v1 v2 : Nat) (distance : ℚ) : Res Graph :=
  (G.Adjacent v1 v2).bind fun adj =>
    if !adj then
      (pushBackAt G.m_EdgeList v1 ⟨v1, v2, distance⟩).bind fun ls1 =>
      (pushBackAt ls1 v2 ⟨v2, v1, distance⟩).bind fun ls2 =>
      .ok ⟨ls2, (G.m_EdgesAmount + 1) % UINT_RANGE⟩
    else .ok G

/-- Method `Graph::AddEdge(const Edge&)`. -/
def AddEdgeE (G : Graph) (edge : Edge) : Res Graph :=
  G.AddEdge edge.GetStartVertexNumber edge.GetEndVertexNumber edge.GetEdgeWeight

end Graph

/-! ## The heap functions of the standard library -/

/-- The two `<algorithm>` heap functions used by `PriorityQueue`, each taking the
comparator and the whole vector (the range `begin()`..`end()`). -/
structure StlHeap where
  push_heap : {α : Type} → (α → α → Bool) → List α → List α
  pop_heap : {α : Type} → (α → α → Bool) → List α → List α

/-- The comparator requirement of the standard library: a strict weak ordering. -/
def StrictWeak {α : Type} (comp : α → α → Bool) : Prop :=
  (∀ a, comp a a = false) ∧
  (∀ a b c, comp a b = true → comp b c = true → comp a c = true) ∧
  (∀ a b c, comp a b = false → comp b c = false → comp a c = false)

/-- The predicate `std::is_heap`: no element compares below its parent, the parent of
position `i > 0` being position `(i - 1) / 2`. -/
def IsHeap {α : Type} (comp : α → α → Bool) (l : List α) : Prop :=
  ∀ (i : Nat) (a b : α), 0 < i → l[(i - 1) / 2]? = some a → l[i]? = some b → comp a b = false

/-- The contract of the standard for `push_heap` and `pop_heap`.
`push_heap`: if all but the last element form a heap, the result is a heap holding the
same elements. `pop_heap`: on a non-empty heap, the first element is moved to the last
position and the others are rearranged into a heap. -/
def StlHeap.Conforms (H : StlHeap) : Prop :=
  (∀ (α : Type) (comp : α → α → Bool) (l : List α) (x : α), StrictWeak comp → IsHeap comp l →
      IsHeap comp (H.push_heap comp (l ++ [x])) ∧ (H.push_heap comp (l ++ [x])).Perm (l ++ [x])) ∧
  (∀ (α : Type) (comp : α → α → Bool) (x : α) (l : List α), StrictWeak comp →
      IsHeap comp (x :: l) →
      ∃ l', H.pop_heap comp (x :: l) = l' ++ [x] ∧ IsHeap comp l' ∧ l'.Perm l)

/-- Insertion of one element into a list ordered by `comp` (smallest first). -/
def orderedPut {α : Type} (comp : α → α → Bool) (x : α) : List α → List α
  | [] => [x]
  | y :: ys => if comp y x then x :: y :: ys else y :: orderedPut comp x ys

/-- Sorting by repeated ordered insertion. -/
def orderedSort {α : Type} (comp : α → α → Bool) : List α → List α
  | [] => []
  | x :: xs => orderedPut comp x (orderedSort comp xs)

/-- A reference implementation of the heap functions that keeps the vector fully ordered
(an ordered vector is a heap). -/
def sortingHeap : StlHeap where
  push_heap := fun comp l => orderedSort comp l
  pop_heap := fun comp l =>
    match l with
    | [] => []
    | x :: rest => orderedSort comp rest ++ [x]

/-! ## PriorityQueue -/

/-- Class template `PriorityQueueElement`. -/
structure PriorityQueueElement (V P : Type) where
  m_Value : V
  m_Priority : P
deriving DecidableEq, Repr

/-- Function template `Compare`: `operator>` on the priorities, which makes the heap a
min-heap. -/
def Compare {V P : Type} [LinearOrder P] (pqn1 pqn2 : PriorityQueueElement V P) : Bool :=
  decide (pqn1.m_Priority > pqn2.m_Priority)

/-- Class template `PriorityQueue`: the vector `m_MinHeap`. -/
structure PriorityQueue (V P : Type) where
  m_MinHeap : List (PriorityQueueElement V P)
deriving DecidableEq, Repr

namespace PriorityQueue

variable {V P : Type}

/-- Constructor `PriorityQueue()`. -/
def empty : PriorityQueue V P := ⟨[]⟩

/-- Method `Size`. -/
def Size (q : PriorityQueue V P) : Nat := q.m_MinHeap.length

/-- Method `Empty`. -/
def Empty (q : PriorityQueue V P) : Bool := q.m_MinHeap.length == 0

/-- The scan of `GetPriorityIfContains`: priority of the first element, in storage
order, whose value equals `val`. -/
def firstPriorityOf [BEq V] (val : V) : List (PriorityQueueElement V P) → Option P
  | [] => none
  | e :: es => if e.m_Value == val then some e.m_Priority else firstPriorityOf val es

/-- Method `GetPriorityIfContains`: `some p` stands for `true` with `priority = p`. -/
def GetPriorityIfContains [BEq V] (q : PriorityQueue V P) (val : V) : Option P :=
  firstPriorityOf val q.m_MinHeap

/-- Method `Contains`. -/
def Contains [BEq V] (q : PriorityQueue V P) (val : V) : Bool :=
  q.m_MinHeap.any (fun e => e.m_Value == val)

/-- Method `Top`: the value of `m_MinHeap.front()`. -/
def Top (q : PriorityQueue V P) : Res V :=
  match q.m_MinHeap with
  | [] => .outOfBounds
  | e :: _ => .ok e.m_Value

/-- Method `GetTopPriority`: the priority of `m_MinHeap.front()`. -/
def GetTopPriority (q : PriorityQueue V P) : Res P :=
  match q.m_MinHeap with
  | [] => .outOfBounds
  | e :: _ => .ok e.m_Priority

/-- The scan of `ChangePriority`: the first element whose value equals `value` gets the
new priority, in place. -/
def setFirstPriority [BEq V] (value : V) (priority : P) :
    List (PriorityQueueElement V P) → List (PriorityQueueElement V P)
  | [] => []
  | e :: es =>
    if e.m_Value == value then { e with m_Priority := priority } :: es
    else e :: setFirstPriority value priority es

/-- Method `ChangePriority`. -/
def ChangePriority [BEq V] (q : PriorityQueue V P) (value : V) (priority : P) :
    PriorityQueue V P :=
  ⟨setFirstPriority value priority q.m_MinHeap⟩

/-- Method `Pop`: `pop_heap` then `pop_back`. -/
def Pop [LinearOrder P] (H : StlHeap) (q : PriorityQueue V P) : Res (PriorityQueue V P) :=
  match q.m_MinHeap with
  | [] => .outOfBounds
  | e :: es => .ok ⟨(H.pop_heap Compare (e :: es)).dropLast⟩

/-- Method `Insert`: `push_back` then `push_heap`. -/
def Insert [LinearOrder P] (H : StlHeap) (q : PriorityQueue V P) (val : V) (priority : P) :
    PriorityQueue V P :=
  ⟨H.push_heap Compare (q.m_MinHeap ++ [⟨val, priority⟩])⟩

/-- Method `InsertIfPriorityLess`. -/
def InsertIfPriorityLess [BEq V] [LinearOrder P] (H : StlHeap) (q : PriorityQueue V P)
    (val : V) (priority : P) : PriorityQueue V P :=
  match q.GetPriorityIfContains val with
  | none => q.Insert H val priority
  | some tmp_priority => if priority < tmp_priority then q.Insert H val priority else q

end PriorityQueue

/-! ## Prim's algorithm -/

namespace Graph

/-- The loops `for (it ...) PQ.Insert(*it, it->GetEdgeWeight())` of `PrimMST`. -/
def insertEdges (H : StlHeap) : List Edge → PriorityQueue Edge ℚ → PriorityQueue Edge ℚ
  | [], PQ => PQ
  | e :: es, PQ => insertEdges H es (PQ.Insert H e e.GetEdgeWeight)

/-- The inner loop `while (PQ.Size() > 0)` of `PrimMST`, entered with
`bDisconnected == true`. The result is `(bDisconnected, e, PQ)`. -/
def primFind (H : StlHeap) (closeSet : List Nat) :
    Nat → Edge → PriorityQueue Edge ℚ → Res (Bool × Edge × PriorityQueue Edge ℚ)
  | 0, _, _ => .outOfFuel
  | fuel + 1, e, PQ =>
    if PQ.Size > 0 then
      PQ.Top.bind fun e1 =>
      (PQ.Pop H).bind fun PQ1 =>
        if closeSet.contains e1.GetEndVertexNumber = false then .ok (false, e1, PQ1)
        else primFind H closeSet fuel e1 PQ1
    else .ok (true, e, PQ)

/-- Local variables of `PrimMST`. -/
structure PrimState where
  G : Graph
  closeSet : List Nat
  PQ : PriorityQueue Edge ℚ
  length : ℚ
  bDisconnected : Bool

/-- The outer loop `while (closeSet.size() != G.GetVerticesAmount() && PQ.Size() > 0)`
of `PrimMST`, run on the graph `src`. -/
def primLoop (H : StlHeap) (src : Graph) : Nat → PrimState → Res PrimState
  | 0, _ => .outOfFuel
  | fuel + 1, s =>
    if s.closeSet.length ≠ s.G.GetVerticesAmount ∧ s.PQ.Size > 0 then
      (primFind H s.closeSet (fuel + 1) Edge.default s.PQ).bind fun r =>
        if r.1 then .ok { s with PQ := r.2.2, bDisconnected := true }
        else
          (s.G.AddEdgeE r.2.1).bind fun G1 =>
            match src.m_EdgeList[r.2.1.GetEndVertexNumber]? with
            | none => .outOfBounds
            | some l =>
              primLoop H src fuel
                { G := G1
                  closeSet := s.closeSet ++ [r.2.1.GetEndVertexNumber]
                  PQ := insertEdges H l r.2.2
                  length := s.length + r.2.1.GetEdgeWeight
                  bDisconnected := false }
    else .ok s

/-- Method `Graph::PrimMST`: the returned tree and the value left in `length`. -/
def PrimMST (H : StlHeap) (fuel : Nat) (src : Graph) : Res (Graph × ℚ) :=
  if src.GetVerticesAmount = 0 then .ok (Graph.ofSize src.GetVerticesAmount, 0)
  else
    match src.m_EdgeList[0]? with
    | none => .outOfBounds
    | some l0 =>
      (primLoop H src fuel
        { G := Graph.ofSize src.GetVerticesAmount
          closeSet := [0]
          PQ := insertEdges H l0 PriorityQueue.empty
          length := 0
          bDisconnected := true }).bind fun s =>
        if !s.bDisconnected then .ok (s.G, s.length) else .ok (Graph.ofSize 0, DBL_MAX)

end Graph

/-! ## Dijkstra's algorithm -/

namespace ShortestPathAlgorithm

/-- Method `OpenSetContains`. -/
def OpenSetContains (m_OpenSet : List Nat) (vertex : Nat) : Bool :=
  m_OpenSet.any (fun x => x == vertex)

/-- The loop that adds all the neighbours of `u` to the close set. -/
def seedNeighbors (H : StlHeap) : List Edge → PriorityQueue Nat ℚ → PriorityQueue Nat ℚ
  | [], q => q
  | e :: es, q => seedNeighbors H es (q.Insert H e.GetEndVertexNumber e.GetEdgeWeight)

/-- The loop over the neighbours of a vertex that has just been put in the open set. -/
def relaxNeighbors (H : StlHeap) (m_OpenSet : List Nat) (priority : ℚ) :
    List Edge → PriorityQueue Nat ℚ → PriorityQueue Nat ℚ
  | [], q => q
  | e :: es, q =>
    if !OpenSetContains m_OpenSet e.GetEndVertexNumber then
      relaxNeighbors H m_OpenSet priority es
        (q.InsertIfPriorityLess H e.GetEndVertexNumber (priority + e.GetEdgeWeight))
    else relaxNeighbors H m_OpenSet priority es q

/-- The main loop of `GetShortestPathLength`, with the `return -1` that follows it. -/
def lengthLoop (H : StlHeap) (G : Graph) (v : Nat) :
    Nat → List Nat → PriorityQueue Nat ℚ → Res ℚ
  | 0, _, _ => .outOfFuel
  | fuel + 1, m_OpenSet, m_CloseSet =>
    if m_CloseSet.Empty then .ok (-1)
    else
      m_CloseSet.Top.bind fun vertex =>
      m_CloseSet.GetTopPriority.bind fun priority =>
      (m_CloseSet.Pop H).bind fun closeSet1 =>
        if vertex = v then .ok priority
        else if !OpenSetContains m_OpenSet vertex then
          (G.GetNodeEdges vertex).bind fun neighbors =>
            lengthLoop H G v fuel (m_OpenSet ++ [vertex])
              (relaxNeighbors H (m_OpenSet ++ [vertex]) priority neighbors closeSet1)
        else lengthLoop H G v fuel m_OpenSet closeSet1

/-- Method `GetShortestPathLength`. -/
def GetShortestPathLength (H : StlHeap) (fuel : Nat) (G : Graph) (u v : Nat) : Res ℚ :=
  (G.GetNodeEdges u).bind fun firstVNeighbors =>
    lengthLoop H G v fuel [u] (seedNeighbors H firstVNeighbors PriorityQueue.empty)

/-- The main loop of `AverageShortestPath`: the final open set and sum. -/
def averageLoop (H : StlHeap) (G : Graph) :
    Nat → List Nat → PriorityQueue Nat ℚ → ℚ → Res (List Nat × ℚ)
  | 0, _, _, _ => .outOfFuel
  | fuel + 1, m_OpenSet, m_CloseSet, sum =>
    if m_CloseSet.Empty then .ok (m_OpenSet, sum)
    else
      m_CloseSet.Top.bind fun vertex =>
      m_CloseSet.GetTopPriority.bind fun priority =>
      (m_CloseSet.Pop H).bind fun closeSet1 =>
        if !OpenSetContains m_OpenSet vertex then
          (G.GetNodeEdges vertex).bind fun neighbors =>
            averageLoop H G fuel (m_OpenSet ++ [vertex])
              (relaxNeighbors H (m_OpenSet ++ [vertex]) priority neighbors closeSet1)
              (sum + priority)
        else averageLoop H G fuel m_OpenSet closeSet1 sum

/-- Method `AverageShortestPath`. -/
def AverageShortestPath (H : StlHeap) (fuel : Nat) (G : Graph) (u : Nat) : Res ℚ :=
  (G.GetNodeEdges u).bind fun firstVNeighbors =>
    (averageLoop H G fuel [u] (seedNeighbors H firstVNeighbors PriorityQueue.empty) 0).bind
      fun r =>
        if r.1.length > 1 then .ok (r.2 / ((r.1.length - 1 : Nat) : ℚ)) else .ok (-1)

end ShortestPathAlgorithm

/-! ## Specification vocabulary -/

namespace Graph

/-- The adjacency list stored for vertex `x` (empty when `x` is not a vertex). -/
def adj (G : Graph) (x : Nat) : List Edge := (G.m_EdgeList[x]?).getD []

/-- The vertex count and the two ids past it are representable as `unsigned int`. -/
def Fits (G : Graph) : Prop := G.m_EdgeList.length + 1 < UINT_RANGE

instance (G : Graph) : Decidable G.Fits := inferInstanceAs (Decidable (_ < _))

/-- Every stored edge ends in a vertex of the graph. -/
def EndsInRange (G : Graph) : Prop :=
  ∀ x, ∀ e ∈ G.adj x, e.m_endVertex < G.m_EdgeList.length

/-- Every stored edge has a non-negative weight. -/
def NonNegative (G : Graph) : Prop := ∀ x, ∀ e ∈ G.adj x, 0 ≤ e.m_Weight

/-- Total number of stored edges, over all adjacency lists. -/
def storedEdges (G : Graph) : Nat := (G.m_EdgeList.map List.length).sum

/-- A walk along stored edges: `IsWalk G a es b` says that the edges `es`, taken in order
from the adjacency lists of the vertices reached, lead from `a` to `b`. -/
def IsWalk (G : Graph) : Nat → List Edge → Nat → Prop
  | a, [], b => a = b
  | a, e :: es, b => e ∈ G.adj a ∧ IsWalk G e.m_endVertex es b

/-- Sum of the weights of a sequence of edges. -/
def walkWeight (es : List Edge) : ℚ := (es.map (fun e => e.m_Weight)).sum

/-- Vertex `v` can be reached from `u` by a walk along stored edges. -/
def Reachable (G : Graph) (u v : Nat) : Prop := ∃ W, G.IsWalk u W v

/-- The number `d` is the minimum of the weights of the walks from `u` to `v`. -/
def IsShortest (G : Graph) (u v : Nat) (d : ℚ) : Prop :=
  (∃ W, G.IsWalk u W v ∧ walkWeight W = d) ∧ ∀ W, G.IsWalk u W v → d ≤ walkWeight W

/-- Edges as `AddEdge` stores them: an edge in the list of `x` starts at `x`, ends in a
vertex of the graph, and the list of its end vertex holds an edge back to `x` with the
same weight. -/
def Mirrored (G : Graph) : Prop :=
  ∀ x, ∀ e ∈ G.adj x, e.m_startVertex = x ∧ e.m_endVertex < G.m_EdgeList.length ∧
    ∃ e1 ∈ G.adj e.m_endVertex, e1.m_endVertex = x ∧ e1.m_Weight = e.m_Weight

/-- Two vertices are joined by one of the edges of `T`, in either direction. -/
def Linked (T : List Edge) (a b : Nat) : Prop :=
  ∃ t ∈ T, (t.m_startVertex = a ∧ t.m_endVertex = b) ∨ (t.m_startVertex = b ∧ t.m_endVertex = a)

/-- Connected through the edges of `T`. -/
def Connects (T : List Edge) (a b : Nat) : Prop := Relation.ReflTransGen (Linked T) a b

/-- A spanning tree of `G`, given by one stored edge per undirected tree edge: the edges
are stored edges of `G`, there is one fewer than vertices, and they connect every vertex
to vertex 0. (A connected graph on `N` vertices with `N - 1` edges is a tree.) -/
def IsSpanningTree (G : Graph) (T : List Edge) : Prop :=
  (∀ t ∈ T, t ∈ G.adj t.m_startVertex) ∧ T.length + 1 = G.m_EdgeList.length ∧
    ∀ x, x < G.m_EdgeList.length → Connects T 0 x

/-- A graph as the file constructor builds it from the line `0 1 5` after the header `2`:
the edge is stored in one direction only. -/
def oneWayGraph : Graph := ⟨[[⟨0, 1, 5⟩], []], 1⟩

/-- The graph built by `AddEdge(0,1,1)`, `AddEdge(1,2,2)`, `AddEdge(0,2,5)` on `Graph(3)`. -/
def triangleGraph : Graph :=
  ⟨[[⟨0, 1, 1⟩, ⟨0, 2, 5⟩], [⟨1, 0, 1⟩, ⟨1, 2, 2⟩], [⟨2, 1, 2⟩, ⟨2, 0, 5⟩]], 3⟩

/-- The graph built by `AddEdge(0,1,1)` on `Graph(2)`: no vertex has an edge to itself. -/
def pairGraph : Graph := ⟨[[⟨0, 1, 1⟩], [⟨1, 0, 1⟩]], 1⟩

end Graph

/-! ## Loop invariants -/

namespace Graph

/-- Work still ahead of a search whose open set is `O`: the sizes of the adjacency lists
of the vertices that are not in `O`. -/
def pendingWork (G : Graph) (O : List Nat) : Nat :=
  ∑ x in (Finset.range G.m_EdgeList.length).filter (fun x => x ∉ O), (G.adj x).length

end Graph

namespace ShortestPathAlgorithm

/-- Invariant of the three search loops, for source `u`, open set `O` and close set `Q`:
the queue is a heap; the open set holds `u` and only distinct vertices of the graph, each
with a shortest walk from `u`; every queue entry is the weight of a walk from `u`; and
every edge leaving the open set is covered by a queue entry that is at least as good as
the shortest walk through that edge. -/
structure Inv (G : Graph) (u : Nat) (O : List Nat) (Q : PriorityQueue Nat ℚ) : Prop where
  heap : IsHeap Compare Q.m_MinHeap
  src : u ∈ O
  inRange : ∀ y ∈ O, y < G.m_EdgeList.length
  nodup : O.Nodup
  fin : ∀ y ∈ O, ∃ d, G.IsShortest u y d
  ent : ∀ el ∈ Q.m_MinHeap, ∃ W, G.IsWalk u W el.m_Value ∧ Graph.walkWeight W = el.m_Priority
  cov : ∀ y ∈ O, ∀ d, G.IsShortest u y d → ∀ e ∈ G.adj y, e.m_endVertex ∉ O →
    ∃ el ∈ Q.m_MinHeap, el.m_Value = e.m_endVertex ∧ el.m_Priority ≤ d + e.m_Weight

end ShortestPathAlgorithm

namespace Graph

/-- A path given by the vertices visited after `a`: consecutive vertices are related by
`r`, and the last one is `b`. -/
def IsTrail (r : Nat → Nat → Prop) : Nat → List Nat → Nat → Prop
  | a, [], b => a = b
  | a, c :: p, b => r a c ∧ IsTrail r c p b

/-- Joined by an edge of `T` other than one between `a` and `b`. -/
def LinkedAvoiding (T : List Edge) (a b : Nat) (s t : Nat) : Prop :=
  Linked T s t ∧ ¬ (s = a ∧ t = b) ∧ ¬ (s = b ∧ t = a)

/-- Invariant of the outer loop of `PrimMST` on the graph `src`, where `F` lists the
edges added to the tree so far: the queue is a heap whose entries are stored edges that
start in the close set, keyed by their weight; every stored edge that leaves the close
set is in the queue; the edges of `F` join vertices of the close set, are one fewer than
these, and their weights add up to `length`; every spanning tree can be traded for one
that contains `F` and weighs no more; and the tree under construction has all the
vertices and only edges that end in the close set. -/
structure PrimInv (src : Graph) (s : PrimState) (F : List Edge) : Prop where
  heap : IsHeap Compare s.PQ.m_MinHeap
  zero : 0 ∈ s.closeSet
  inRange : ∀ c ∈ s.closeSet, c < src.m_EdgeList.length
  nodup : s.closeSet.Nodup
  ent : ∀ el ∈ s.PQ.m_MinHeap, el.m_Priority = el.m_Value.m_Weight ∧
    el.m_Value ∈ src.adj el.m_Value.m_startVertex ∧ el.m_Value.m_startVertex ∈ s.closeSet
  cov : ∀ y ∈ s.closeSet, ∀ e ∈ src.adj y, e.m_endVertex ∉ s.closeSet →
    (⟨e, e.m_Weight⟩ : PriorityQueueElement Edge ℚ) ∈ s.PQ.m_MinHeap
  inside : ∀ f ∈ F, f.m_startVertex ∈ s.closeSet ∧ f.m_endVertex ∈ s.closeSet
  len : s.length = walkWeight F
  count : F.length + 1 = s.closeSet.length
  best : ∀ T, src.IsSpanningTree T →
    ∃ T1, src.IsSpanningTree T1 ∧ F.Subperm T1 ∧ walkWeight T1 ≤ walkWeight T
  treeSize : s.G.m_EdgeList.length = src.m_EdgeList.length
  treeEnds : ∀ x, ∀ e ∈ s.G.adj x, e.m_endVertex ∈ s.closeSet
  live : s.bDisconnected = false → 0 < s.PQ.m_MinHeap.length

/-- A single vertex with the edge to itself that the random constructor gives every
vertex. -/
def loopGraph : Graph := ⟨[[⟨0, 0, 0⟩]], 1⟩

end Graph

/-! ## Graph: removing edges and changing weights -/

namespace Graph

/-- The scan of `DeleteEdge`: the first edge of the list that ends in `v` is erased. -/
def eraseFirstTo (v : Nat) : List Edge → List Edge
  | [] => []
  | e :: es => if e.GetEndVertexNumber = v then es else e :: eraseFirstTo v es

/-- Method `Graph::DeleteEdge`. The counter is decremented in `unsigned int` arithmetic. -/
def DeleteEdge (G : Graph) (v1 v2 : Nat) : Res Graph :=
  if v1 = v2 then .ok G
  else
    (G.Adjacent v1 v2).bind fun adj =>
      if adj then
        match G.m_EdgeList[v1]? with
        | none => .outOfBounds
        | some l1 =>
          match (G.m_EdgeList.set v1 (eraseFirstTo v2 l1))[v2]? with
          | none => .outOfBounds
          | some l2 =>
            .ok ⟨(G.m_EdgeList.set v1 (eraseFirstTo v2 l1)).set v2 (eraseFirstTo v1 l2),
              (G.m_EdgesAmount + UINT_RANGE - 1) % UINT_RANGE⟩
      else .ok G

/-- The scan of `SetEdgeValue`: the first edge of the list that ends in `v2` gets the
new weight. -/
def setFirstWeightTo (v2 : Nat) (value : ℚ) : List Edge → List Edge
  | [] => []
  | e :: es =>
    if e.GetEndVertexNumber = v2 then e.SetEdgeWeight value :: es
    else e :: setFirstWeightTo v2 value es

/-- Method `Graph::SetEdgeValue`. -/
def SetEdgeValue (G : Graph) (v1 v2 : Nat) (value : ℚ) : Res Graph :=
  (G.Adjacent v1 v2).bind fun adj =>
    if adj then
      match G.m_EdgeList[v1]? with
      | none => .outOfBounds
      | some l => .ok ⟨G.m_EdgeList.set v1 (setFirstWeightTo v2 value l), G.m_EdgesAmount⟩
    else .ok G

/-! ## Graph: the random constructor -/

/-- Function `GenerateRandomDouble`. The stream `rnd` gives the successive values of
`rand() / RAND_MAX`, and `k` counts the values already taken; the result is the number
generated and the new count. -/
def GenerateRandomDouble (rnd : Nat → ℚ) (k : Nat) (dMin dMax : ℚ) : ℚ × Nat :=
  (dMin + rnd k * (dMax - dMin), k + 1)

/-- State of the random constructor: the adjacency lists, the edge counter and the number
of random values taken. -/
structure GenState where
  m_EdgeList : List (List Edge)
  m_EdgesAmount : Nat
  taken : Nat
deriving DecidableEq, Repr

/-- The inner loop `for (size_t j = i + 1; j < m_EdgeList.size(); ++j)` of the random
constructor, with `n` values of `j` left to visit. -/
def randomInner (rnd : Nat → ℚ) (density distance_min distance_max : ℚ) (i : Nat) :
    Nat → Nat → GenState → Res GenState
  | 0, _, s => .ok s
  | n + 1, j, s =>
    if (GenerateRandomDouble rnd s.taken 0 1).1 < density then
      (pushBackAt s.m_EdgeList i
        ⟨i, j, (GenerateRandomDouble rnd (s.taken + 1) distance_min distance_max).1⟩).bind
        fun ls1 =>
      (pushBackAt ls1 j
        ⟨j, i, (GenerateRandomDouble rnd (s.taken + 1) distance_min distance_max).1⟩).bind
        fun ls2 =>
      randomInner rnd density distance_min distance_max i n (j + 1)
        ⟨ls2, (s.m_EdgesAmount + 2) % UINT_RANGE, s.taken + 2⟩
    else
      randomInner rnd density distance_min distance_max i n (j + 1)
        { s with taken := s.taken + 1 }

/-- The outer loop `for (size_t i = 0; i < m_EdgeList.size(); ++i)` of the random
constructor, with `n` values of `i` left to visit. -/
def randomOuter (rnd : Nat → ℚ) (density distance_min distance_max : ℚ) :
    Nat → Nat → GenState → Res GenState
  | 0, _, s => .ok s
  | n + 1, i, s =>
    (pushBackAt s.m_EdgeList i ⟨i, i, 0⟩).bind fun ls1 =>
    (randomInner rnd density distance_min distance_max i n (i + 1)
      ⟨ls1, (s.m_EdgesAmount + 1) % UINT_RANGE, s.taken⟩).bind fun s1 =>
    randomOuter rnd density distance_min distance_max n (i + 1) s1

/-- Constructor `Graph::Graph(size, density, distance_min, distance_max)`, run on the
stream `rnd` of random values. -/
def ofRandom (rnd : Nat → ℚ) (size : Nat) (density distance_min distance_max : ℚ) :
    Res Graph :=
  (randomOuter rnd density distance_min distance_max size 0
    ⟨List.replicate size [], 0, 0⟩).bind fun s => .ok ⟨s.m_EdgeList, s.m_EdgesAmount⟩

/-- Number of edges from a vertex to a higher one in a family of adjacency lists. -/
def risingEdges (ls : List (List Edge)) : Nat :=
  (ls.map fun l => l.countP fun e => decide (e.m_startVertex < e.m_endVertex)).sum

/-- Number of unordered pairs `i < j` for which the adjacency lists hold an edge from `i`
to `j`. -/
def createdPairs (G : Graph) : Nat := risingEdges G.m_EdgeList

end Graph

/-! ## A binary heap implementation of the heap functions -/

/-- Function `std::__push_heap`: the hole moves up from `holeIndex` while its parent
compares below `value`, never above `topIndex`; then `value` is stored in the hole. -/
def pushHeapHole {α : Type} (comp : α → α → Bool) (value : α) (topIndex : Nat) :
    Nat → List α → Nat → List α
  | 0, l, holeIndex => l.set holeIndex value
  | fuel + 1, l, holeIndex =>
    match l[(holeIndex - 1) / 2]? with
    | some parent =>
      if holeIndex > topIndex ∧ comp parent value = true then
        pushHeapHole comp value topIndex fuel (l.set holeIndex parent) ((holeIndex - 1) / 2)
      else l.set holeIndex value
    | none => l.set holeIndex value

/-- The first loop of `std::__adjust_heap`: the hole moves down to the child that does
not compare below the other one, as long as it has two children. -/
def adjustHeapLoop {α : Type} (comp : α → α → Bool) (len : Nat) :
    Nat → List α → Nat → List α × Nat
  | 0, l, holeIndex => (l, holeIndex)
  | fuel + 1, l, holeIndex =>
    if holeIndex < (len - 1) / 2 then
      match l[2 * (holeIndex + 1)]?, l[2 * (holeIndex + 1) - 1]? with
      | some right, some left =>
        if comp right left then
          adjustHeapLoop comp len fuel (l.set holeIndex left) (2 * (holeIndex + 1) - 1)
        else adjustHeapLoop comp len fuel (l.set holeIndex right) (2 * (holeIndex + 1))
      | _, _ => (l, holeIndex)
    else (l, holeIndex)

/-- Function `std::__adjust_heap` on the first `len` positions. -/
def adjustHeap {α : Type} (comp : α → α → Bool) (l : List α) (holeIndex len : Nat)
    (value : α) : List α :=
  let r := adjustHeapLoop comp len len l holeIndex
  if len % 2 = 0 ∧ r.2 = (len - 2) / 2 then
    match r.1[2 * (r.2 + 1) - 1]? with
    | some child =>
      pushHeapHole comp value holeIndex len (r.1.set r.2 child) (2 * (r.2 + 1) - 1)
    | none => pushHeapHole comp value holeIndex len r.1 r.2
  else pushHeapHole comp value holeIndex len r.1 r.2

/-- The heap functions as the GNU standard library implements them. -/
def binaryHeap : StlHeap where
  push_heap := fun comp l =>
    match l.getLast? with
    | none => l
    | some value => pushHeapHole comp value 0 l.length l (l.length - 1)
  pop_heap := fun comp l =>
    if l.length > 1 then
      match l[0]?, l.getLast? with
      | some first, some value =>
        adjustHeap comp (l.set (l.length - 1) first) 0 (l.length - 1) value
      | _, _ => l
    else l

/-! ## Path -/

namespace Graph

/-- Class `Path`: the vertices of the path and its weight. Every constructor puts a
vertex in the list and nothing removes one, so the list is never empty. -/
structure Path where
  m_Path : List Nat
  m_Weight : ℚ
  nonempty : m_Path ≠ []

namespace Path

/-- Constructor `Path::Path(unsigned int start)`. -/
def single (start : Nat) : Path := ⟨[start], 0, by simp⟩

/-- Constructor `Path::Path(const Path&, const Edge&)`: the path continued by an edge. -/
def extend (path : Path) (edge : Edge) : Path :=
  ⟨path.m_Path ++ [edge.GetEndVertexNumber], path.m_Weight + edge.GetEdgeWeight, by simp⟩

/-- Method `Path::AddVertex`. -/
def AddVertex (path : Path) (edge : Edge) : Path :=
  ⟨path.m_Path ++ [edge.GetEndVertexNumber], path.m_Weight + edge.GetEdgeWeight, by simp⟩

/-- Method `Path::GetWeight`. -/
def GetWeight (path : Path) : ℚ := path.m_Weight

/-- Method `Path::GetPath`. -/
def GetPath (path : Path) : List Nat := path.m_Path

/-- Method `Path::GetFinalVertex`: `m_Path.back()`. -/
def GetFinalVertex (path : Path) : Nat := path.m_Path.getLast path.nonempty

/-- Operator `Path::operator==`. -/
def eq (p path : Path) : Bool :=
  if p.m_Path.length ≠ path.m_Path.length then false
  else p.GetFinalVertex == path.GetFinalVertex

instance instBEq : BEq Path := ⟨Path.eq⟩

end Path

end Graph

/-! ## Dijkstra's algorithm: the path query -/

namespace ShortestPathAlgorithm

/-- The loop of `GetShortestPath` that adds the paths to all the neighbours of `u` to
the close set. -/
def seedPaths (H : StlHeap) (currentPath : Graph.Path) :
    List Edge → PriorityQueue Graph.Path ℚ → PriorityQueue Graph.Path ℚ
  | [], q => q
  | e :: es, q =>
    seedPaths H currentPath es
      (q.Insert H (currentPath.extend e) (currentPath.extend e).GetWeight)

/-- The loop of `GetShortestPath` over the neighbours of the vertex that has just been
put in the open set. -/
def relaxPaths (H : StlHeap) (m_OpenSet : List Nat) (currentPath : Graph.Path) :
    List Edge → PriorityQueue Graph.Path ℚ → PriorityQueue Graph.Path ℚ
  | [], q => q
  | e :: es, q =>
    if !OpenSetContains m_OpenSet e.GetEndVertexNumber then
      relaxPaths H m_OpenSet currentPath es
        (q.InsertIfPriorityLess H (currentPath.extend e) (currentPath.extend e).GetWeight)
    else relaxPaths H m_OpenSet currentPath es q

/-- The main loop of `GetShortestPath`, with the `return Path(u)` that follows it. -/
def pathLoop (H : StlHeap) (G : Graph) (u v : Nat) :
    Nat → List Nat → PriorityQueue Graph.Path ℚ → Res Graph.Path
  | 0, _, _ => .outOfFuel
  | fuel + 1, m_OpenSet, m_PathCloseSet =>
    if m_PathCloseSet.Empty then .ok (Graph.Path.single u)
    else
      m_PathCloseSet.Top.bind fun currentPath =>
      m_PathCloseSet.GetTopPriority.bind fun _priority =>
      (m_PathCloseSet.Pop H).bind fun closeSet1 =>
        if currentPath.GetFinalVertex = v then .ok currentPath
        else if !OpenSetContains m_OpenSet currentPath.GetFinalVertex then
          (G.GetNodeEdges currentPath.GetFinalVertex).bind fun neighbors =>
            pathLoop H G u v fuel (m_OpenSet ++ [currentPath.GetFinalVertex])
              (relaxPaths H (m_OpenSet ++ [currentPath.GetFinalVertex]) currentPath neighbors
                closeSet1)
        else pathLoop H G u v fuel m_OpenSet closeSet1

/-- Method `GetShortestPath`. -/
def GetShortestPath (H : StlHeap) (fuel : Nat) (G : Graph) (u v : Nat) : Res Graph.Path :=
  (G.GetNodeEdges u).bind fun firstVNeighbors =>
    pathLoop H G u v fuel [u] (seedPaths H (Graph.Path.single u) firstVNeighbors PriorityQueue.empty)

end ShortestPathAlgorithm

/-! ## Graphs built through the public operations -/

namespace Graph

/-- Number of edges of the list that end in `y`. -/
def countTo (y : Nat) (l : List Edge) : Nat := l.countP (fun e => e.m_endVertex == y)

/-- The graphs obtained from `Graph(n)` by calls of `AddEdge`, `DeleteEdge` and
`SetEdgeValue` on vertices of the graph. -/
inductive Built : Graph → Prop where
  | ofSize (n : Nat) : n + 1 < UINT_RANGE → Built (ofSize n)
  | addEdge {G G1 : Graph} (v1 v2 : Nat) (w : ℚ) : Built G → v1 < G.m_EdgeList.length →
      v2 < G.m_EdgeList.length → G.AddEdge v1 v2 w = .ok G1 → Built G1
  | deleteEdge {G G1 : Graph} (v1 v2 : Nat) : Built G → v1 < G.m_EdgeList.length →
      v2 < G.m_EdgeList.length → G.DeleteEdge v1 v2 = .ok G1 → Built G1
  | setEdgeValue {G G1 : Graph} (v1 v2 : Nat) (w : ℚ) : Built G → v1 < G.m_EdgeList.length →
      v2 < G.m_EdgeList.length → G.SetEdgeValue v1 v2 w = .ok G1 → Built G1

/-- What the public operations keep true: the vertex count fits and the edge counter is
an `unsigned int`; an edge in the list of `x` starts at `x`; adjacency is symmetric; and
between two different vertices there is at most one edge in each direction. -/
structure Tidy (G : Graph) : Prop where
  fits : G.Fits
  counter : G.m_EdgesAmount < UINT_RANGE
  starts : ∀ x, ∀ e ∈ G.adj x, e.m_startVertex = x
  sym : ∀ x y, x < G.m_EdgeList.length → y < G.m_EdgeList.length →
    (0 < countTo y (G.adj x) ↔ 0 < countTo x (G.adj y))
  uniq : ∀ x y, x ≠ y → countTo y (G.adj x) ≤ 1

end Graph


/-! ## Reachable queue states -/

namespace PriorityQueue

/-- The queue states obtained from the empty queue by calls of `Insert`,
`InsertIfPriorityLess` and, on a non-empty queue, `Pop`. -/
inductive Reach {V P : Type} [BEq V] [LinearOrder P] (H : StlHeap) :
    PriorityQueue V P → Prop where
  | empty : Reach H PriorityQueue.empty
  | insert {q : PriorityQueue V P} (val : V) (priority : P) :
      Reach H q → Reach H (q.Insert H val priority)
  | insertIfPriorityLess {q : PriorityQueue V P} (val : V) (priority : P) :
      Reach H q → Reach H (q.InsertIfPriorityLess H val priority)
  | pop {q q1 : PriorityQueue V P} :
      Reach H q → q.Empty = false → q.Pop H = .ok q1 → Reach H q1

end PriorityQueue


/-! ## Invariant of the path search -/

namespace ShortestPathAlgorithm

/-- The vertex and priority that an entry of the path queue stands for. -/
def entryOf (el : PriorityQueueElement Graph.Path ℚ) : PriorityQueueElement Nat ℚ :=
  ⟨el.m_Value.GetFinalVertex, el.m_Priority⟩

/-- The path queue seen as a queue of vertices. -/
def vertexQueue (Q : PriorityQueue Graph.Path ℚ) : PriorityQueue Nat ℚ :=
  ⟨Q.m_MinHeap.map entryOf⟩

/-- The path `p` records a walk from `u` along stored edges: its vertices are `u` followed
by the end vertices of the edges of the walk, in order, its final vertex is where the walk
ends, and its weight is the sum of the weights of these edges. -/
def TracesWalk (G : Graph) (u : Nat) (p : Graph.Path) : Prop :=
  ∃ W, G.IsWalk u W p.GetFinalVertex ∧ p.m_Path = u :: W.map (fun e => e.m_endVertex) ∧
    p.m_Weight = Graph.walkWeight W

/-- Invariant of the loop of `GetShortestPath`: the invariant of the length search for
the final vertices of the queued paths, and every queued path records a walk from `u`
and is queued with its weight as priority. -/
structure PathInv (G : Graph) (u : Nat) (O : List Nat) (Q : PriorityQueue Graph.Path ℚ) :
    Prop where
  base : Inv G u O (vertexQueue Q)
  valid : ∀ el ∈ Q.m_MinHeap, TracesWalk G u el.m_Value ∧ el.m_Priority = el.m_Value.m_Weight

end ShortestPathAlgorithm

/-! ## Vocabulary for termination -/

namespace Graph

/-- Every stored edge starts in a vertex of the graph. -/
def StartsInRange (G : Graph) : Prop :=
  ∀ x, ∀ e ∈ G.adj x, e.m_startVertex < G.m_EdgeList.length

/-- A graph with negative weights: the edge 0-1 of weight -2 and the edge 1-2 of weight
-3, stored in both directions. -/
def negativeGraph : Graph :=
  ⟨[[⟨0, 1, -2⟩], [⟨1, 0, -2⟩, ⟨1, 2, -3⟩], [⟨2, 1, -3⟩]], 2⟩

end Graph

/-! ## Vocabulary for the tree returned by Prim's algorithm -/

namespace Graph

/-- Sum of the weights of the edges of a list that go from a vertex to a higher one. -/
def risingWeight (l : List Edge) : ℚ :=
  walkWeight (l.filter fun e => decide (e.m_startVertex < e.m_endVertex))

/-- Sum of the weights of the undirected edges of a graph that stores each of them in
both directions and has no edge from a vertex to itself: every undirected edge is counted
at its stored edge from the lower to the higher vertex. -/
def undirectedWeight (G : Graph) : ℚ := (G.m_EdgeList.map risingWeight).sum

/-- What the outer loop of `PrimMST` keeps true of the tree `s.G` under construction,
where `F` lists the edges added so far: the edges of `F` are stored edges of `src`; an
edge in the list of `x` in the tree starts at `x`, does not end at `x`, and joins the end
points of an edge of `F` with the same weight; the tree stores every edge in both
directions; every vertex of the close set can be reached from vertex 0 in the tree; the
weights of the undirected edges of the tree add up to `length`; and the edge counter of
the tree is the number of edges added. -/
structure TreeInv (src : Graph) (s : PrimState) (F : List Edge) : Prop where
  stored : ∀ f ∈ F, f ∈ src.adj f.m_startVertex
  members : ∀ x, ∀ e ∈ s.G.adj x, e.m_startVertex = x ∧ e.m_startVertex ≠ e.m_endVertex ∧
    ∃ f ∈ F, f.m_Weight = e.m_Weight ∧
      ((f.m_startVertex = e.m_startVertex ∧ f.m_endVertex = e.m_endVertex) ∨
        (f.m_startVertex = e.m_endVertex ∧ f.m_endVertex = e.m_startVertex))
  mirror : ∀ x, ∀ e ∈ s.G.adj x,
    (⟨e.m_endVertex, e.m_startVertex, e.m_Weight⟩ : Edge) ∈ s.G.adj e.m_endVertex
  reach : ∀ c ∈ s.closeSet, s.G.Reachable 0 c
  weight : s.G.undirectedWeight = s.length
  edges : s.G.m_EdgesAmount = F.length

end Graph

/-! ## Basic facts -/

@[simp] theorem Res.bind_ok {α β : Type} (a : α) (f : α → Res β) : (Res.ok a).bind f = f a := rfl

@[simp] theorem Res.bind_outOfBounds {α β : Type} (f : α → Res β) :
    (Res.outOfBounds : Res α).bind f = .outOfBounds := rfl

@[simp] theorem Res.bind_outOfFuel {α β : Type} (f : α → Res β) :
    (Res.outOfFuel : Res α).bind f = .outOfFuel := rfl

namespace Graph

theorem rangeBound_of_fits (G : Graph) (h : G.Fits) : G.rangeBound = G.m_EdgeList.length + 1 := by
  unfold Fits at h
  unfold rangeBound GetVerticesAmount
  have h1 : G.m_EdgeList.length % UINT_RANGE = G.m_EdgeList.length := Nat.mod_eq_of_lt (by omega)
  rw [h1, Nat.mod_eq_of_lt h]

theorem GetVerticesAmount_of_fits (G : Graph) (h : G.Fits) :
    G.GetVerticesAmount = G.m_EdgeList.length := by
  unfold Fits at h
  unfold GetVerticesAmount
  exact Nat.mod_eq_of_lt (by omega)

theorem adj_of_lt (G : Graph) (x : Nat) (h : x < G.m_EdgeList.length) :
    G.m_EdgeList[x]? = some (G.adj x) := by
  simp [adj, List.getElem?_eq_getElem h]

theorem adj_of_ge (G : Graph) (x : Nat) (h : G.m_EdgeList.length ≤ x) : G.adj x = [] := by
  simp [adj, List.getElem?_eq_none h]

theorem GetNodeEdges_of_lt (G : Graph) (h : G.Fits) (x : Nat) (hx : x < G.m_EdgeList.length) :
    G.GetNodeEdges x = .ok (G.adj x) := by
  unfold GetNodeEdges
  rw [rangeBound_of_fits G h, if_neg (by omega), adj_of_lt G x hx]

theorem Adjacent_of_lt (G : Graph) (h : G.Fits) (v1 v2 : Nat) (h1 : v1 < G.m_EdgeList.length)
    (h2 : v2 < G.m_EdgeList.length) :
    G.Adjacent v1 v2 = .ok ((G.adj v1).any (fun e => e.GetEndVertexNumber == v2)) := by
  unfold Adjacent
  rw [rangeBound_of_fits G h, if_neg (by omega), adj_of_lt G v1 h1]

end Graph

namespace Graph

theorem getD_set (ls : List (List Edge)) (i : Nat) (l : List Edge) (x : Nat)
    (hi : i < ls.length) :
    ((ls.set i l)[x]?).getD [] = if x = i then l else (ls[x]?).getD [] := by
  by_cases hx : x = i
  · subst hx
    simp [List.getElem?_set, hi]
  · have hx1 : ¬ i = x := fun h => hx h.symm
    simp [List.getElem?_set, hx, hx1]

theorem getElem?_eq_some_getD (ls : List (List Edge)) (x : Nat) (h : x < ls.length) :
    ls[x]? = some ((ls[x]?).getD []) := by
  simp [List.getElem?_eq_getElem h]

theorem Adjacent_true_iff (G : Graph) (h : G.Fits) (v1 v2 : Nat)
    (h1 : v1 < G.m_EdgeList.length) (h2 : v2 < G.m_EdgeList.length) :
    G.Adjacent v1 v2 = .ok true ↔ ∃ e ∈ G.adj v1, e.m_endVertex = v2 := by
  rw [Adjacent_of_lt G h v1 v2 h1 h2]
  simp [Edge.GetEndVertexNumber]

theorem Adjacent_false_iff (G : Graph) (h : G.Fits) (v1 v2 : Nat)
    (h1 : v1 < G.m_EdgeList.length) (h2 : v2 < G.m_EdgeList.length) :
    G.Adjacent v1 v2 = .ok false ↔ ∀ e ∈ G.adj v1, e.m_endVertex ≠ v2 := by
  rw [Adjacent_of_lt G h v1 v2 h1 h2]
  simp [Edge.GetEndVertexNumber]

theorem AddEdge_of_adjacent (G : Graph) (v1 v2 : Nat) (w : ℚ)
    (h : G.Adjacent v1 v2 = .ok true) : G.AddEdge v1 v2 w = .ok G := by
  unfold AddEdge
  rw [h]
  rfl

/-- The effect of `AddEdge` on two vertices of the graph that are not yet adjacent. -/
theorem AddEdge_new (G : Graph) (hfit : G.Fits) (v1 v2 : Nat) (w : ℚ)
    (h1 : v1 < G.m_EdgeList.length) (h2 : v2 < G.m_EdgeList.length)
    (hna : ∀ e ∈ G.adj v1, e.m_endVertex ≠ v2) :
    ∃ G1, G.AddEdge v1 v2 w = .ok G1 ∧ G1.m_EdgeList.length = G.m_EdgeList.length ∧
      G1.m_EdgesAmount = (G.m_EdgesAmount + 1) % UINT_RANGE ∧
      ∀ x, G1.adj x =
        if x = v2 then (if v2 = v1 then G.adj v1 ++ [⟨v1, v2, w⟩] else G.adj v2) ++ [⟨v2, v1, w⟩]
        else if x = v1 then G.adj v1 ++ [⟨v1, v2, w⟩] else G.adj x := by
  have hA := (Adjacent_false_iff G hfit v1 v2 h1 h2).2 hna
  have hset1 : v2 < (G.m_EdgeList.set v1 (G.adj v1 ++ [⟨v1, v2, w⟩])).length := by
    simpa using h2
  refine ⟨⟨(G.m_EdgeList.set v1 (G.adj v1 ++ [⟨v1, v2, w⟩])).set v2
      (((G.m_EdgeList.set v1 (G.adj v1 ++ [⟨v1, v2, w⟩]))[v2]?).getD [] ++ [⟨v2, v1, w⟩]),
      (G.m_EdgesAmount + 1) % UINT_RANGE⟩, ?_, ?_, rfl, ?_⟩
  · unfold AddEdge
    rw [hA]
    simp only [Res.bind_ok, Bool.not_false, if_true]
    unfold pushBackAt
    rw [adj_of_lt G v1 h1]
    simp only [Res.bind_ok]
    rw [getElem?_eq_some_getD _ v2 hset1]
    simp only [Res.bind_ok, Option.getD_some]
  · simp
  · intro x
    simp only [adj] at hset1 ⊢
    rw [getD_set _ v2 _ x hset1, getD_set _ v1 _ x h1, getD_set _ v1 _ v2 h1]

end Graph

/-! ## Out-of-range vertex ids and repeated insertion -/

namespace Graph

/-- Claim C9 (failing input): on `Graph(3)` the ids 3 and 4 pass the range check
`v > GetVerticesAmount() + 1`, so `Adjacent`, `GetEdgeValue` and `GetNodeEdges` index
`m_EdgeList` outside its bounds instead of returning `false`, `-1` and an empty list;
only ids from 5 on get the trivial value. -/
theorem queries_index_past_end :
    (ofSize 3).Adjacent 3 0 = .outOfBounds ∧ (ofSize 3).Adjacent 4 0 = .outOfBounds ∧
    (ofSize 3).Adjacent 3 4 = .outOfBounds ∧
    (ofSize 3).GetEdgeValue 3 0 = .outOfBounds ∧ (ofSize 3).GetEdgeValue 4 0 = .outOfBounds ∧
    (ofSize 3).GetNodeEdges 3 = .outOfBounds ∧ (ofSize 3).GetNodeEdges 4 = .outOfBounds ∧
    (ofSize 3).Adjacent 5 0 = .ok false ∧ (ofSize 3).GetNodeEdges 5 = .ok [] := by
  decide

/-- Claim C10 (counterexample): on a graph that stores the edge 0 -> 1 in one direction
only, `AddEdge(0, 1, 5)` changes nothing, but a following `AddEdge(1, 0, 7)` appends two
edges and increments the edge count. -/
theorem AddEdge_reversed_not_idempotent :
    oneWayGraph.AddEdge 0 1 5 = .ok oneWayGraph ∧
    oneWayGraph.AddEdge 1 0 7 = .ok ⟨[[⟨0, 1, 5⟩, ⟨0, 1, 7⟩], [⟨1, 0, 7⟩]], 2⟩ ∧
    oneWayGraph.AddEdge 1 0 7 ≠ .ok oneWayGraph := by
  decide!

/-- Claim C10 (amended): on a graph whose vertex count fits, for vertices `v1`, `v2` of
the graph, `AddEdge(v1, v2, w)` succeeds, and a second `AddEdge(v1, v2, w')` leaves the
resulting graph (adjacency lists and edge count) unchanged; so does a second
`AddEdge(v2, v1, w')` whenever adjacency of `v1` to `v2` in the original graph implies
adjacency of `v2` to `v1`. -/
theorem AddEdge_idempotent (G : Graph) (v1 v2 : Nat) (w w' : ℚ) (hfit : G.Fits)
    (h1 : v1 < G.m_EdgeList.length) (h2 : v2 < G.m_EdgeList.length) :
    ∃ G1, G.AddEdge v1 v2 w = .ok G1 ∧ G1.AddEdge v1 v2 w' = .ok G1 ∧
      ((G.Adjacent v1 v2 = .ok true → G.Adjacent v2 v1 = .ok true) →
        G1.AddEdge v2 v1 w' = .ok G1) := by
  by_cases hadj : ∃ e ∈ G.adj v1, e.m_endVertex = v2
  · have hA := (Adjacent_true_iff G hfit v1 v2 h1 h2).2 hadj
    exact ⟨G, AddEdge_of_adjacent G v1 v2 w hA, AddEdge_of_adjacent G v1 v2 w' hA,
      fun hsym => AddEdge_of_adjacent G v2 v1 w' (hsym hA)⟩
  · have hna : ∀ e ∈ G.adj v1, e.m_endVertex ≠ v2 := fun e he h => hadj ⟨e, he, h⟩
    obtain ⟨G1, hG1, hlen, _, hadj1⟩ := AddEdge_new G hfit v1 v2 w h1 h2 hna
    have hfit1 : G1.Fits := by unfold Fits at *; rw [hlen]; exact hfit
    have h1' : v1 < G1.m_EdgeList.length := by rw [hlen]; exact h1
    have h2' : v2 < G1.m_EdgeList.length := by rw [hlen]; exact h2
    have hA12 : G1.Adjacent v1 v2 = .ok true := by
      rw [Adjacent_true_iff G1 hfit1 v1 v2 h1' h2']
      refine ⟨⟨v1, v2, w⟩, ?_, rfl⟩
      rw [hadj1 v1]
      by_cases h : v1 = v2
      · subst h; simp
      · simp [h]
    have hA21 : G1.Adjacent v2 v1 = .ok true := by
      rw [Adjacent_true_iff G1 hfit1 v2 v1 h2' h1']
      refine ⟨⟨v2, v1, w⟩, ?_, rfl⟩
      rw [hadj1 v2]
      simp
    exact ⟨G1, hG1, AddEdge_of_adjacent G1 v1 v2 w' hA12,
      fun _ => AddEdge_of_adjacent G1 v2 v1 w' hA21⟩

/-- Witness for `AddEdge_idempotent`: `AddEdge(0, 1, 1)` on `Graph(3)`. -/
theorem AddEdge_idempotent_witness :
    ∃ G1, (ofSize 3).AddEdge 0 1 1 = .ok G1 ∧ G1.AddEdge 0 1 2 = .ok G1 ∧
      (((ofSize 3).Adjacent 0 1 = .ok true → (ofSize 3).Adjacent 1 0 = .ok true) →
        G1.AddEdge 1 0 2 = .ok G1) :=
  AddEdge_idempotent (ofSize 3) 0 1 1 2 (by decide) (by decide) (by decide)

end Graph

/-! ## Heaps -/

theorem StrictWeak.asymm {α : Type} {comp : α → α → Bool} (h : StrictWeak comp) (a b : α)
    (hab : comp a b = true) : comp b a = false := by
  cases hba : comp b a
  · rfl
  · have := h.2.1 a b a hab hba
    rw [h.1 a] at this
    exact absurd this (by decide)

theorem Compare_strictWeak (V P : Type) [LinearOrder P] :
    StrictWeak (Compare : PriorityQueueElement V P → PriorityQueueElement V P → Bool) := by
  refine ⟨?_, ?_, ?_⟩
  · intro a
    simp [Compare]
  · intro a b c h1 h2
    simp only [Compare, gt_iff_lt, decide_eq_true_eq] at *
    exact lt_trans h2 h1
  · intro a b c h1 h2
    simp only [Compare, gt_iff_lt, decide_eq_false_iff_not, not_lt] at *
    exact le_trans h1 h2

/-- In a heap nothing compares below the first element. -/
theorem IsHeap.first_min {α : Type} {comp : α → α → Bool} (hsw : StrictWeak comp)
    {l : List α} (h : IsHeap comp l) (x : α) (hx : l[0]? = some x) :
    ∀ (i : Nat) (y : α), l[i]? = some y → comp x y = false := by
  intro i
  induction i using Nat.strong_induction_on with
  | _ i ih =>
    intro y hy
    by_cases hi : i = 0
    · subst hi
      rw [hx] at hy
      cases hy
      exact hsw.1 x
    · have hpos : 0 < i := Nat.pos_of_ne_zero hi
      have hlt : (i - 1) / 2 < i := by omega
      have hilen : i < l.length := by
        by_contra hc
        rw [List.getElem?_eq_none (by omega)] at hy
        cases hy
      have hplen : (i - 1) / 2 < l.length := by omega
      have hz : l[(i - 1) / 2]? = some (l[(i - 1) / 2]) := List.getElem?_eq_getElem hplen
      exact hsw.2.2 x _ y (ih _ hlt _ hz) (h i _ y hpos hz hy)

theorem IsHeap.nil {α : Type} (comp : α → α → Bool) : IsHeap comp ([] : List α) := by
  intro i a b _ ha _
  simp at ha

theorem isHeap_of_pairwise {α : Type} (comp : α → α → Bool) (l : List α)
    (h : l.Pairwise (fun a b => comp a b = false)) : IsHeap comp l := by
  intro i a b hpos ha hb
  have hilen : i < l.length := by
    by_contra hc
    rw [List.getElem?_eq_none (by omega)] at hb
    cases hb
  have hlt : (i - 1) / 2 < i := by omega
  have hplen : (i - 1) / 2 < l.length := by omega
  rw [List.getElem?_eq_getElem hplen] at ha
  rw [List.getElem?_eq_getElem hilen] at hb
  cases ha
  cases hb
  exact (List.pairwise_iff_getElem.1 h) _ _ hplen hilen hlt

theorem orderedPut_perm {α : Type} (comp : α → α → Bool) (x : α) (l : List α) :
    (orderedPut comp x l).Perm (x :: l) := by
  induction l with
  | nil => exact List.Perm.refl _
  | cons y ys ih =>
    unfold orderedPut
    by_cases h : comp y x = true
    · rw [if_pos h]
    · rw [if_neg h]
      exact (List.Perm.cons y ih).trans (List.Perm.swap x y ys)

theorem orderedPut_pairwise {α : Type} {comp : α → α → Bool} (hsw : StrictWeak comp) (x : α)
    (l : List α) (h : l.Pairwise (fun a b => comp a b = false)) :
    (orderedPut comp x l).Pairwise (fun a b => comp a b = false) := by
  induction l with
  | nil => simp [orderedPut]
  | cons y ys ih =>
    rw [List.pairwise_cons] at h
    unfold orderedPut
    by_cases hc : comp y x = true
    · rw [if_pos hc]
      refine List.Pairwise.cons ?_ (List.Pairwise.cons h.1 h.2)
      intro z hz
      rcases List.mem_cons.1 hz with rfl | hz
      · exact hsw.asymm _ _ hc
      · cases hxz : comp x z
        · rfl
        · have := hsw.2.1 y x z hc hxz
          rw [h.1 z hz] at this
          exact absurd this (by decide)
    · rw [if_neg hc]
      refine List.Pairwise.cons ?_ (ih h.2)
      intro z hz
      rcases List.mem_cons.1 ((orderedPut_perm comp x ys).mem_iff.1 hz) with rfl | hz
      · simpa using hc
      · exact h.1 z hz

theorem orderedSort_perm {α : Type} (comp : α → α → Bool) (l : List α) :
    (orderedSort comp l).Perm l := by
  induction l with
  | nil => exact List.Perm.refl _
  | cons x xs ih => exact (orderedPut_perm comp x _).trans (List.Perm.cons x ih)

theorem orderedSort_pairwise {α : Type} {comp : α → α → Bool} (hsw : StrictWeak comp)
    (l : List α) : (orderedSort comp l).Pairwise (fun a b => comp a b = false) := by
  induction l with
  | nil => simp [orderedSort]
  | cons x xs ih => exact orderedPut_pairwise hsw x _ ih

/-- The reference implementation meets the contract of the standard. -/
theorem sortingHeap_conforms : sortingHeap.Conforms := by
  refine ⟨?_, ?_⟩
  · intro α comp l x hsw _
    exact ⟨isHeap_of_pairwise comp _ (orderedSort_pairwise hsw _), orderedSort_perm comp _⟩
  · intro α comp x l hsw _
    exact ⟨orderedSort comp l, rfl, isHeap_of_pairwise comp _ (orderedSort_pairwise hsw _),
      orderedSort_perm comp l⟩

namespace PriorityQueue

variable {V P : Type} [LinearOrder P]

theorem Insert_spec {H : StlHeap} (hH : H.Conforms) (q : PriorityQueue V P) (val : V)
    (priority : P) (hq : IsHeap Compare q.m_MinHeap) :
    IsHeap Compare (q.Insert H val priority).m_MinHeap ∧
      (q.Insert H val priority).m_MinHeap.Perm (q.m_MinHeap ++ [⟨val, priority⟩]) :=
  hH.1 _ Compare q.m_MinHeap ⟨val, priority⟩ (Compare_strictWeak V P) hq

theorem Pop_spec {H : StlHeap} (hH : H.Conforms) (q : PriorityQueue V P)
    (e : PriorityQueueElement V P) (es : List (PriorityQueueElement V P))
    (hq : IsHeap Compare q.m_MinHeap) (hl : q.m_MinHeap = e :: es) :
    ∃ q1, q.Pop H = .ok q1 ∧ IsHeap Compare q1.m_MinHeap ∧ q1.m_MinHeap.Perm es := by
  rw [hl] at hq
  obtain ⟨l', hpop, hheap, hperm⟩ := hH.2 _ Compare e es (Compare_strictWeak V P) hq
  refine ⟨⟨l'⟩, ?_, hheap, hperm⟩
  unfold Pop
  rw [hl]
  simp only [hpop, List.dropLast_concat]

theorem top_min (q : PriorityQueue V P) (e : PriorityQueueElement V P)
    (es : List (PriorityQueueElement V P)) (hq : IsHeap Compare q.m_MinHeap)
    (hl : q.m_MinHeap = e :: es) :
    ∀ el ∈ q.m_MinHeap, e.m_Priority ≤ el.m_Priority := by
  intro el hel
  obtain ⟨i, hi, hget⟩ := List.getElem_of_mem hel
  have h0 : q.m_MinHeap[0]? = some e := by rw [hl]; simp
  have hi' : q.m_MinHeap[i]? = some el := by rw [List.getElem?_eq_getElem hi, hget]
  have := hq.first_min (Compare_strictWeak V P) e h0 i el hi'
  simpa [Compare] using this

theorem firstPriorityOf_none [BEq V] [LawfulBEq V] (val : V)
    (l : List (PriorityQueueElement V P)) (h : firstPriorityOf val l = none) :
    ∀ el ∈ l, el.m_Value ≠ val := by
  induction l with
  | nil => simp
  | cons e es ih =>
    unfold firstPriorityOf at h
    by_cases hc : (e.m_Value == val) = true
    · rw [if_pos hc] at h
      cases h
    · rw [if_neg hc] at h
      intro el hel
      rcases List.mem_cons.1 hel with rfl | hel
      · simpa using hc
      · exact ih h el hel

theorem firstPriorityOf_some [BEq V] [LawfulBEq V] (val : V)
    (l : List (PriorityQueueElement V P)) (t : P) (h : firstPriorityOf val l = some t) :
    ∃ el ∈ l, el.m_Value = val ∧ el.m_Priority = t := by
  induction l with
  | nil => simp [firstPriorityOf] at h
  | cons e es ih =>
    unfold firstPriorityOf at h
    by_cases hc : (e.m_Value == val) = true
    · rw [if_pos hc] at h
      cases h
      exact ⟨e, List.mem_cons_self _ _, by simpa using hc, rfl⟩
    · rw [if_neg hc] at h
      obtain ⟨el, hel, h1, h2⟩ := ih h
      exact ⟨el, List.mem_cons_of_mem _ hel, h1, h2⟩

/-- What `InsertIfPriorityLess` does to a heap: it stays a heap, either unchanged or with
the one new entry, and afterwards some entry for `val` has priority at most `priority`. -/
theorem InsertIfPriorityLess_spec [BEq V] [LawfulBEq V] {H : StlHeap} (hH : H.Conforms)
    (q : PriorityQueue V P) (val : V) (priority : P) (hq : IsHeap Compare q.m_MinHeap) :
    IsHeap Compare (q.InsertIfPriorityLess H val priority).m_MinHeap ∧
      ((q.InsertIfPriorityLess H val priority) = q ∨
        (q.InsertIfPriorityLess H val priority).m_MinHeap.Perm
          (q.m_MinHeap ++ [⟨val, priority⟩])) ∧
      ∃ el ∈ (q.InsertIfPriorityLess H val priority).m_MinHeap,
        el.m_Value = val ∧ el.m_Priority ≤ priority := by
  have hins := Insert_spec hH q val priority hq
  have hmem : (⟨val, priority⟩ : PriorityQueueElement V P) ∈
      (q.Insert H val priority).m_MinHeap := hins.2.mem_iff.2 (by simp)
  unfold InsertIfPriorityLess GetPriorityIfContains
  cases hf : firstPriorityOf val q.m_MinHeap with
  | none => exact ⟨hins.1, Or.inr hins.2, ⟨val, priority⟩, hmem, rfl, le_refl _⟩
  | some t =>
    by_cases hlt : priority < t
    · simp only [if_pos hlt]
      exact ⟨hins.1, Or.inr hins.2, ⟨val, priority⟩, hmem, rfl, le_refl _⟩
    · simp only [if_neg hlt]
      obtain ⟨el, hel, h1, h2⟩ := firstPriorityOf_some val q.m_MinHeap t hf
      exact ⟨hq, Or.inl trivial, el, hel, h1, by rw [h2]; exact not_lt.1 hlt⟩

end PriorityQueue

/-! ## Walks -/

namespace Graph

@[simp] theorem walkWeight_nil : walkWeight [] = 0 := rfl

@[simp] theorem walkWeight_cons (e : Edge) (es : List Edge) :
    walkWeight (e :: es) = e.m_Weight + walkWeight es := by
  simp [walkWeight]

@[simp] theorem walkWeight_append (W1 W2 : List Edge) :
    walkWeight (W1 ++ W2) = walkWeight W1 + walkWeight W2 := by
  simp [walkWeight]

theorem IsWalk_append (G : Graph) (W1 W2 : List Edge) (a b c : Nat)
    (h1 : G.IsWalk a W1 b) (h2 : G.IsWalk b W2 c) : G.IsWalk a (W1 ++ W2) c := by
  induction W1 generalizing a with
  | nil =>
    simp only [IsWalk] at h1
    subst h1
    simpa using h2
  | cons e es ih =>
    simp only [IsWalk] at h1
    simp only [List.cons_append, IsWalk]
    exact ⟨h1.1, ih _ h1.2⟩

theorem walkWeight_nonneg (G : Graph) (hnn : G.NonNegative) (W : List Edge) (a b : Nat)
    (h : G.IsWalk a W b) : 0 ≤ walkWeight W := by
  induction W generalizing a with
  | nil => simp
  | cons e es ih =>
    simp only [IsWalk] at h
    rw [walkWeight_cons]
    exact add_nonneg (hnn a e h.1) (ih _ h.2)

theorem IsWalk_end_lt (G : Graph) (her : G.EndsInRange) (W : List Edge) (a b : Nat)
    (h : G.IsWalk a W b) (ha : a < G.m_EdgeList.length) : b < G.m_EdgeList.length := by
  induction W generalizing a with
  | nil =>
    simp only [IsWalk] at h
    omega
  | cons e es ih =>
    simp only [IsWalk] at h
    exact ih _ h.2 (her a e h.1)

/-- A walk that starts inside a set of vertices and ends outside it uses an edge that
leaves the set. -/
theorem walk_crossing (G : Graph) (O : List Nat) (W : List Edge) (a b : Nat)
    (h : G.IsWalk a W b) (ha : a ∈ O) (hb : b ∉ O) :
    ∃ W1 y e W2, W = W1 ++ e :: W2 ∧ G.IsWalk a W1 y ∧ y ∈ O ∧ e ∈ G.adj y ∧
      e.m_endVertex ∉ O ∧ G.IsWalk e.m_endVertex W2 b := by
  induction W generalizing a with
  | nil =>
    simp only [IsWalk] at h
    subst h
    exact absurd ha hb
  | cons e es ih =>
    simp only [IsWalk] at h
    by_cases hin : e.m_endVertex ∈ O
    · obtain ⟨W1, y, e1, W2, hW, hw1, hy, he1, hout, hw2⟩ := ih _ h.2 hin
      refine ⟨e :: W1, y, e1, W2, by rw [hW]; rfl, ?_, hy, he1, hout, hw2⟩
      simp only [IsWalk]
      exact ⟨h.1, hw1⟩
    · exact ⟨[], a, e, es, rfl, rfl, ha, h.1, hin, h.2⟩

theorem IsShortest_unique (G : Graph) (u x : Nat) (d1 d2 : ℚ) (h1 : G.IsShortest u x d1)
    (h2 : G.IsShortest u x d2) : d1 = d2 := by
  obtain ⟨⟨W1, hW1, hd1⟩, hmin1⟩ := h1
  obtain ⟨⟨W2, hW2, hd2⟩, hmin2⟩ := h2
  have a := hmin1 W2 hW2
  have b := hmin2 W1 hW1
  rw [hd2] at a
  rw [hd1] at b
  exact le_antisymm a b

theorem IsShortest_self (G : Graph) (hnn : G.NonNegative) (u : Nat) : G.IsShortest u u 0 :=
  ⟨⟨[], rfl, rfl⟩, fun W hW => walkWeight_nonneg G hnn W u u hW⟩

theorem sum_lengths_range (ls : List (List Edge)) :
    ∑ x in Finset.range ls.length, ((ls[x]?).getD []).length = (ls.map List.length).sum := by
  induction ls with
  | nil => simp
  | cons l ls ih =>
    rw [List.length_cons, Finset.sum_range_succ']
    simp only [List.getElem?_cons_succ, List.getElem?_cons_zero, Option.getD_some, List.map_cons,
      List.sum_cons]
    rw [ih]
    omega

theorem pendingWork_nil (G : Graph) : G.pendingWork [] = G.storedEdges := by
  unfold pendingWork storedEdges
  simp only [List.not_mem_nil, not_false_eq_true, Finset.filter_True]
  exact sum_lengths_range G.m_EdgeList

theorem pendingWork_append (G : Graph) (O : List Nat) (x : Nat) (hx : x < G.m_EdgeList.length)
    (hO : x ∉ O) : G.pendingWork (O ++ [x]) + (G.adj x).length = G.pendingWork O := by
  unfold pendingWork
  have hset : (Finset.range G.m_EdgeList.length).filter (fun y => y ∉ O ++ [x]) =
      ((Finset.range G.m_EdgeList.length).filter (fun y => y ∉ O)).erase x := by
    ext y
    simp only [List.mem_append, List.mem_singleton, not_or, Finset.mem_filter, Finset.mem_range,
      Finset.mem_erase]
    tauto
  rw [hset]
  exact Finset.sum_erase_add _ _ (by simp [hx, hO])

end Graph

/-! ## Dijkstra: the loop invariant -/

namespace ShortestPathAlgorithm

open Graph

theorem OpenSetContains_iff (O : List Nat) (x : Nat) : OpenSetContains O x = true ↔ x ∈ O := by
  simp [OpenSetContains]

theorem seedNeighbors_spec {H : StlHeap} (hH : H.Conforms) (es : List Edge)
    (q : PriorityQueue Nat ℚ) (hq : IsHeap Compare q.m_MinHeap) :
    IsHeap Compare (seedNeighbors H es q).m_MinHeap ∧
      (seedNeighbors H es q).m_MinHeap.Perm
        (q.m_MinHeap ++ es.map (fun e => ⟨e.m_endVertex, e.m_Weight⟩)) := by
  induction es generalizing q with
  | nil => simpa [seedNeighbors] using hq
  | cons e es ih =>
    have hins := PriorityQueue.Insert_spec hH q e.GetEndVertexNumber e.GetEdgeWeight hq
    obtain ⟨h1, h2⟩ := ih (q.Insert H e.GetEndVertexNumber e.GetEdgeWeight) hins.1
    refine ⟨h1, ?_⟩
    unfold seedNeighbors
    refine h2.trans ?_
    have := List.Perm.append_right (es.map (fun e => (⟨e.m_endVertex, e.m_Weight⟩ :
      PriorityQueueElement Nat ℚ))) hins.2
    simpa [Edge.GetEndVertexNumber, Edge.GetEdgeWeight] using this

theorem relaxNeighbors_spec {H : StlHeap} (hH : H.Conforms) (O : List Nat) (p : ℚ)
    (es : List Edge) (q : PriorityQueue Nat ℚ) (hq : IsHeap Compare q.m_MinHeap) :
    IsHeap Compare (relaxNeighbors H O p es q).m_MinHeap ∧
      (∀ el ∈ q.m_MinHeap, el ∈ (relaxNeighbors H O p es q).m_MinHeap) ∧
      (∀ el ∈ (relaxNeighbors H O p es q).m_MinHeap, el ∈ q.m_MinHeap ∨
        ∃ e ∈ es, e.m_endVertex ∉ O ∧ el = ⟨e.m_endVertex, p + e.m_Weight⟩) ∧
      (∀ e ∈ es, e.m_endVertex ∉ O → ∃ el ∈ (relaxNeighbors H O p es q).m_MinHeap,
        el.m_Value = e.m_endVertex ∧ el.m_Priority ≤ p + e.m_Weight) ∧
      (relaxNeighbors H O p es q).m_MinHeap.length ≤ q.m_MinHeap.length + es.length := by
  induction es generalizing q with
  | nil =>
    refine ⟨hq, fun el h => h, fun el h => Or.inl h, ?_, ?_⟩
    · intro e he
      simp at he
    · simp [relaxNeighbors]
  | cons e es ih =>
    unfold relaxNeighbors
    by_cases hin : e.m_endVertex ∈ O
    · have hc : OpenSetContains O e.GetEndVertexNumber = true :=
        (OpenSetContains_iff O _).2 hin
      simp only [hc, Bool.not_true, Bool.false_eq_true, if_false]
      obtain ⟨h1, h2, h3, h4, h5⟩ := ih q hq
      refine ⟨h1, h2, ?_, ?_, ?_⟩
      · intro el hel
        rcases h3 el hel with h | ⟨e1, he1, hout, heq⟩
        · exact Or.inl h
        · exact Or.inr ⟨e1, List.mem_cons_of_mem _ he1, hout, heq⟩
      · intro e1 he1 hout
        rcases List.mem_cons.1 he1 with rfl | he1
        · exact absurd hin hout
        · exact h4 e1 he1 hout
      · simp only [List.length_cons]
        omega
    · have hc : OpenSetContains O e.GetEndVertexNumber = false := by
        cases h : OpenSetContains O e.GetEndVertexNumber
        · rfl
        · exact absurd ((OpenSetContains_iff O _).1 h) hin
      simp only [hc, Bool.not_false, if_true]
      obtain ⟨g1, g2, el0, hel0, hv0, hp0⟩ :=
        PriorityQueue.InsertIfPriorityLess_spec hH q e.GetEndVertexNumber
          (p + e.GetEdgeWeight) hq
      obtain ⟨h1, h2, h3, h4, h5⟩ :=
        ih (q.InsertIfPriorityLess H e.GetEndVertexNumber (p + e.GetEdgeWeight)) g1
      have hsub : ∀ el ∈ q.m_MinHeap,
          el ∈ (q.InsertIfPriorityLess H e.GetEndVertexNumber (p + e.GetEdgeWeight)).m_MinHeap := by
        intro el hel
        rcases g2 with g | g
        · rw [g]; exact hel
        · exact g.mem_iff.2 (List.mem_append_left _ hel)
      have hsup : ∀ el ∈
          (q.InsertIfPriorityLess H e.GetEndVertexNumber (p + e.GetEdgeWeight)).m_MinHeap,
          el ∈ q.m_MinHeap ∨ el = ⟨e.m_endVertex, p + e.m_Weight⟩ := by
        intro el hel
        rcases g2 with g | g
        · rw [g] at hel; exact Or.inl hel
        · rcases List.mem_append.1 (g.mem_iff.1 hel) with h | h
          · exact Or.inl h
          · exact Or.inr (by simpa [Edge.GetEndVertexNumber, Edge.GetEdgeWeight] using h)
      have hlen : (q.InsertIfPriorityLess H e.GetEndVertexNumber
          (p + e.GetEdgeWeight)).m_MinHeap.length ≤ q.m_MinHeap.length + 1 := by
        rcases g2 with g | g
        · rw [g]; omega
        · rw [g.length_eq]; simp
      refine ⟨h1, fun el hel => h2 el (hsub el hel), ?_, ?_, ?_⟩
      · intro el hel
        rcases h3 el hel with h | ⟨e1, he1, hout, heq⟩
        · rcases hsup el h with h | h
          · exact Or.inl h
          · exact Or.inr ⟨e, List.mem_cons_self _ _, hin, h⟩
        · exact Or.inr ⟨e1, List.mem_cons_of_mem _ he1, hout, heq⟩
      · intro e1 he1 hout
        rcases List.mem_cons.1 he1 with rfl | he1
        · exact ⟨el0, h2 el0 hel0, hv0, hp0⟩
        · exact h4 e1 he1 hout
      · simp only [List.length_cons]
        omega

/-- The entry at the front of the queue, when its vertex is not yet in the open set,
carries the weight of a shortest walk to that vertex. -/
theorem Inv.top_shortest {G : Graph} {u : Nat} {O : List Nat} {Q : PriorityQueue Nat ℚ}
    (hI : Inv G u O Q) (hnn : G.NonNegative) (top : PriorityQueueElement Nat ℚ)
    (rest : List (PriorityQueueElement Nat ℚ)) (hl : Q.m_MinHeap = top :: rest)
    (hout : top.m_Value ∉ O) : G.IsShortest u top.m_Value top.m_Priority := by
  refine ⟨hI.ent top (by rw [hl]; exact List.mem_cons_self _ _), ?_⟩
  intro W hW
  obtain ⟨W1, y, e, W2, hWeq, hw1, hy, he, heout, hw2⟩ :=
    walk_crossing G O W u top.m_Value hW hI.src hout
  obtain ⟨d, hd⟩ := hI.fin y hy
  obtain ⟨el, hel, _, hp⟩ := hI.cov y hy d hd e he heout
  have h1 := PriorityQueue.top_min Q top rest hI.heap hl el hel
  have h2 := hd.2 W1 hw1
  have h3 := walkWeight_nonneg G hnn W2 _ _ hw2
  rw [hWeq, walkWeight_append, walkWeight_cons]
  linarith

end ShortestPathAlgorithm

namespace ShortestPathAlgorithm

open Graph

/-- The invariant survives popping an entry whose vertex is already in the open set. -/
theorem Inv.skip {G : Graph} {u : Nat} {O : List Nat} {Q Q1 : PriorityQueue Nat ℚ}
    (hI : Inv G u O Q) (top : PriorityQueueElement Nat ℚ)
    (rest : List (PriorityQueueElement Nat ℚ)) (hl : Q.m_MinHeap = top :: rest)
    (hin : top.m_Value ∈ O) (hheap : IsHeap Compare Q1.m_MinHeap)
    (hperm : Q1.m_MinHeap.Perm rest) : Inv G u O Q1 where
  heap := hheap
  src := hI.src
  inRange := hI.inRange
  nodup := hI.nodup
  fin := hI.fin
  ent := fun el hel =>
    hI.ent el (by rw [hl]; exact List.mem_cons_of_mem _ (hperm.mem_iff.1 hel))
  cov := by
    intro y hy d hd e he hout
    obtain ⟨el, hel, hv, hp⟩ := hI.cov y hy d hd e he hout
    rw [hl] at hel
    rcases List.mem_cons.1 hel with rfl | hel
    · rw [hv] at hin
      exact absurd hin hout
    · exact ⟨el, hperm.mem_iff.2 hel, hv, hp⟩

/-- The invariant survives popping an entry whose vertex is new, putting the vertex in
the open set and relaxing its neighbours. -/
theorem Inv.finalize {H : StlHeap} (hH : H.Conforms) {G : Graph} {u : Nat} {O : List Nat}
    {Q Q1 : PriorityQueue Nat ℚ} (hI : Inv G u O Q) (hnn : G.NonNegative)
    (her : G.EndsInRange) (top : PriorityQueueElement Nat ℚ)
    (rest : List (PriorityQueueElement Nat ℚ)) (hl : Q.m_MinHeap = top :: rest)
    (hout : top.m_Value ∉ O) (hheap : IsHeap Compare Q1.m_MinHeap)
    (hperm : Q1.m_MinHeap.Perm rest) :
    Inv G u (O ++ [top.m_Value])
      (relaxNeighbors H (O ++ [top.m_Value]) top.m_Priority (G.adj top.m_Value) Q1) := by
  have hsh := hI.top_shortest hnn top rest hl hout
  obtain ⟨r1, r2, r3, r4, _⟩ :=
    relaxNeighbors_spec hH (O ++ [top.m_Value]) top.m_Priority (G.adj top.m_Value) Q1 hheap
  have hQ1 : ∀ el ∈ Q1.m_MinHeap, el ∈ Q.m_MinHeap := fun el hel => by
    rw [hl]; exact List.mem_cons_of_mem _ (hperm.mem_iff.1 hel)
  obtain ⟨Wt, hWt, hwt⟩ := hsh.1
  refine ⟨r1, List.mem_append_left _ hI.src, ?_, ?_, ?_, ?_, ?_⟩
  · intro y hy
    rcases List.mem_append.1 hy with hy | hy
    · exact hI.inRange y hy
    · rw [List.mem_singleton.1 hy]
      exact IsWalk_end_lt G her Wt u _ hWt (hI.inRange u hI.src)
  · exact List.Nodup.append hI.nodup (List.nodup_singleton _)
      (by
        intro a ha hb
        rw [List.mem_singleton.1 hb] at ha
        exact hout ha)
  · intro y hy
    rcases List.mem_append.1 hy with hy | hy
    · exact hI.fin y hy
    · rw [List.mem_singleton.1 hy]
      exact ⟨_, hsh⟩
  · intro el hel
    rcases r3 el hel with h | ⟨e, he, _, heq⟩
    · exact hI.ent el (hQ1 el h)
    · refine ⟨Wt ++ [e], ?_, ?_⟩
      · rw [heq]
        exact IsWalk_append G Wt [e] u _ _ hWt ⟨he, rfl⟩
      · rw [heq, walkWeight_append, hwt]
        simp
  · intro y hy d hd e he heout
    rcases List.mem_append.1 hy with hy | hy
    · have heout1 : e.m_endVertex ∉ O := fun h => heout (List.mem_append_left _ h)
      obtain ⟨el, hel, hv, hp⟩ := hI.cov y hy d hd e he heout1
      rw [hl] at hel
      rcases List.mem_cons.1 hel with rfl | hel
      · exact absurd (by rw [hv]; simp) heout
      · exact ⟨el, r2 el (hperm.mem_iff.2 hel), hv, hp⟩
    · have hy1 : y = top.m_Value := List.mem_singleton.1 hy
      subst hy1
      have hdeq := IsShortest_unique G u _ d _ hd hsh
      rw [hdeq]
      exact r4 e he heout

/-- The invariant holds when the loop is entered. -/
theorem Inv.init {H : StlHeap} (hH : H.Conforms) (G : Graph) (hnn : G.NonNegative) (u : Nat)
    (hu : u < G.m_EdgeList.length) :
    Inv G u [u] (seedNeighbors H (G.adj u) PriorityQueue.empty) := by
  obtain ⟨s1, s2⟩ := seedNeighbors_spec hH (G.adj u) PriorityQueue.empty (IsHeap.nil _)
  have hmem : ∀ el, el ∈ (seedNeighbors H (G.adj u) PriorityQueue.empty).m_MinHeap ↔
      ∃ e ∈ G.adj u, el = ⟨e.m_endVertex, e.m_Weight⟩ := by
    intro el
    rw [s2.mem_iff]
    simp only [PriorityQueue.empty, List.nil_append, List.mem_map]
    constructor
    · rintro ⟨e, he, rfl⟩
      exact ⟨e, he, rfl⟩
    · rintro ⟨e, he, rfl⟩
      exact ⟨e, he, rfl⟩
  refine ⟨s1, List.mem_singleton_self u, ?_, List.nodup_singleton u, ?_, ?_, ?_⟩
  · intro y hy
    rw [List.mem_singleton.1 hy]
    exact hu
  · intro y hy
    rw [List.mem_singleton.1 hy]
    exact ⟨0, IsShortest_self G hnn u⟩
  · intro el hel
    obtain ⟨e, he, rfl⟩ := (hmem el).1 hel
    exact ⟨[e], ⟨he, rfl⟩, by simp⟩
  · intro y hy d hd e he _
    have hy1 : y = u := List.mem_singleton.1 hy
    subst hy1
    have hd0 := IsShortest_unique G y y d 0 hd (IsShortest_self G hnn y)
    subst hd0
    exact ⟨⟨e.m_endVertex, e.m_Weight⟩, (hmem _).2 ⟨e, he, rfl⟩, rfl, by simp⟩

theorem seedNeighbors_length {H : StlHeap} (hH : H.Conforms) (es : List Edge) :
    (seedNeighbors H es PriorityQueue.empty).m_MinHeap.length = es.length := by
  obtain ⟨_, s2⟩ := seedNeighbors_spec hH es PriorityQueue.empty (IsHeap.nil _)
  rw [s2.length_eq]
  simp [PriorityQueue.empty]

/-- The iteration budget `storedEdges + 1` covers the work ahead when the loop is entered. -/
theorem init_budget {H : StlHeap} (hH : H.Conforms) (G : Graph) (u : Nat)
    (hu : u < G.m_EdgeList.length) :
    (seedNeighbors H (G.adj u) PriorityQueue.empty).m_MinHeap.length + G.pendingWork [u] =
      G.storedEdges := by
  rw [seedNeighbors_length hH, ← pendingWork_nil G]
  have := pendingWork_append G [] u hu (by simp)
  simp only [List.nil_append] at this
  omega

end ShortestPathAlgorithm

/-! ## Dijkstra: the loops -/

namespace ShortestPathAlgorithm

open Graph

theorem lengthLoop_empty (H : StlHeap) (G : Graph) (v fuel : Nat) (O : List Nat)
    (Q : PriorityQueue Nat ℚ) (hl : Q.m_MinHeap = []) :
    lengthLoop H G v (fuel + 1) O Q = .ok (-1) := by
  simp [lengthLoop, PriorityQueue.Empty, hl]

theorem lengthLoop_step (H : StlHeap) (G : Graph) (v fuel : Nat) (O : List Nat)
    (Q Q1 : PriorityQueue Nat ℚ) (top : PriorityQueueElement Nat ℚ)
    (rest : List (PriorityQueueElement Nat ℚ)) (hl : Q.m_MinHeap = top :: rest)
    (hpop : Q.Pop H = .ok Q1) :
    lengthLoop H G v (fuel + 1) O Q =
      if top.m_Value = v then .ok top.m_Priority
      else if !OpenSetContains O top.m_Value then
        (G.GetNodeEdges top.m_Value).bind fun neighbors =>
          lengthLoop H G v fuel (O ++ [top.m_Value])
            (relaxNeighbors H (O ++ [top.m_Value]) top.m_Priority neighbors Q1)
      else lengthLoop H G v fuel O Q1 := by
  simp [lengthLoop, PriorityQueue.Empty, PriorityQueue.Top, PriorityQueue.GetTopPriority, hl,
    hpop]

theorem averageLoop_empty (H : StlHeap) (G : Graph) (fuel : Nat) (O : List Nat)
    (Q : PriorityQueue Nat ℚ) (sum : ℚ) (hl : Q.m_MinHeap = []) :
    averageLoop H G (fuel + 1) O Q sum = .ok (O, sum) := by
  simp [averageLoop, PriorityQueue.Empty, hl]

theorem averageLoop_step (H : StlHeap) (G : Graph) (fuel : Nat) (O : List Nat)
    (Q Q1 : PriorityQueue Nat ℚ) (sum : ℚ) (top : PriorityQueueElement Nat ℚ)
    (rest : List (PriorityQueueElement Nat ℚ)) (hl : Q.m_MinHeap = top :: rest)
    (hpop : Q.Pop H = .ok Q1) :
    averageLoop H G (fuel + 1) O Q sum =
      if !OpenSetContains O top.m_Value then
        (G.GetNodeEdges top.m_Value).bind fun neighbors =>
          averageLoop H G fuel (O ++ [top.m_Value])
            (relaxNeighbors H (O ++ [top.m_Value]) top.m_Priority neighbors Q1)
            (sum + top.m_Priority)
      else averageLoop H G fuel O Q1 sum := by
  simp [averageLoop, PriorityQueue.Empty, PriorityQueue.Top, PriorityQueue.GetTopPriority, hl,
    hpop]

/-- With the invariant and an empty queue, everything reachable is in the open set. -/
theorem Inv.closed {G : Graph} {u : Nat} {O : List Nat} {Q : PriorityQueue Nat ℚ}
    (hI : Inv G u O Q) (hl : Q.m_MinHeap = []) (x : Nat) (hx : G.Reachable u x) : x ∈ O := by
  by_contra hout
  obtain ⟨W, hW⟩ := hx
  obtain ⟨W1, y, e, W2, _, _, hy, he, heout, _⟩ := walk_crossing G O W u x hW hI.src hout
  obtain ⟨d, hd⟩ := hI.fin y hy
  obtain ⟨el, hel, _, _⟩ := hI.cov y hy d hd e he heout
  rw [hl] at hel
  simp at hel

/-- The budget left after one pass of a loop that puts `top` in the open set. -/
theorem budget_finalize {H : StlHeap} (hH : H.Conforms) (G : Graph) (O : List Nat)
    (Q1 : PriorityQueue Nat ℚ) (x : Nat) (p : ℚ) (rest : List (PriorityQueueElement Nat ℚ))
    (fuel : Nat) (hheap : IsHeap Compare Q1.m_MinHeap) (hperm : Q1.m_MinHeap.Perm rest)
    (hx : x < G.m_EdgeList.length) (hout : x ∉ O)
    (hb : (rest.length + 1) + G.pendingWork O < fuel + 1) :
    (relaxNeighbors H (O ++ [x]) p (G.adj x) Q1).m_MinHeap.length + G.pendingWork (O ++ [x]) <
      fuel := by
  obtain ⟨_, _, _, _, r5⟩ := relaxNeighbors_spec hH (O ++ [x]) p (G.adj x) Q1 hheap
  have h1 := hperm.length_eq
  have h2 := pendingWork_append G O x hx hout
  omega

/-- The loop of `GetShortestPathLength` for a target outside the open set: it returns,
with the weight of a shortest walk to `v`, or with `-1` when `v` cannot be reached. -/
theorem lengthLoop_correct {H : StlHeap} (hH : H.Conforms) (G : Graph) (hfit : G.Fits)
    (hnn : G.NonNegative) (her : G.EndsInRange) (u v : Nat) :
    ∀ (fuel : Nat) (O : List Nat) (Q : PriorityQueue Nat ℚ), Inv G u O Q → v ∉ O →
      Q.m_MinHeap.length + G.pendingWork O < fuel →
      ∃ r, lengthLoop H G v fuel O Q = .ok r ∧
        (G.IsShortest u v r ∨ (r = -1 ∧ ¬ G.Reachable u v)) := by
  intro fuel
  induction fuel with
  | zero => intro O Q _ _ hb; omega
  | succ fuel ih =>
    intro O Q hI hv hb
    cases hl : Q.m_MinHeap with
    | nil =>
      exact ⟨-1, lengthLoop_empty H G v fuel O Q hl, Or.inr ⟨rfl, fun hr => hv (hI.closed hl v hr)⟩⟩
    | cons top rest =>
      obtain ⟨Q1, hpop, hheap, hperm⟩ := PriorityQueue.Pop_spec hH Q top rest hI.heap hl
      rw [lengthLoop_step H G v fuel O Q Q1 top rest hl hpop]
      rw [hl] at hb
      by_cases htv : top.m_Value = v
      · rw [if_pos htv]
        refine ⟨top.m_Priority, rfl, Or.inl ?_⟩
        rw [← htv]
        exact hI.top_shortest hnn top rest hl (by rw [htv]; exact hv)
      · rw [if_neg htv]
        by_cases hin : top.m_Value ∈ O
        · have hc : OpenSetContains O top.m_Value = true := (OpenSetContains_iff O _).2 hin
          simp only [hc, Bool.not_true, Bool.false_eq_true, if_false]
          refine ih O Q1 (hI.skip top rest hl hin hheap hperm) hv ?_
          rw [hperm.length_eq]
          simp only [List.length_cons] at hb
          omega
        · have hc : OpenSetContains O top.m_Value = false := by
            cases h : OpenSetContains O top.m_Value
            · rfl
            · exact absurd ((OpenSetContains_iff O _).1 h) hin
          simp only [hc, Bool.not_false, if_true]
          have hI1 := hI.finalize hH hnn her top rest hl hin hheap hperm
          have hx : top.m_Value < G.m_EdgeList.length :=
            hI1.inRange _ (List.mem_append_right _ (List.mem_singleton_self _))
          rw [GetNodeEdges_of_lt G hfit _ hx, Res.bind_ok]
          refine ih _ _ hI1 ?_ ?_
          · intro h
            rcases List.mem_append.1 h with h | h
            · exact hv h
            · exact htv (List.mem_singleton.1 h).symm
          · exact budget_finalize hH G O Q1 _ _ rest fuel hheap hperm hx hin
              (by simpa using hb)

/-- The loop of `GetShortestPathLength` when the target is the source: the result is 0
when the queue holds an entry for `u` of priority at most 0, and `-1` when the queue
holds no entry for `u`. -/
theorem lengthLoop_self {H : StlHeap} (hH : H.Conforms) (G : Graph) (hfit : G.Fits)
    (hnn : G.NonNegative) (her : G.EndsInRange) (u : Nat) :
    ∀ (fuel : Nat) (O : List Nat) (Q : PriorityQueue Nat ℚ), Inv G u O Q →
      Q.m_MinHeap.length + G.pendingWork O < fuel →
      ∃ r, lengthLoop H G u fuel O Q = .ok r ∧
        ((∃ el ∈ Q.m_MinHeap, el.m_Value = u ∧ el.m_Priority ≤ 0) → r = 0) ∧
        ((∀ el ∈ Q.m_MinHeap, el.m_Value ≠ u) → r = -1) := by
  intro fuel
  induction fuel with
  | zero => intro O Q _ hb; omega
  | succ fuel ih =>
    intro O Q hI hb
    cases hl : Q.m_MinHeap with
    | nil =>
      refine ⟨-1, lengthLoop_empty H G u fuel O Q hl, ?_, fun _ => rfl⟩
      rintro ⟨el, hel, _⟩
      simp at hel
    | cons top rest =>
      obtain ⟨Q1, hpop, hheap, hperm⟩ := PriorityQueue.Pop_spec hH Q top rest hI.heap hl
      rw [lengthLoop_step H G u fuel O Q Q1 top rest hl hpop]
      have hb1 : (rest.length + 1) + G.pendingWork O < fuel + 1 := by
        rw [hl] at hb
        simpa using hb
      have htopmem : top ∈ Q.m_MinHeap := by rw [hl]; exact List.mem_cons_self _ _
      by_cases htv : top.m_Value = u
      · rw [if_pos htv]
        refine ⟨top.m_Priority, rfl, ?_, ?_⟩
        · rintro ⟨el, hel, _, hp⟩
          have h1 := PriorityQueue.top_min Q top rest hI.heap hl el (by rw [hl]; exact hel)
          obtain ⟨W, hW, hw⟩ := hI.ent top htopmem
          have h2 := walkWeight_nonneg G hnn W _ _ hW
          rw [hw] at h2
          linarith
        · intro hno
          exact absurd htv (hno top (List.mem_cons_self _ _))
      · rw [if_neg htv]
        have hkeep : ∀ Q2 : PriorityQueue Nat ℚ, (∀ el ∈ Q1.m_MinHeap, el ∈ Q2.m_MinHeap) →
            (∃ el ∈ top :: rest, el.m_Value = u ∧ el.m_Priority ≤ 0) →
            ∃ el ∈ Q2.m_MinHeap, el.m_Value = u ∧ el.m_Priority ≤ 0 := by
          rintro Q2 hsub ⟨el, hel, hv, hp⟩
          rcases List.mem_cons.1 hel with rfl | hel
          · exact absurd hv htv
          · exact ⟨el, hsub el (hperm.mem_iff.2 hel), hv, hp⟩
        by_cases hin : top.m_Value ∈ O
        · have hc : OpenSetContains O top.m_Value = true := (OpenSetContains_iff O _).2 hin
          simp only [hc, Bool.not_true, Bool.false_eq_true, if_false]
          obtain ⟨r, hr, hA, hB⟩ := ih O Q1 (hI.skip top rest hl hin hheap hperm)
            (by rw [hperm.length_eq]; omega)
          refine ⟨r, hr, fun h => hA (hkeep Q1 (fun el h => h) h), fun h => hB ?_⟩
          intro el hel
          exact h el (List.mem_cons_of_mem _ (hperm.mem_iff.1 hel))
        · have hc : OpenSetContains O top.m_Value = false := by
            cases h : OpenSetContains O top.m_Value
            · rfl
            · exact absurd ((OpenSetContains_iff O _).1 h) hin
          simp only [hc, Bool.not_false, if_true]
          have hI1 := hI.finalize hH hnn her top rest hl hin hheap hperm
          have hx : top.m_Value < G.m_EdgeList.length :=
            hI1.inRange _ (List.mem_append_right _ (List.mem_singleton_self _))
          rw [GetNodeEdges_of_lt G hfit _ hx, Res.bind_ok]
          obtain ⟨_, r2, r3, _, _⟩ := relaxNeighbors_spec hH (O ++ [top.m_Value])
            top.m_Priority (G.adj top.m_Value) Q1 hheap
          obtain ⟨r, hr, hA, hB⟩ := ih _ _ hI1
            (budget_finalize hH G O Q1 _ _ rest fuel hheap hperm hx hin hb1)
          refine ⟨r, hr, fun h => hA (hkeep _ r2 h), fun h => hB ?_⟩
          intro el hel
          rcases r3 el hel with h1 | ⟨e, _, heout, heq⟩
          · exact h el (List.mem_cons_of_mem _ (hperm.mem_iff.1 h1))
          · rw [heq]
            intro hu
            exact heout (List.mem_append_left _ (by rw [show e.m_endVertex = u from hu]; exact hI.src))

end ShortestPathAlgorithm

/-! ## Dijkstra: the length query -/

namespace Graph

theorem EndsInRange_of_lists (G : Graph)
    (h : ∀ l ∈ G.m_EdgeList, ∀ e ∈ l, e.m_endVertex < G.m_EdgeList.length) : G.EndsInRange := by
  intro x e he
  by_cases hx : x < G.m_EdgeList.length
  · have hl : G.adj x ∈ G.m_EdgeList := by
      have := adj_of_lt G x hx
      exact List.getElem?_mem this
    exact h _ hl e he
  · rw [adj_of_ge G x (by omega)] at he
    simp at he

theorem NonNegative_of_lists (G : Graph)
    (h : ∀ l ∈ G.m_EdgeList, ∀ e ∈ l, 0 ≤ e.m_Weight) : G.NonNegative := by
  intro x e he
  by_cases hx : x < G.m_EdgeList.length
  · have hl : G.adj x ∈ G.m_EdgeList := by
      have := adj_of_lt G x hx
      exact List.getElem?_mem this
    exact h _ hl e he
  · rw [adj_of_ge G x (by omega)] at he
    simp at he

end Graph

namespace ShortestPathAlgorithm

open Graph

theorem GetShortestPathLength_eq (H : StlHeap) (fuel : Nat) (G : Graph) (hfit : G.Fits)
    (u v : Nat) (hu : u < G.m_EdgeList.length) :
    GetShortestPathLength H fuel G u v =
      lengthLoop H G v fuel [u] (seedNeighbors H (G.adj u) PriorityQueue.empty) := by
  unfold GetShortestPathLength
  rw [GetNodeEdges_of_lt G hfit u hu, Res.bind_ok]

/-- The length query between two different vertices returns, with the weight of a
shortest walk, or with `-1` when there is no walk. -/
theorem GetShortestPathLength_spec {H : StlHeap} (hH : H.Conforms) (G : Graph) (hfit : G.Fits)
    (her : G.EndsInRange) (hnn : G.NonNegative) (u v : Nat) (hu : u < G.m_EdgeList.length)
    (huv : u ≠ v) (fuel : Nat) (hfuel : G.storedEdges < fuel) :
    ∃ r, GetShortestPathLength H fuel G u v = .ok r ∧
      (G.IsShortest u v r ∨ (r = -1 ∧ ¬ G.Reachable u v)) := by
  rw [GetShortestPathLength_eq H fuel G hfit u v hu]
  refine lengthLoop_correct hH G hfit hnn her u v fuel [u] _ (Inv.init hH G hnn u hu) ?_ ?_
  · intro h
    exact huv (List.mem_singleton.1 h).symm
  · rw [init_budget hH G u hu]
    exact hfuel

/-- Claim C1: on a graph whose vertex count fits, whose stored edges end in vertices of
the graph and have non-negative weights, for a vertex `u` of the graph and a different
vertex `v` reachable from it, `GetShortestPathLength(G, u, v)` returns (any iteration
budget above the number of stored edges is enough) the minimum of the weights of the
walks from `u` to `v`: the weight of some walk, and at most the weight of every walk. -/
theorem GetShortestPathLength_minimum {H : StlHeap} (hH : H.Conforms) (G : Graph)
    (hfit : G.Fits) (her : G.EndsInRange) (hnn : G.NonNegative) (u v : Nat)
    (hu : u < G.m_EdgeList.length) (huv : u ≠ v) (hreach : G.Reachable u v) (fuel : Nat)
    (hfuel : G.storedEdges < fuel) :
    ∃ d, GetShortestPathLength H fuel G u v = .ok d ∧
      (∃ W, G.IsWalk u W v ∧ walkWeight W = d) ∧ ∀ W, G.IsWalk u W v → d ≤ walkWeight W := by
  obtain ⟨r, hr, h | ⟨_, h⟩⟩ := GetShortestPathLength_spec hH G hfit her hnn u v hu huv fuel hfuel
  · exact ⟨r, hr, h.1, h.2⟩
  · exact absurd hreach h

/-- Witness for `GetShortestPathLength_minimum`: the graph built by `AddEdge(0,1,1)`,
`AddEdge(1,2,2)`, `AddEdge(0,2,5)` on `Graph(3)`, from vertex 0 to vertex 2; the value
returned there is 3 (through vertex 1), not 5. -/
theorem GetShortestPathLength_minimum_witness :
    (((ofSize 3).AddEdge 0 1 1).bind fun g => (g.AddEdge 1 2 2).bind fun g => g.AddEdge 0 2 5)
        = .ok triangleGraph ∧
      GetShortestPathLength sortingHeap 7 triangleGraph 0 2 = .ok 3 ∧
      ∃ d, GetShortestPathLength sortingHeap 7 triangleGraph 0 2 = .ok d ∧
        (∃ W, triangleGraph.IsWalk 0 W 2 ∧ walkWeight W = d) ∧
        ∀ W, triangleGraph.IsWalk 0 W 2 → d ≤ walkWeight W :=
  ⟨by decide!, by decide!,
    GetShortestPathLength_minimum sortingHeap_conforms triangleGraph (by decide)
      (EndsInRange_of_lists _ (by decide)) (NonNegative_of_lists _ (by decide!)) 0 2
      (by decide) (by decide) ⟨[⟨0, 1, 1⟩, ⟨1, 2, 2⟩], by decide!, by decide!, rfl⟩ 7 (by decide)⟩

/-- Claim C2 (counterexample): on the graph built by `AddEdge(0,1,1)` on `Graph(2)`, which
has no edge from vertex 0 to itself, `GetShortestPathLength(G, 0, 0)` returns `-1`. -/
theorem GetShortestPathLength_self_without_loop :
    ((ofSize 2).AddEdge 0 1 1) = .ok pairGraph ∧
      GetShortestPathLength sortingHeap 3 pairGraph 0 0 = .ok (-1) := by
  decide!

/-- Claim C2 (amended): on a graph whose vertex count fits, whose stored edges end in
vertices of the graph and have non-negative weights, for a vertex `u` of the graph,
`GetShortestPathLength(G, u, u)` returns 0 when the adjacency list of `u` holds an edge
from `u` to itself of weight 0 (as in every graph of the random constructor), and
returns `-1` when it holds no edge from `u` to itself. -/
theorem GetShortestPathLength_self {H : StlHeap} (hH : H.Conforms) (G : Graph) (hfit : G.Fits)
    (her : G.EndsInRange) (hnn : G.NonNegative) (u : Nat) (hu : u < G.m_EdgeList.length)
    (fuel : Nat) (hfuel : G.storedEdges < fuel) :
    ∃ r, GetShortestPathLength H fuel G u u = .ok r ∧
      ((∃ e ∈ G.adj u, e.m_endVertex = u ∧ e.m_Weight = 0) → r = 0) ∧
      ((∀ e ∈ G.adj u, e.m_endVertex ≠ u) → r = -1) := by
  rw [GetShortestPathLength_eq H fuel G hfit u u hu]
  obtain ⟨_, s2⟩ := seedNeighbors_spec hH (G.adj u) PriorityQueue.empty (IsHeap.nil _)
  obtain ⟨r, hr, hA, hB⟩ := lengthLoop_self hH G hfit hnn her u fuel [u] _
    (Inv.init hH G hnn u hu) (by rw [init_budget hH G u hu]; exact hfuel)
  refine ⟨r, hr, ?_, ?_⟩
  · rintro ⟨e, he, hend, hw⟩
    refine hA ⟨⟨e.m_endVertex, e.m_Weight⟩, s2.mem_iff.2 ?_, hend, by rw [hw]⟩
    simp only [PriorityQueue.empty, List.nil_append, List.mem_map]
    exact ⟨e, he, rfl⟩
  · intro hno
    refine hB ?_
    intro el hel
    have := s2.mem_iff.1 hel
    simp only [PriorityQueue.empty, List.nil_append, List.mem_map] at this
    obtain ⟨e, he, rfl⟩ := this
    exact hno e he

/-- Witness for `GetShortestPathLength_self`: vertex 0 of the graph built by
`AddEdge(0,1,1)` on `Graph(2)`, which has no edge to itself and gets `-1`, and vertex 0
of the one-vertex graph with the edge `(0,0,0)`, which gets 0. -/
theorem GetShortestPathLength_self_witness :
    (GetShortestPathLength sortingHeap 3 pairGraph 0 0 = .ok (-1) ∧
      GetShortestPathLength sortingHeap 3 loopGraph 0 0 = .ok 0) ∧
    (∃ r, GetShortestPathLength sortingHeap 3 pairGraph 0 0 = .ok r ∧
      ((∃ e ∈ pairGraph.adj 0, e.m_endVertex = 0 ∧ e.m_Weight = 0) → r = 0) ∧
      ((∀ e ∈ pairGraph.adj 0, e.m_endVertex ≠ 0) → r = -1)) ∧
    (∃ r, GetShortestPathLength sortingHeap 3 loopGraph 0 0 = .ok r ∧
      ((∃ e ∈ loopGraph.adj 0, e.m_endVertex = 0 ∧ e.m_Weight = 0) → r = 0) ∧
      ((∀ e ∈ loopGraph.adj 0, e.m_endVertex ≠ 0) → r = -1)) :=
  ⟨by decide!,
    GetShortestPathLength_self sortingHeap_conforms pairGraph (by decide)
      (EndsInRange_of_lists _ (by decide)) (NonNegative_of_lists _ (by decide!)) 0 (by decide) 3
      (by decide),
    GetShortestPathLength_self sortingHeap_conforms loopGraph (by decide)
      (EndsInRange_of_lists _ (by decide)) (NonNegative_of_lists _ (by decide!)) 0 (by decide) 3
      (by decide)⟩

/-- Claim C3: on a graph whose vertex count fits, whose stored edges end in vertices of
the graph and have non-negative weights, for a vertex `u` of the graph and a different
vertex `v`, `GetShortestPathLength(G, u, v)` returns, and the value returned is `-1` if
and only if no walk leads from `u` to `v`; when `v` is reachable the value is not
negative. -/
theorem GetShortestPathLength_sentinel {H : StlHeap} (hH : H.Conforms) (G : Graph)
    (hfit : G.Fits) (her : G.EndsInRange) (hnn : G.NonNegative) (u v : Nat)
    (hu : u < G.m_EdgeList.length) (huv : u ≠ v) (fuel : Nat) (hfuel : G.storedEdges < fuel) :
    ∃ r, GetShortestPathLength H fuel G u v = .ok r ∧ (r = -1 ↔ ¬ G.Reachable u v) ∧
      (G.Reachable u v → 0 ≤ r) := by
  obtain ⟨r, hr, h⟩ := GetShortestPathLength_spec hH G hfit her hnn u v hu huv fuel hfuel
  have hpos : G.IsShortest u v r → 0 ≤ r := by
    rintro ⟨⟨W, hW, hw⟩, _⟩
    rw [← hw]
    exact walkWeight_nonneg G hnn W u v hW
  refine ⟨r, hr, ⟨?_, ?_⟩, ?_⟩
  · intro hneg
    rcases h with h | ⟨_, h⟩
    · have := hpos h
      rw [hneg] at this
      exact absurd this (by norm_num)
    · exact h
  · intro hno
    rcases h with h | ⟨h, _⟩
    · exact absurd ⟨_, h.1.choose_spec.1⟩ hno
    · exact h
  · intro hreach
    rcases h with h | ⟨_, h⟩
    · exact hpos h
    · exact absurd hreach h

/-- Witness for `GetShortestPathLength_sentinel`: from vertex 0 to vertex 2 in the
triangle graph. -/
theorem GetShortestPathLength_sentinel_witness :
    ∃ r, GetShortestPathLength sortingHeap 7 triangleGraph 0 2 = .ok r ∧
      (r = -1 ↔ ¬ triangleGraph.Reachable 0 2) ∧ (triangleGraph.Reachable 0 2 → 0 ≤ r) :=
  GetShortestPathLength_sentinel sortingHeap_conforms triangleGraph (by decide)
    (EndsInRange_of_lists _ (by decide)) (NonNegative_of_lists _ (by decide!)) 0 2
    (by decide) (by decide) 7 (by decide)

end ShortestPathAlgorithm

/-! ## Dijkstra: the average query -/

namespace ShortestPathAlgorithm

open Graph

/-- The loop of `AverageShortestPath`: it returns with an open set that is closed under
stored edges, and with the sum of the shortest-walk weights of the vertices put in the
open set after `u`. -/
theorem averageLoop_correct {H : StlHeap} (hH : H.Conforms) (G : Graph) (hfit : G.Fits)
    (hnn : G.NonNegative) (her : G.EndsInRange) (u : Nat) :
    ∀ (fuel : Nat) (R : List Nat) (Q : PriorityQueue Nat ℚ) (sum : ℚ), Inv G u (u :: R) Q →
      Q.m_MinHeap.length + G.pendingWork (u :: R) < fuel →
      (∀ f : Nat → ℚ, (∀ y ∈ R, G.IsShortest u y (f y)) → sum = (R.map f).sum) →
      ∃ R1 sum1 Q1, averageLoop H G fuel (u :: R) Q sum = .ok (u :: R1, sum1) ∧
        Inv G u (u :: R1) Q1 ∧ Q1.m_MinHeap = [] ∧
        (∀ f : Nat → ℚ, (∀ y ∈ R1, G.IsShortest u y (f y)) → sum1 = (R1.map f).sum) := by
  intro fuel
  induction fuel with
  | zero => intro R Q sum _ hb; omega
  | succ fuel ih =>
    intro R Q sum hI hb hsum
    cases hl : Q.m_MinHeap with
    | nil => exact ⟨R, sum, Q, averageLoop_empty H G fuel _ Q sum hl, hI, hl, hsum⟩
    | cons top rest =>
      obtain ⟨Q1, hpop, hheap, hperm⟩ := PriorityQueue.Pop_spec hH Q top rest hI.heap hl
      rw [averageLoop_step H G fuel _ Q Q1 sum top rest hl hpop]
      have hb1 : (rest.length + 1) + G.pendingWork (u :: R) < fuel + 1 := by
        rw [hl] at hb
        simpa using hb
      by_cases hin : top.m_Value ∈ u :: R
      · have hc : OpenSetContains (u :: R) top.m_Value = true :=
          (OpenSetContains_iff _ _).2 hin
        simp only [hc, Bool.not_true, Bool.false_eq_true, if_false]
        exact ih R Q1 sum (hI.skip top rest hl hin hheap hperm)
          (by rw [hperm.length_eq]; omega) hsum
      · have hc : OpenSetContains (u :: R) top.m_Value = false := by
          cases h : OpenSetContains (u :: R) top.m_Value
          · rfl
          · exact absurd ((OpenSetContains_iff _ _).1 h) hin
        simp only [hc, Bool.not_false, if_true]
        have hI1 := hI.finalize hH hnn her top rest hl hin hheap hperm
        have hx : top.m_Value < G.m_EdgeList.length :=
          hI1.inRange _ (List.mem_append_right _ (List.mem_singleton_self _))
        rw [GetNodeEdges_of_lt G hfit _ hx, Res.bind_ok]
        have hsh := hI.top_shortest hnn top rest hl hin
        have hb2 := budget_finalize hH G (u :: R) Q1 _ top.m_Priority rest fuel hheap hperm hx
          hin hb1
        rw [List.cons_append] at hI1 hb2 ⊢
        refine ih (R ++ [top.m_Value]) _ (sum + top.m_Priority) hI1 hb2 ?_
        intro f hf
        have h1 := hsum f (fun y hy => hf y (List.mem_append_left _ hy))
        have h2 := IsShortest_unique G u _ _ _
          (hf top.m_Value (List.mem_append_right _ (List.mem_singleton_self _))) hsh
        rw [List.map_append, List.sum_append, h1]
        simp [h2]

/-- Claim C4: on a graph whose vertex count fits, whose stored edges end in vertices of
the graph and have non-negative weights, for a vertex `u` of the graph:
if `xs` lists, without repetition, the vertices other than `u` that are reachable from
`u`, and is not empty, then `GetShortestPathLength(G, u, x)` returns a value for each `x`
of `xs` and `AverageShortestPath(G, u)` returns the sum of these values divided by the
length of `xs`; if no vertex other than `u` is reachable, it returns `-1`. -/
theorem AverageShortestPath_mean {H : StlHeap} (hH : H.Conforms) (G : Graph) (hfit : G.Fits)
    (her : G.EndsInRange) (hnn : G.NonNegative) (u : Nat) (hu : u < G.m_EdgeList.length)
    (fuel : Nat) (hfuel : G.storedEdges < fuel) :
    (∀ xs : List Nat, xs.Nodup → (∀ x, x ∈ xs ↔ (x ≠ u ∧ G.Reachable u x)) → xs ≠ [] →
      ∃ ds, List.Forall₂ (fun x d => GetShortestPathLength H fuel G u x = .ok d) xs ds ∧
        AverageShortestPath H fuel G u = .ok (ds.sum / (xs.length : ℚ))) ∧
    ((∀ x, x ≠ u → ¬ G.Reachable u x) → AverageShortestPath H fuel G u = .ok (-1)) := by
  obtain ⟨R1, sum1, Q1, hloop, hI, hQ1, hsum⟩ :=
    averageLoop_correct hH G hfit hnn her u fuel [] _ 0 (Inv.init hH G hnn u hu)
      (by rw [init_budget hH G u hu]; exact hfuel) (fun f _ => by simp)
  have hnd := hI.nodup
  rw [List.nodup_cons] at hnd
  have hmem : ∀ x, x ∈ R1 ↔ (x ≠ u ∧ G.Reachable u x) := by
    intro x
    constructor
    · intro hx
      refine ⟨fun h => hnd.1 (h ▸ hx), ?_⟩
      obtain ⟨d, hd⟩ := hI.fin x (List.mem_cons_of_mem _ hx)
      exact ⟨_, hd.1.choose_spec.1⟩
    · rintro ⟨hne, hr⟩
      rcases List.mem_cons.1 (hI.closed hQ1 x hr) with h | h
      · exact absurd h hne
      · exact h
  have havg : AverageShortestPath H fuel G u =
      if (u :: R1).length > 1 then .ok (sum1 / (((u :: R1).length - 1 : Nat) : ℚ))
      else .ok (-1) := by
    unfold AverageShortestPath
    rw [GetNodeEdges_of_lt G hfit u hu, Res.bind_ok, hloop, Res.bind_ok]
  refine ⟨?_, ?_⟩
  · intro xs hxs hxmem hne
    have hperm : xs.Perm R1 :=
      (List.perm_ext_iff_of_nodup hxs hnd.2).2 (fun x => by rw [hxmem, hmem])
    have hval : ∀ x ∈ R1, ∃ d, GetShortestPathLength H fuel G u x = .ok d ∧
        G.IsShortest u x d := by
      intro x hx
      obtain ⟨hne, hr⟩ := (hmem x).1 hx
      obtain ⟨d, h1, h2 | ⟨_, h2⟩⟩ :=
        GetShortestPathLength_spec hH G hfit her hnn u x hu (fun h => hne h.symm) fuel hfuel
      · exact ⟨d, h1, h2⟩
      · exact absurd hr h2
    let f : Nat → ℚ := fun x =>
      match GetShortestPathLength H fuel G u x with
      | .ok d => d
      | _ => 0
    have hf : ∀ x ∈ R1, GetShortestPathLength H fuel G u x = .ok (f x) ∧
        G.IsShortest u x (f x) := by
      intro x hx
      obtain ⟨d, h1, h2⟩ := hval x hx
      have hfx : f x = d := by
        show (match GetShortestPathLength H fuel G u x with
          | .ok d => d
          | _ => 0) = d
        rw [h1]
      rw [hfx]
      exact ⟨h1, h2⟩
    refine ⟨xs.map f, ?_, ?_⟩
    · rw [List.forall₂_map_right_iff, List.forall₂_same]
      intro x hx
      exact (hf x (hperm.mem_iff.1 hx)).1
    · rw [havg]
      have hlen : R1.length = xs.length := hperm.length_eq.symm
      have hpos : 0 < xs.length := List.length_pos.2 hne
      rw [if_pos (by simp only [List.length_cons]; omega)]
      have hs : sum1 = (xs.map f).sum := by
        rw [hsum f (fun y hy => (hf y hy).2)]
        exact ((hperm.map f).sum_eq).symm
      rw [hs]
      simp only [List.length_cons, Nat.add_sub_cancel, hlen]
  · intro hno
    have hnil : R1 = [] := by
      cases hR : R1 with
      | nil => rfl
      | cons y ys =>
        have hy : y ∈ R1 := by rw [hR]; exact List.mem_cons_self _ _
        obtain ⟨h1, h2⟩ := (hmem y).1 hy
        exact absurd h2 (hno y h1)
    rw [havg, hnil]
    simp

/-- Witness for `AverageShortestPath_mean`: vertex 0 of the triangle graph, where the
shortest lengths to vertices 1 and 2 are 1 and 3 and the average returned is 2. -/
theorem AverageShortestPath_mean_witness :
    AverageShortestPath sortingHeap 7 triangleGraph 0 = .ok 2 ∧
    ((∀ xs : List Nat, xs.Nodup → (∀ x, x ∈ xs ↔ (x ≠ 0 ∧ triangleGraph.Reachable 0 x)) →
      xs ≠ [] →
      ∃ ds, List.Forall₂ (fun x d => GetShortestPathLength sortingHeap 7 triangleGraph 0 x = .ok d)
          xs ds ∧
        AverageShortestPath sortingHeap 7 triangleGraph 0 = .ok (ds.sum / (xs.length : ℚ))) ∧
    ((∀ x, x ≠ 0 → ¬ triangleGraph.Reachable 0 x) →
      AverageShortestPath sortingHeap 7 triangleGraph 0 = .ok (-1))) :=
  ⟨by decide!,
    AverageShortestPath_mean sortingHeap_conforms triangleGraph (by decide)
      (EndsInRange_of_lists _ (by decide)) (NonNegative_of_lists _ (by decide!)) 0 (by decide) 7
      (by decide)⟩

end ShortestPathAlgorithm

/-! ## Spanning trees: the exchange step -/

namespace Graph

theorem Linked_symm {T : List Edge} {a b : Nat} (h : Linked T a b) : Linked T b a := by
  obtain ⟨t, ht, h | h⟩ := h
  · exact ⟨t, ht, Or.inr h⟩
  · exact ⟨t, ht, Or.inl h⟩

theorem Connects_symm {T : List Edge} {a b : Nat} (h : Connects T a b) : Connects T b a :=
  Relation.ReflTransGen.symmetric (fun _ _ h => Linked_symm h) h

theorem IsTrail_suffix (r : Nat → Nat → Prop) (a b : Nat) (p : List Nat) (c : Nat)
    (h : IsTrail r c p b) (ha : a ∈ c :: p) (hnd : (c :: p).Nodup) :
    ∃ p1, IsTrail r a p1 b ∧ (a :: p1).Nodup := by
  induction p generalizing c with
  | nil =>
    rw [List.mem_singleton] at ha
    subst ha
    exact ⟨[], h, hnd⟩
  | cons c1 p ih =>
    rcases List.mem_cons.1 ha with rfl | ha
    · exact ⟨c1 :: p, h, hnd⟩
    · simp only [IsTrail] at h
      exact ih c1 h.2 ha (List.nodup_cons.1 hnd).2

/-- Two vertices that are connected are joined by a path without repeated vertices. -/
theorem exists_nodup_trail (r : Nat → Nat → Prop) (a b : Nat)
    (h : Relation.ReflTransGen r a b) : ∃ p, IsTrail r a p b ∧ (a :: p).Nodup := by
  induction h using Relation.ReflTransGen.head_induction_on with
  | refl => exact ⟨[], rfl, List.nodup_singleton _⟩
  | @head a1 c hac _ ih =>
    obtain ⟨p, hp, hnd⟩ := ih
    by_cases hmem : a1 ∈ c :: p
    · exact IsTrail_suffix r a1 b p c hp hmem hnd
    · exact ⟨c :: p, ⟨hac, hp⟩, List.nodup_cons.2 ⟨hmem, hnd⟩⟩

theorem IsTrail_avoid (T : List Edge) (y z : Nat) (b : Nat) (p : List Nat) (c : Nat)
    (h : IsTrail (Linked T) c p b) (hy : y ∉ c :: p) :
    Relation.ReflTransGen (LinkedAvoiding T y z) c b := by
  induction p generalizing c with
  | nil =>
    simp only [IsTrail] at h
    subst h
    exact Relation.ReflTransGen.refl
  | cons c1 p ih =>
    simp only [IsTrail] at h
    have hc : c ≠ y := fun h => hy (h ▸ List.mem_cons_self _ _)
    have hc1 : c1 ≠ y := fun h => hy (h ▸ List.mem_cons_of_mem _ (List.mem_cons_self _ _))
    refine Relation.ReflTransGen.head ⟨h.1, fun h => hc h.1, fun h => hc1 h.2⟩ ?_
    exact ih c1 h.2 (fun h => hy (List.mem_cons_of_mem _ h))

/-- A path without repeated vertices that starts inside `C` and ends outside it has a
step `a`, `b` leaving `C` such that the path reaches `a` from its start, and its end
from `b`, without any step between `a` and `b`. -/
theorem trail_crossing (T : List Edge) (C : List Nat) (x : Nat) (p : List Nat) (y : Nat)
    (h : IsTrail (Linked T) y p x) (hnd : (y :: p).Nodup) (hy : y ∈ C) (hx : x ∉ C) :
    ∃ a b, a ∈ y :: p ∧ b ∈ y :: p ∧ a ∈ C ∧ b ∉ C ∧ Linked T a b ∧
      Relation.ReflTransGen (LinkedAvoiding T a b) y a ∧
      Relation.ReflTransGen (LinkedAvoiding T a b) b x := by
  induction p generalizing y with
  | nil =>
    simp only [IsTrail] at h
    subst h
    exact absurd hy hx
  | cons c p ih =>
    simp only [IsTrail] at h
    obtain ⟨hyp, hnd1⟩ := List.nodup_cons.1 hnd
    by_cases hc : c ∈ C
    · obtain ⟨a, b, ha, hb, haC, hbC, hab, h1, h2⟩ := ih c h.2 hnd1 hc
      refine ⟨a, b, List.mem_cons_of_mem _ ha, List.mem_cons_of_mem _ hb, haC, hbC, hab, ?_, h2⟩
      refine Relation.ReflTransGen.head ⟨h.1, ?_, ?_⟩ h1
      · intro hh
        exact hyp (hh.1 ▸ ha)
      · intro hh
        exact hyp (hh.1 ▸ hb)
    · refine ⟨y, c, List.mem_cons_self _ _, List.mem_cons_of_mem _ (List.mem_cons_self _ _), hy,
        hc, h.1, Relation.ReflTransGen.refl, ?_⟩
      exact IsTrail_avoid T y c x p c h.2 hyp

theorem walkWeight_perm {l1 l2 : List Edge} (h : l1.Perm l2) : walkWeight l1 = walkWeight l2 := by
  unfold walkWeight
  exact (h.map _).sum_eq

/-- The exchange step of Prim's algorithm: a spanning tree `T` that contains the edges
`F` chosen so far, all inside `C`, can be traded for a spanning tree that also contains
a stored edge `e` leaving `C`, at no extra weight, when no edge of `T` across the
boundary of `C` is lighter than `e`. -/
theorem exchange (G : Graph) (T F : List Edge) (C : List Nat) (e : Edge)
    (hT : G.IsSpanningTree T) (hF : F.Subperm T)
    (hin : ∀ f ∈ F, f.m_startVertex ∈ C ∧ f.m_endVertex ∈ C)
    (he : e ∈ G.adj e.m_startVertex) (hs : e.m_startVertex ∈ C) (ht : e.m_endVertex ∉ C)
    (hsN : e.m_startVertex < G.m_EdgeList.length) (htN : e.m_endVertex < G.m_EdgeList.length)
    (hmin : ∀ t ∈ T, (t.m_startVertex ∈ C ∧ t.m_endVertex ∉ C) ∨
      (t.m_startVertex ∉ C ∧ t.m_endVertex ∈ C) → e.m_Weight ≤ t.m_Weight) :
    ∃ T1, G.IsSpanningTree T1 ∧ (e :: F).Subperm T1 ∧ walkWeight T1 ≤ walkWeight T := by
  obtain ⟨hstored, hlen, hconn⟩ := hT
  have hse : Connects T e.m_startVertex e.m_endVertex :=
    Relation.ReflTransGen.trans (Connects_symm (hconn _ hsN)) (hconn _ htN)
  obtain ⟨p, hp, hnd⟩ := exists_nodup_trail _ _ _ hse
  obtain ⟨a, b, _, _, haC, hbC, ⟨t1, ht1, hjoin⟩, h1, h2⟩ :=
    trail_crossing T C e.m_endVertex p e.m_startVertex hp hnd hs ht
  have hcross : (t1.m_startVertex ∈ C ∧ t1.m_endVertex ∉ C) ∨
      (t1.m_startVertex ∉ C ∧ t1.m_endVertex ∈ C) := by
    rcases hjoin with ⟨h3, h4⟩ | ⟨h3, h4⟩
    · exact Or.inl ⟨h3 ▸ haC, h4 ▸ hbC⟩
    · exact Or.inr ⟨h3 ▸ hbC, h4 ▸ haC⟩
  have ht1F : t1 ∉ F := by
    intro hmem
    obtain ⟨f1, f2⟩ := hin t1 hmem
    rcases hcross with h | h
    · exact h.2 f2
    · exact h.1 f1
  have hlift : ∀ s t, LinkedAvoiding T a b s t → Linked (e :: T.erase t1) s t := by
    rintro s t ⟨⟨t0, ht0, hj0⟩, hn1, hn2⟩
    have hne : t0 ≠ t1 := by
      intro heq
      subst heq
      rcases hj0 with ⟨h3, h4⟩ | ⟨h3, h4⟩ <;> rcases hjoin with ⟨h5, h6⟩ | ⟨h5, h6⟩
      · exact hn1 ⟨h3.symm.trans h5, h4.symm.trans h6⟩
      · exact hn2 ⟨h3.symm.trans h5, h4.symm.trans h6⟩
      · exact hn2 ⟨h4.symm.trans h6, h3.symm.trans h5⟩
      · exact hn1 ⟨h4.symm.trans h6, h3.symm.trans h5⟩
    exact ⟨t0, List.mem_cons_of_mem _ ((List.mem_erase_of_ne hne).2 ht0), hj0⟩
  have hab : Connects (e :: T.erase t1) a b := by
    have c1 : Connects (e :: T.erase t1) e.m_startVertex a :=
      Relation.ReflTransGen.mono hlift h1
    have c2 : Connects (e :: T.erase t1) b e.m_endVertex :=
      Relation.ReflTransGen.mono hlift h2
    have c3 : Connects (e :: T.erase t1) e.m_startVertex e.m_endVertex :=
      Relation.ReflTransGen.single ⟨e, List.mem_cons_self _ _, Or.inl ⟨rfl, rfl⟩⟩
    exact Relation.ReflTransGen.trans (Connects_symm c1)
      (Relation.ReflTransGen.trans c3 (Connects_symm c2))
  have hstep : ∀ s t, Linked T s t → Connects (e :: T.erase t1) s t := by
    rintro s t ⟨t0, ht0, hj0⟩
    by_cases heq : t0 = t1
    · subst heq
      rcases hj0 with ⟨h3, h4⟩ | ⟨h3, h4⟩ <;> rcases hjoin with ⟨h5, h6⟩ | ⟨h5, h6⟩
      · rw [← h3, ← h4, h5, h6]; exact hab
      · rw [← h3, ← h4, h5, h6]; exact Connects_symm hab
      · rw [← h3, ← h4, h5, h6]; exact Connects_symm hab
      · rw [← h3, ← h4, h5, h6]; exact hab
    · exact Relation.ReflTransGen.single
        ⟨t0, List.mem_cons_of_mem _ ((List.mem_erase_of_ne heq).2 ht0), hj0⟩
  refine ⟨e :: T.erase t1, ⟨?_, ?_, ?_⟩, ?_, ?_⟩
  · intro t htm
    rcases List.mem_cons.1 htm with rfl | htm
    · exact he
    · exact hstored t (List.mem_of_mem_erase htm)
  · rw [List.length_cons, List.length_erase_of_mem ht1]
    have : 0 < T.length := List.length_pos_of_mem ht1
    omega
  · have hall : ∀ s t, Connects T s t → Connects (e :: T.erase t1) s t := by
      intro s t hst
      induction hst with
      | refl => exact Relation.ReflTransGen.refl
      | tail _ hlink ih => exact Relation.ReflTransGen.trans ih (hstep _ _ hlink)
    exact fun x hx => hall 0 x (hconn x hx)
  · refine (List.subperm_cons e).2 ?_
    have := hF.erase t1
    rwa [List.erase_of_not_mem ht1F] at this
  · have hperm := walkWeight_perm (List.perm_cons_erase ht1)
    rw [hperm, walkWeight_cons, walkWeight_cons]
    linarith [hmin t1 ht1 hcross]

end Graph

/-! ## Prim: the loops -/

namespace Graph

theorem insertEdges_spec {H : StlHeap} (hH : H.Conforms) (es : List Edge)
    (q : PriorityQueue Edge ℚ) (hq : IsHeap Compare q.m_MinHeap) :
    IsHeap Compare (insertEdges H es q).m_MinHeap ∧
      (insertEdges H es q).m_MinHeap.Perm
        (q.m_MinHeap ++ es.map (fun e => ⟨e, e.m_Weight⟩)) := by
  induction es generalizing q with
  | nil => simpa [insertEdges] using hq
  | cons e es ih =>
    have hins := PriorityQueue.Insert_spec hH q e e.GetEdgeWeight hq
    obtain ⟨h1, h2⟩ := ih (q.Insert H e e.GetEdgeWeight) hins.1
    refine ⟨h1, ?_⟩
    unfold insertEdges
    refine h2.trans ?_
    have := List.Perm.append_right (es.map (fun e => (⟨e, e.m_Weight⟩ :
      PriorityQueueElement Edge ℚ))) hins.2
    simpa [Edge.GetEdgeWeight] using this

theorem primFind_empty (H : StlHeap) (C : List Nat) (fuel : Nat) (e0 : Edge)
    (Q : PriorityQueue Edge ℚ) (hl : Q.m_MinHeap = []) :
    primFind H C (fuel + 1) e0 Q = .ok (true, e0, Q) := by
  simp [primFind, PriorityQueue.Size, hl]

theorem primFind_step (H : StlHeap) (C : List Nat) (fuel : Nat) (e0 : Edge)
    (Q Q1 : PriorityQueue Edge ℚ) (top : PriorityQueueElement Edge ℚ)
    (rest : List (PriorityQueueElement Edge ℚ)) (hl : Q.m_MinHeap = top :: rest)
    (hpop : Q.Pop H = .ok Q1) :
    primFind H C (fuel + 1) e0 Q =
      if top.m_Value.m_endVertex ∈ C then primFind H C fuel top.m_Value Q1
      else .ok (false, top.m_Value, Q1) := by
  by_cases h : top.m_Value.m_endVertex ∈ C
  · simp [primFind, PriorityQueue.Size, PriorityQueue.Top, hl, hpop, Edge.GetEndVertexNumber, h]
  · simp [primFind, PriorityQueue.Size, PriorityQueue.Top, hl, hpop, Edge.GetEndVertexNumber, h]

/-- The inner loop of `PrimMST`: it returns; entries are only removed; when it reports
failure the queue is empty and no entry led out of the close set; otherwise the edge
found leads out of the close set, no queue entry that leads out of it had a smaller
priority, and the entries that lead to other vertices outside it are still queued. -/
theorem primFind_spec {H : StlHeap} (hH : H.Conforms) (C : List Nat) :
    ∀ (fuel : Nat) (e0 : Edge) (Q : PriorityQueue Edge ℚ), IsHeap Compare Q.m_MinHeap →
      Q.m_MinHeap.length < fuel →
      ∃ bD e Q1, primFind H C fuel e0 Q = .ok (bD, e, Q1) ∧ IsHeap Compare Q1.m_MinHeap ∧
        (∀ el ∈ Q1.m_MinHeap, el ∈ Q.m_MinHeap) ∧
        (bD = true → Q1.m_MinHeap = [] ∧ ∀ el ∈ Q.m_MinHeap, el.m_Value.m_endVertex ∈ C) ∧
        (bD = false → e.m_endVertex ∉ C ∧
          (∃ p, (⟨e, p⟩ : PriorityQueueElement Edge ℚ) ∈ Q.m_MinHeap ∧
            ∀ el ∈ Q.m_MinHeap, el.m_Value.m_endVertex ∉ C → p ≤ el.m_Priority) ∧
          (∀ el ∈ Q.m_MinHeap, el.m_Value.m_endVertex ∉ C →
            el.m_Value.m_endVertex ≠ e.m_endVertex → el ∈ Q1.m_MinHeap) ∧
          Q1.m_MinHeap.length < Q.m_MinHeap.length) := by
  intro fuel
  induction fuel with
  | zero => intro e0 Q _ hb; omega
  | succ fuel ih =>
    intro e0 Q hq hb
    cases hl : Q.m_MinHeap with
    | nil =>
      refine ⟨true, e0, Q, primFind_empty H C fuel e0 Q hl, hq, fun el h => by rw [← hl]; exact h,
        fun _ => ⟨hl, ?_⟩, fun h => by cases h⟩
      intro el hel
      simp at hel
    | cons top rest =>
      obtain ⟨Q1, hpop, hheap, hperm⟩ := PriorityQueue.Pop_spec hH Q top rest hq hl
      rw [primFind_step H C fuel e0 Q Q1 top rest hl hpop]
      have hQ1 : ∀ el ∈ Q1.m_MinHeap, el ∈ top :: rest := fun el hel =>
        List.mem_cons_of_mem _ (hperm.mem_iff.1 hel)
      by_cases hin : top.m_Value.m_endVertex ∈ C
      · rw [if_pos hin]
        rw [hl] at hb
        obtain ⟨bD, e, Q2, hfind, hheap2, hsub, hT, hF⟩ := ih top.m_Value Q1 hheap
          (by rw [hperm.length_eq]; simp only [List.length_cons] at hb; omega)
        refine ⟨bD, e, Q2, hfind, hheap2, fun el hel => hQ1 el (hsub el hel), ?_, ?_⟩
        · intro hb1
          obtain ⟨h1, h2⟩ := hT hb1
          refine ⟨h1, ?_⟩
          intro el hel
          rcases List.mem_cons.1 hel with rfl | hel
          · exact hin
          · exact h2 el (hperm.mem_iff.2 hel)
        · intro hb1
          obtain ⟨h1, ⟨p, hp1, hp2⟩, h3, h4⟩ := hF hb1
          refine ⟨h1, ⟨p, hQ1 _ hp1, ?_⟩, ?_, ?_⟩
          · intro el hel hout
            rcases List.mem_cons.1 hel with rfl | hel
            · exact absurd hin hout
            · exact hp2 el (hperm.mem_iff.2 hel) hout
          · intro el hel hout hne
            rcases List.mem_cons.1 hel with rfl | hel
            · exact absurd hin hout
            · exact h3 el (hperm.mem_iff.2 hel) hout hne
          · rw [hperm.length_eq] at h4
            simp only [List.length_cons]
            omega
      · rw [if_neg hin]
        refine ⟨false, top.m_Value, Q1, rfl, hheap, hQ1, fun h => (by cases h), fun _ => ?_⟩
        refine ⟨hin, ⟨top.m_Priority, List.mem_cons_self _ _, ?_⟩, ?_, ?_⟩
        · intro el hel _
          exact PriorityQueue.top_min Q top rest hq hl el (by rw [hl]; exact hel)
        · intro el hel _ hne
          rcases List.mem_cons.1 hel with rfl | hel
          · exact absurd rfl hne
          · exact hperm.mem_iff.2 hel
        · rw [hperm.length_eq]
          simp

theorem primLoop_exit (H : StlHeap) (src : Graph) (fuel : Nat) (s : PrimState)
    (h : ¬ (s.closeSet.length ≠ s.G.GetVerticesAmount ∧ s.PQ.Size > 0)) :
    primLoop H src (fuel + 1) s = .ok s := by
  rw [primLoop, if_neg h]

theorem primLoop_step_none (H : StlHeap) (src : Graph) (fuel : Nat) (s : PrimState) (e : Edge)
    (Q1 : PriorityQueue Edge ℚ)
    (h : s.closeSet.length ≠ s.G.GetVerticesAmount ∧ s.PQ.Size > 0)
    (hfind : primFind H s.closeSet (fuel + 1) Edge.default s.PQ = .ok (true, e, Q1)) :
    primLoop H src (fuel + 1) s = .ok { s with PQ := Q1, bDisconnected := true } := by
  rw [primLoop, if_pos h, hfind]
  rfl

theorem primLoop_step_found (H : StlHeap) (src : Graph) (fuel : Nat) (s : PrimState) (e : Edge)
    (Q1 : PriorityQueue Edge ℚ) (G1 : Graph)
    (h : s.closeSet.length ≠ s.G.GetVerticesAmount ∧ s.PQ.Size > 0)
    (hfind : primFind H s.closeSet (fuel + 1) Edge.default s.PQ = .ok (false, e, Q1))
    (hadd : s.G.AddEdgeE e = .ok G1) (hend : e.m_endVertex < src.m_EdgeList.length) :
    primLoop H src (fuel + 1) s =
      primLoop H src fuel
        { G := G1
          closeSet := s.closeSet ++ [e.m_endVertex]
          PQ := insertEdges H (src.adj e.m_endVertex) Q1
          length := s.length + e.m_Weight
          bDisconnected := false } := by
  rw [primLoop, if_pos h, hfind]
  simp only [Res.bind_ok, Bool.false_eq_true, if_false, hadd, Edge.GetEndVertexNumber,
    Edge.GetEdgeWeight, adj_of_lt src _ hend]

end Graph

namespace Graph

/-- The outer loop of `PrimMST` on a graph with mirrored edges: it returns, the invariant
holds at the end, and if the loop is left with `bDisconnected == false` the close set has
as many vertices as the graph. -/
theorem primLoop_correct {H : StlHeap} (hH : H.Conforms) (src : Graph) (hfit : src.Fits)
    (hmir : src.Mirrored) :
    ∀ (fuel : Nat) (s : PrimState) (F : List Edge), PrimInv src s F →
      s.PQ.m_MinHeap.length + src.pendingWork s.closeSet < fuel →
      ∃ s1 F1, primLoop H src fuel s = .ok s1 ∧ PrimInv src s1 F1 ∧
        (s1.bDisconnected = false → s1.closeSet.length = src.m_EdgeList.length) := by
  intro fuel
  induction fuel with
  | zero => intro s F _ hb; omega
  | succ fuel ih =>
    intro s F hI hb
    have hfitG : s.G.Fits := by unfold Fits; rw [hI.treeSize]; exact hfit
    have hGN : s.G.GetVerticesAmount = src.m_EdgeList.length := by
      rw [GetVerticesAmount_of_fits s.G hfitG, hI.treeSize]
    by_cases hcond : s.closeSet.length ≠ s.G.GetVerticesAmount ∧ s.PQ.Size > 0
    swap
    · refine ⟨s, F, primLoop_exit H src fuel s hcond, hI, ?_⟩
      intro hbd
      have hlive := hI.live hbd
      by_contra hne
      exact hcond ⟨by rw [hGN]; exact hne, hlive⟩
    · obtain ⟨bD, e, Q1, hfind, hheap1, hsub, hT, hFnd⟩ :=
        primFind_spec hH s.closeSet (fuel + 1) Edge.default s.PQ hI.heap (by omega)
      cases bD with
      | true =>
        obtain ⟨_, hall⟩ := hT rfl
        refine ⟨{ s with PQ := Q1, bDisconnected := true }, F,
          primLoop_step_none H src fuel s e Q1 hcond hfind, ?_, fun h => (by cases h)⟩
        exact
          { heap := hheap1, zero := hI.zero, inRange := hI.inRange, nodup := hI.nodup
            ent := fun el hel => hI.ent el (hsub el hel)
            cov := fun y hy e1 he1 hout => absurd (hall _ (hI.cov y hy e1 he1 hout)) hout
            inside := hI.inside, len := hI.len, count := hI.count, best := hI.best
            treeSize := hI.treeSize, treeEnds := hI.treeEnds
            live := fun h => (by cases h) }
      | false =>
        obtain ⟨hout, ⟨p, hpmem, hpmin⟩, hsurv, hlt⟩ := hFnd rfl
        obtain ⟨hpw, hstored, hstart⟩ := hI.ent _ hpmem
        simp only at hpw hstored hstart
        obtain ⟨_, hendN, e1, he1, _, _⟩ := hmir _ e hstored
        have hstartN := hI.inRange _ hstart
        have hne : e.m_endVertex ≠ e.m_startVertex := fun h => hout (h ▸ hstart)
        obtain ⟨G1, hadd, hG1len, _, hG1adj⟩ :=
          AddEdge_new s.G hfitG e.m_startVertex e.m_endVertex e.m_Weight
            (by rw [hI.treeSize]; exact hstartN) (by rw [hI.treeSize]; exact hendN)
            (fun e2 he2 h => hout (h ▸ hI.treeEnds _ e2 he2))
        rw [primLoop_step_found H src fuel s e Q1 G1 hcond hfind hadd hendN]
        obtain ⟨i1, i2⟩ := insertEdges_spec hH (src.adj e.m_endVertex) Q1 hheap1
        have hminAll : ∀ t, t ∈ src.adj t.m_startVertex →
            (t.m_startVertex ∈ s.closeSet ∧ t.m_endVertex ∉ s.closeSet) ∨
              (t.m_startVertex ∉ s.closeSet ∧ t.m_endVertex ∈ s.closeSet) →
            e.m_Weight ≤ t.m_Weight := by
          intro t ht hcross
          rcases hcross with ⟨h1, h2⟩ | ⟨h1, h2⟩
          · have := hpmin _ (hI.cov _ h1 t ht h2) h2
            rw [hpw] at this
            exact this
          · obtain ⟨_, _, t2, ht2, ht2end, ht2w⟩ := hmir _ t ht
            have hnot : t2.m_endVertex ∉ s.closeSet := by rw [ht2end]; exact h1
            have := hpmin _ (hI.cov _ h2 t2 ht2 hnot) hnot
            rw [hpw] at this
            simp only at this
            rw [ht2w] at this
            exact this
        refine ih _ (e :: F) ?_ ?_
        · refine
            { heap := i1
              zero := List.mem_append_left _ hI.zero
              inRange := ?_, nodup := ?_, ent := ?_, cov := ?_, inside := ?_, len := ?_
              count := ?_, best := ?_
              treeSize := hG1len.trans hI.treeSize
              treeEnds := ?_, live := ?_ }
          · intro c hc
            rcases List.mem_append.1 hc with hc | hc
            · exact hI.inRange c hc
            · rw [List.mem_singleton.1 hc]; exact hendN
          · refine List.Nodup.append hI.nodup (List.nodup_singleton _) ?_
            intro a ha hb1
            rw [List.mem_singleton.1 hb1] at ha
            exact hout ha
          · intro el hel
            rcases List.mem_append.1 (i2.mem_iff.1 hel) with h | h
            · obtain ⟨h1, h2, h3⟩ := hI.ent el (hsub el h)
              exact ⟨h1, h2, List.mem_append_left _ h3⟩
            · obtain ⟨e2, he2, rfl⟩ := List.mem_map.1 h
              obtain ⟨hs2, _, _⟩ := hmir _ e2 he2
              refine ⟨rfl, ?_, ?_⟩
              · simp only [hs2]; exact he2
              · simp only [hs2]; exact List.mem_append_right _ (List.mem_singleton_self _)
          · intro y hy e2 he2 hout2
            have hout2C : e2.m_endVertex ∉ s.closeSet := fun h =>
              hout2 (List.mem_append_left _ h)
            have hne2 : e2.m_endVertex ≠ e.m_endVertex := fun h =>
              hout2 (List.mem_append_right _ (by rw [h]; exact List.mem_singleton_self _))
            rcases List.mem_append.1 hy with hy | hy
            · exact i2.mem_iff.2 (List.mem_append_left _
                (hsurv _ (hI.cov y hy e2 he2 hout2C) hout2C hne2))
            · rw [List.mem_singleton.1 hy] at he2
              exact i2.mem_iff.2 (List.mem_append_right _ (List.mem_map.2 ⟨e2, he2, rfl⟩))
          · intro f hf
            rcases List.mem_cons.1 hf with rfl | hf
            · exact ⟨List.mem_append_left _ hstart,
                List.mem_append_right _ (List.mem_singleton_self _)⟩
            · exact ⟨List.mem_append_left _ (hI.inside f hf).1,
                List.mem_append_left _ (hI.inside f hf).2⟩
          · show s.length + e.m_Weight = walkWeight (e :: F)
            rw [walkWeight_cons, ← hI.len, add_comm]
          · show (e :: F).length + 1 = (s.closeSet ++ [e.m_endVertex]).length
            have := hI.count
            simp only [List.length_cons, List.length_append, List.length_nil]
            omega
          · intro T hT0
            obtain ⟨T0, hT0s, hsubp, hw0⟩ := hI.best T hT0
            obtain ⟨T1, hT1, hsub1, hw1⟩ := exchange src T0 F s.closeSet e hT0s hsubp hI.inside
              hstored hstart hout hstartN hendN (fun t ht hc => hminAll t (hT0s.1 t ht) hc)
            exact ⟨T1, hT1, hsub1, le_trans hw1 hw0⟩
          · intro x e2 he2
            show e2.m_endVertex ∈ s.closeSet ++ [e.m_endVertex]
            rw [hG1adj x] at he2
            by_cases hx : x = e.m_endVertex
            · rw [if_pos hx, if_neg hne] at he2
              rcases List.mem_append.1 he2 with h | h
              · exact List.mem_append_left _ (hI.treeEnds _ e2 h)
              · rw [List.mem_singleton.1 h]
                exact List.mem_append_left _ hstart
            · rw [if_neg hx] at he2
              by_cases hx2 : x = e.m_startVertex
              · rw [if_pos hx2] at he2
                rcases List.mem_append.1 he2 with h | h
                · exact List.mem_append_left _ (hI.treeEnds _ e2 h)
                · rw [List.mem_singleton.1 h]
                  exact List.mem_append_right _ (List.mem_singleton_self _)
              · rw [if_neg hx2] at he2
                exact List.mem_append_left _ (hI.treeEnds _ e2 he2)
          · intro _
            show 0 < (insertEdges H (src.adj e.m_endVertex) Q1).m_MinHeap.length
            rw [i2.length_eq, List.length_append, List.length_map]
            have := List.length_pos_of_mem he1
            omega
        · show (insertEdges H (src.adj e.m_endVertex) Q1).m_MinHeap.length +
            src.pendingWork (s.closeSet ++ [e.m_endVertex]) < fuel
          rw [i2.length_eq, List.length_append, List.length_map]
          have := pendingWork_append src s.closeSet e.m_endVertex hendN hout
          omega

theorem adj_ofSize (n x : Nat) : (ofSize n).adj x = [] := by
  unfold adj ofSize
  by_cases h : x < n
  · simp [List.getElem?_replicate, h]
  · simp [List.getElem?_replicate, h]

/-- Claim C6: on a graph with mirrored edges whose vertex count fits, `PrimMST` returns
(any budget above the number of stored edges is enough), and whenever the graph it
returns is not empty, the length it reports is at most the sum of the weights of every
spanning tree of the input. -/
theorem PrimMST_optimal {H : StlHeap} (hH : H.Conforms) (G : Graph) (hfit : G.Fits)
    (hmir : G.Mirrored) (fuel : Nat) (hfuel : G.storedEdges < fuel) :
    ∃ T len, PrimMST H fuel G = .ok (T, len) ∧
      (T.GetVerticesAmount ≠ 0 → ∀ S, G.IsSpanningTree S → len ≤ walkWeight S) := by
  have hN := GetVerticesAmount_of_fits G hfit
  by_cases h0 : G.m_EdgeList.length = 0
  · refine ⟨ofSize 0, 0, ?_, ?_⟩
    · unfold PrimMST
      rw [hN, if_pos h0, h0]
    · intro h
      exact absurd rfl h
  · have hpos : 0 < G.m_EdgeList.length := Nat.pos_of_ne_zero h0
    obtain ⟨i1, i2⟩ := insertEdges_spec hH (G.adj 0) PriorityQueue.empty (IsHeap.nil _)
    have hmem : ∀ el, el ∈ (insertEdges H (G.adj 0) PriorityQueue.empty).m_MinHeap ↔
        ∃ e ∈ G.adj 0, el = ⟨e, e.m_Weight⟩ := by
      intro el
      rw [i2.mem_iff]
      simp only [PriorityQueue.empty, List.nil_append, List.mem_map]
      constructor
      · rintro ⟨e, he, rfl⟩
        exact ⟨e, he, rfl⟩
      · rintro ⟨e, he, rfl⟩
        exact ⟨e, he, rfl⟩
    have hinit : PrimInv G
        { G := ofSize G.m_EdgeList.length, closeSet := [0],
          PQ := insertEdges H (G.adj 0) PriorityQueue.empty, length := 0,
          bDisconnected := true } [] :=
      { heap := i1
        zero := List.mem_singleton_self 0
        inRange := fun c hc => by rw [List.mem_singleton.1 hc]; exact hpos
        nodup := List.nodup_singleton 0
        ent := fun el hel => by
          obtain ⟨e, he, rfl⟩ := (hmem el).1 hel
          obtain ⟨hs, _, _⟩ := hmir _ e he
          refine ⟨rfl, ?_, ?_⟩
          · simp only [hs]; exact he
          · simp only [hs]; exact List.mem_singleton_self 0
        cov := fun y hy e he _ => by
          rw [List.mem_singleton.1 hy] at he
          exact (hmem _).2 ⟨e, he, rfl⟩
        inside := fun f hf => by simp at hf
        len := rfl
        count := rfl
        best := fun T hT => ⟨T, hT, List.nil_subperm, le_refl _⟩
        treeSize := by simp [ofSize]
        treeEnds := fun x e he => by
          rw [adj_ofSize] at he
          simp at he
        live := fun h => (by cases h) }
    have hbudget : (insertEdges H (G.adj 0) PriorityQueue.empty).m_MinHeap.length +
        G.pendingWork [0] < fuel := by
      rw [i2.length_eq]
      simp only [PriorityQueue.empty, List.nil_append, List.length_map]
      have h1 := pendingWork_append G [] 0 hpos (by simp)
      have h2 := pendingWork_nil G
      simp only [List.nil_append] at h1
      omega
    obtain ⟨s1, F1, hloop, hI1, hfin⟩ := primLoop_correct hH G hfit hmir fuel _ [] hinit hbudget
    have hrun : PrimMST H fuel G =
        if !s1.bDisconnected then .ok (s1.G, s1.length) else .ok (ofSize 0, DBL_MAX) := by
      unfold PrimMST
      rw [hN, if_neg h0, adj_of_lt G 0 hpos]
      simp only [hloop, Res.bind_ok]
    cases hbd : s1.bDisconnected with
    | true =>
      refine ⟨ofSize 0, DBL_MAX, by rw [hrun, hbd]; rfl, fun h => absurd rfl h⟩
    | false =>
      refine ⟨s1.G, s1.length, by rw [hrun, hbd]; rfl, fun _ S hS => ?_⟩
      obtain ⟨T1, hT1, hsub, hw⟩ := hI1.best S hS
      have hlen : T1.length ≤ F1.length := by
        have h1 := hT1.2.1
        have h2 := hI1.count
        have h3 := hfin hbd
        omega
      have hperm := hsub.perm_of_length_le hlen
      rw [hI1.len, walkWeight_perm hperm]
      exact hw

end Graph

/-! ## Prim: the claims -/

namespace Graph

theorem Mirrored_of_lists (G : Graph)
    (h : ∀ x, x < G.m_EdgeList.length → ∀ e ∈ G.adj x,
      e.m_startVertex = x ∧ e.m_endVertex < G.m_EdgeList.length ∧
        ∃ e1 ∈ G.adj e.m_endVertex, e1.m_endVertex = x ∧ e1.m_Weight = e.m_Weight) :
    G.Mirrored := by
  intro x e he
  by_cases hx : x < G.m_EdgeList.length
  · exact h x hx e he
  · rw [adj_of_ge G x (by omega)] at he
    simp at he

/-- Claim C5 (failing input): on the graph with one vertex and no edge, which is
connected, `PrimMST` skips its loop with `bDisconnected` still `true` and returns the
failure value, a graph with 0 vertices and length `DBL_MAX`, instead of a tree with 1
vertex and 0 edges. This holds for any heap functions and any positive budget. -/
theorem PrimMST_single_vertex (H : StlHeap) (fuel : Nat) :
    PrimMST H (fuel + 1) (ofSize 1) = .ok (ofSize 0, DBL_MAX) ∧
      (ofSize 0).GetVerticesAmount = 0 ∧ (ofSize 1).GetVerticesAmount = 1 := by
  refine ⟨?_, by decide, by decide⟩
  rfl

/-- Witness for `PrimMST_optimal`: the triangle graph, where the tree returned has the
edges 0-1 and 1-2 and length 3. -/
theorem PrimMST_optimal_witness :
    PrimMST sortingHeap 7 triangleGraph =
        .ok (⟨[[⟨0, 1, 1⟩], [⟨1, 0, 1⟩, ⟨1, 2, 2⟩], [⟨2, 1, 2⟩]], 2⟩, 3) ∧
      ∃ T len, PrimMST sortingHeap 7 triangleGraph = .ok (T, len) ∧
        (T.GetVerticesAmount ≠ 0 → ∀ S, triangleGraph.IsSpanningTree S → len ≤ walkWeight S) :=
  ⟨by decide!,
    PrimMST_optimal sortingHeap_conforms triangleGraph (by decide)
      (Mirrored_of_lists _ (by decide!)) 7 (by decide)⟩

/-- Claim C7 (failing input): the graph with the single vertex 0 and its edge to itself
is connected (every vertex is reachable from vertex 0), yet `PrimMST` returns the failure
value, a graph with 0 vertices and length `DBL_MAX`. This holds for any heap functions
and any positive budget. -/
theorem PrimMST_failure_on_connected (H : StlHeap) (fuel : Nat) :
    (∀ x, x < loopGraph.m_EdgeList.length → loopGraph.Reachable 0 x) ∧
      PrimMST H (fuel + 1) loopGraph = .ok (ofSize 0, DBL_MAX) := by
  refine ⟨?_, rfl⟩
  intro x hx
  have hx0 : x = 0 := by
    have : loopGraph.m_EdgeList.length = 1 := rfl
    omega
  subst hx0
  exact ⟨[], rfl⟩

/-- Claim C8: for the graph with 0 vertices (whatever its edge counter holds), `PrimMST`
returns a graph with 0 vertices and 0 edges and sets the length to 0. -/
theorem PrimMST_no_vertices (H : StlHeap) (fuel cnt : Nat) :
    PrimMST H fuel ⟨[], cnt⟩ = .ok (ofSize 0, 0) ∧ (ofSize 0).GetVerticesAmount = 0 ∧
      (ofSize 0).GetEdgesAmount = 0 ∧ (ofSize 0).m_EdgeList = [] := by
  refine ⟨rfl, by decide, by decide, rfl⟩

end Graph

/-! ## Adjacency lists under the mutators -/

namespace Graph

theorem firstWeightTo_eq_none (v2 : Nat) (l : List Edge) :
    firstWeightTo v2 l = none ↔ ∀ e ∈ l, e.m_endVertex ≠ v2 := by
  induction l with
  | nil => simp [firstWeightTo]
  | cons e es ih =>
    unfold firstWeightTo
    by_cases h : e.GetEndVertexNumber = v2
    · rw [if_pos h]
      constructor
      · intro hc
        cases hc
      · intro hc
        exact absurd h (hc e (List.mem_cons_self _ _))
    · rw [if_neg h, ih]
      simp only [List.mem_cons, forall_eq_or_imp]
      exact ⟨fun hh => ⟨h, hh⟩, fun hh => hh.2⟩

theorem firstWeightTo_append_new (v2 : Nat) (l : List Edge) (e : Edge)
    (hl : ∀ e1 ∈ l, e1.m_endVertex ≠ v2) (he : e.m_endVertex = v2) :
    firstWeightTo v2 (l ++ [e]) = some e.m_Weight := by
  induction l with
  | nil => simp [firstWeightTo, Edge.GetEndVertexNumber, Edge.GetEdgeWeight, he]
  | cons e1 es ih =>
    have h1 : ¬ e1.GetEndVertexNumber = v2 := hl e1 (List.mem_cons_self _ _)
    simp only [List.cons_append, firstWeightTo, if_neg h1]
    exact ih (fun e2 he2 => hl e2 (List.mem_cons_of_mem _ he2))

/-- The value of `GetEdgeValue` on two vertices of the graph: the weight found by the
scan of the list of `v1`, or `-1`. -/
theorem GetEdgeValue_of_lt (G : Graph) (hfit : G.Fits) (v1 v2 : Nat)
    (h1 : v1 < G.m_EdgeList.length) (h2 : v2 < G.m_EdgeList.length) :
    G.GetEdgeValue v1 v2 = .ok ((firstWeightTo v2 (G.adj v1)).getD (-1)) := by
  unfold GetEdgeValue
  rw [Adjacent_of_lt G hfit v1 v2 h1 h2, Res.bind_ok, adj_of_lt G v1 h1]
  cases hf : firstWeightTo v2 (G.adj v1) with
  | none =>
    have := (firstWeightTo_eq_none v2 (G.adj v1)).1 hf
    by_cases hany : (G.adj v1).any (fun e => e.GetEndVertexNumber == v2) = true
    · simp only [hany, if_true, Option.getD_none, hf]
    · simp only [hany, Bool.false_eq_true, if_false, Option.getD_none]
  | some w =>
    have hany : (G.adj v1).any (fun e => e.GetEndVertexNumber == v2) = true := by
      by_contra hc
      have hnone : firstWeightTo v2 (G.adj v1) = none := by
        rw [firstWeightTo_eq_none]
        intro e he heq
        apply hc
        rw [List.any_eq_true]
        exact ⟨e, he, by simpa [Edge.GetEndVertexNumber] using heq⟩
      rw [hnone] at hf
      cases hf
    simp only [hany, if_true, Option.getD_some, hf]

theorem firstWeightTo_append_old (v2 : Nat) (l : List Edge) (e : Edge)
    (hl : ∃ e1 ∈ l, e1.m_endVertex = v2) :
    firstWeightTo v2 (l ++ [e]) = firstWeightTo v2 l := by
  induction l with
  | nil =>
    obtain ⟨e1, he1, _⟩ := hl
    simp at he1
  | cons e1 es ih =>
    by_cases h1 : e1.GetEndVertexNumber = v2
    · simp only [List.cons_append, firstWeightTo, if_pos h1]
    · simp only [List.cons_append, firstWeightTo, if_neg h1]
      apply ih
      obtain ⟨e2, he2, hend⟩ := hl
      rcases List.mem_cons.1 he2 with rfl | he2
      · exact absurd hend h1
      · exact ⟨e2, he2, hend⟩

/-- Claim C11 (counterexample): on the graph that the file constructor builds from the
header `2` and the line `0 1 5`, which stores the edge 0 -> 1 only, vertex 1 is not
adjacent to vertex 0, so `AddEdge(1, 0, 7)` appends `(1,0,7)` to the list of 1 and
`(0,1,7)` to the list of 0; afterwards `GetEdgeValue(1, 0)` is 7 but `GetEdgeValue(0, 1)`
is still 5, the weight of the older edge, which the scan meets first. -/
theorem AddEdge_mirror_value_on_one_way :
    oneWayGraph.Adjacent 1 0 = .ok false ∧
    oneWayGraph.AddEdge 1 0 7 = .ok ⟨[[⟨0, 1, 5⟩, ⟨0, 1, 7⟩], [⟨1, 0, 7⟩]], 2⟩ ∧
    (Graph.mk [[⟨0, 1, 5⟩, ⟨0, 1, 7⟩], [⟨1, 0, 7⟩]] 2).GetEdgeValue 1 0 = .ok 7 ∧
    (Graph.mk [[⟨0, 1, 5⟩, ⟨0, 1, 7⟩], [⟨1, 0, 7⟩]] 2).GetEdgeValue 0 1 = .ok 5 ∧
    (Graph.mk [[⟨0, 1, 5⟩, ⟨0, 1, 7⟩], [⟨1, 0, 7⟩]] 2).GetEdgeValue 0 1 ≠ .ok 7 := by
  decide!

/-- Claim C11 (amended): on a graph whose vertex count fits, for two different vertices
`v1`, `v2` of the graph such that `Adjacent(v1, v2)` is false, `AddEdge(v1, v2, w)` returns
a graph in which the list of `v1` is the old one followed by the edge `(v1, v2, w)`, the
list of `v2` is the old one followed by `(v2, v1, w)`, every other list is unchanged,
`Adjacent` holds in both directions, `GetEdgeValue(v1, v2)` is `w`, and the edge count is
the old one plus 1 in `unsigned int` arithmetic (exactly plus 1 when that does not wrap).
`GetEdgeValue(v2, v1)` is `w` when `Adjacent(v2, v1)` was false as well, and keeps its
previous value when `Adjacent(v2, v1)` was true. -/
theorem AddEdge_effect (G : Graph) (hfit : G.Fits) (v1 v2 : Nat) (w : ℚ)
    (h1 : v1 < G.m_EdgeList.length) (h2 : v2 < G.m_EdgeList.length) (hne : v1 ≠ v2)
    (hna : G.Adjacent v1 v2 = .ok false) :
    ∃ G1, G.AddEdge v1 v2 w = .ok G1 ∧
      G1.m_EdgeList.length = G.m_EdgeList.length ∧
      G1.adj v1 = G.adj v1 ++ [⟨v1, v2, w⟩] ∧ G1.adj v2 = G.adj v2 ++ [⟨v2, v1, w⟩] ∧
      (∀ x, x ≠ v1 → x ≠ v2 → G1.adj x = G.adj x) ∧
      G1.Adjacent v1 v2 = .ok true ∧ G1.Adjacent v2 v1 = .ok true ∧
      G1.GetEdgeValue v1 v2 = .ok w ∧
      (G.Adjacent v2 v1 = .ok false → G1.GetEdgeValue v2 v1 = .ok w) ∧
      (G.Adjacent v2 v1 = .ok true → G1.GetEdgeValue v2 v1 = G.GetEdgeValue v2 v1) ∧
      G1.GetEdgesAmount = (G.GetEdgesAmount + 1) % UINT_RANGE ∧
      (G.GetEdgesAmount + 1 < UINT_RANGE → G1.GetEdgesAmount = G.GetEdgesAmount + 1) := by
  have hno12 := (Adjacent_false_iff G hfit v1 v2 h1 h2).1 hna
  obtain ⟨G1, hadd, hlen, hcnt, hadj⟩ := AddEdge_new G hfit v1 v2 w h1 h2 hno12
  have hne' : v2 ≠ v1 := fun h => hne h.symm
  have hfit1 : G1.Fits := by unfold Fits at *; rw [hlen]; exact hfit
  have h1' : v1 < G1.m_EdgeList.length := by rw [hlen]; exact h1
  have h2' : v2 < G1.m_EdgeList.length := by rw [hlen]; exact h2
  have ha1 : G1.adj v1 = G.adj v1 ++ [⟨v1, v2, w⟩] := by
    rw [hadj v1, if_neg hne, if_pos rfl]
  have ha2 : G1.adj v2 = G.adj v2 ++ [⟨v2, v1, w⟩] := by
    rw [hadj v2, if_pos rfl, if_neg hne']
  refine ⟨G1, hadd, hlen, ha1, ha2, ?_, ?_, ?_, ?_, ?_, ?_, hcnt, ?_⟩
  · intro x hx1 hx2
    rw [hadj x, if_neg hx2, if_neg hx1]
  · rw [Adjacent_true_iff G1 hfit1 v1 v2 h1' h2', ha1]
    exact ⟨⟨v1, v2, w⟩, by simp, rfl⟩
  · rw [Adjacent_true_iff G1 hfit1 v2 v1 h2' h1', ha2]
    exact ⟨⟨v2, v1, w⟩, by simp, rfl⟩
  · rw [GetEdgeValue_of_lt G1 hfit1 v1 v2 h1' h2', ha1,
      firstWeightTo_append_new v2 (G.adj v1) ⟨v1, v2, w⟩ hno12 rfl]
    rfl
  · intro hna'
    have hno21 := (Adjacent_false_iff G hfit v2 v1 h2 h1).1 hna'
    rw [GetEdgeValue_of_lt G1 hfit1 v2 v1 h2' h1', ha2,
      firstWeightTo_append_new v1 (G.adj v2) ⟨v2, v1, w⟩ hno21 rfl]
    rfl
  · intro hadj21
    have hex := (Adjacent_true_iff G hfit v2 v1 h2 h1).1 hadj21
    rw [GetEdgeValue_of_lt G1 hfit1 v2 v1 h2' h1', GetEdgeValue_of_lt G hfit v2 v1 h2 h1, ha2,
      firstWeightTo_append_old v1 (G.adj v2) ⟨v2, v1, w⟩ hex]
  · intro hw
    show G1.m_EdgesAmount = G.m_EdgesAmount + 1
    rw [hcnt]
    exact Nat.mod_eq_of_lt hw

/-- Witness for `AddEdge_effect`: `AddEdge(0, 2, 5)` on the graph built by
`AddEdge(0,1,1)` and `AddEdge(1,2,2)` on `Graph(3)`, where vertex 2 is not adjacent to
vertex 0 either, so that both values are 5 afterwards. -/
theorem AddEdge_effect_witness :
    (Graph.mk [[⟨0, 1, 1⟩], [⟨1, 0, 1⟩, ⟨1, 2, 2⟩], [⟨2, 1, 2⟩]] 2).Adjacent 2 0 = .ok false ∧
    (Graph.mk [[⟨0, 1, 1⟩], [⟨1, 0, 1⟩, ⟨1, 2, 2⟩], [⟨2, 1, 2⟩]] 2).AddEdge 0 2 5 =
      .ok triangleGraph ∧
    triangleGraph.GetEdgeValue 0 2 = .ok 5 ∧ triangleGraph.GetEdgeValue 2 0 = .ok 5 ∧
    ∃ G1, (Graph.mk [[⟨0, 1, 1⟩], [⟨1, 0, 1⟩, ⟨1, 2, 2⟩], [⟨2, 1, 2⟩]] 2).AddEdge 0 2 5 = .ok G1 ∧
      G1.m_EdgeList.length = 3 ∧
      G1.adj 0 = [⟨0, 1, 1⟩] ++ [⟨0, 2, 5⟩] ∧ G1.adj 2 = [⟨2, 1, 2⟩] ++ [⟨2, 0, 5⟩] ∧
      (∀ x, x ≠ 0 → x ≠ 2 →
        G1.adj x = (Graph.mk [[⟨0, 1, 1⟩], [⟨1, 0, 1⟩, ⟨1, 2, 2⟩], [⟨2, 1, 2⟩]] 2).adj x) ∧
      G1.Adjacent 0 2 = .ok true ∧ G1.Adjacent 2 0 = .ok true ∧
      G1.GetEdgeValue 0 2 = .ok 5 ∧
      ((Graph.mk [[⟨0, 1, 1⟩], [⟨1, 0, 1⟩, ⟨1, 2, 2⟩], [⟨2, 1, 2⟩]] 2).Adjacent 2 0 = .ok false →
        G1.GetEdgeValue 2 0 = .ok 5) ∧
      ((Graph.mk [[⟨0, 1, 1⟩], [⟨1, 0, 1⟩, ⟨1, 2, 2⟩], [⟨2, 1, 2⟩]] 2).Adjacent 2 0 = .ok true →
        G1.GetEdgeValue 2 0 =
          (Graph.mk [[⟨0, 1, 1⟩], [⟨1, 0, 1⟩, ⟨1, 2, 2⟩], [⟨2, 1, 2⟩]] 2).GetEdgeValue 2 0) ∧
      G1.GetEdgesAmount = (2 + 1) % UINT_RANGE ∧
      (2 + 1 < UINT_RANGE → G1.GetEdgesAmount = 2 + 1) :=
  ⟨by decide, by decide!, by decide!, by decide!,
    AddEdge_effect (Graph.mk [[⟨0, 1, 1⟩], [⟨1, 0, 1⟩, ⟨1, 2, 2⟩], [⟨2, 1, 2⟩]] 2) (by decide)
      0 2 5 (by decide) (by decide) (by decide) (by decide)⟩

end Graph

namespace Graph

theorem setFirstWeightTo_any (v2 y : Nat) (w : ℚ) (l : List Edge) :
    (setFirstWeightTo v2 w l).any (fun e => e.GetEndVertexNumber == y) =
      l.any (fun e => e.GetEndVertexNumber == y) := by
  induction l with
  | nil => rfl
  | cons e es ih =>
    unfold setFirstWeightTo
    by_cases h : e.GetEndVertexNumber = v2
    · rw [if_pos h]
      simp [Edge.GetEndVertexNumber, Edge.SetEdgeWeight]
    · rw [if_neg h]
      simp only [List.any_cons, ih]

theorem firstWeightTo_setFirst_same (v2 : Nat) (w : ℚ) (l : List Edge)
    (h : ∃ e ∈ l, e.m_endVertex = v2) :
    firstWeightTo v2 (setFirstWeightTo v2 w l) = some w := by
  induction l with
  | nil =>
    obtain ⟨e, he, _⟩ := h
    simp at he
  | cons e es ih =>
    unfold setFirstWeightTo
    by_cases hc : e.GetEndVertexNumber = v2
    · rw [if_pos hc]
      have hc1 : (e.SetEdgeWeight w).GetEndVertexNumber = v2 := hc
      simp only [firstWeightTo, if_pos hc1]
      rfl
    · rw [if_neg hc]
      simp only [firstWeightTo, if_neg hc]
      apply ih
      obtain ⟨e1, he1, hend⟩ := h
      rcases List.mem_cons.1 he1 with rfl | he1
      · exact absurd hend hc
      · exact ⟨e1, he1, hend⟩

theorem firstWeightTo_setFirst_other (v2 y : Nat) (w : ℚ) (l : List Edge) (hy : y ≠ v2) :
    firstWeightTo y (setFirstWeightTo v2 w l) = firstWeightTo y l := by
  induction l with
  | nil => rfl
  | cons e es ih =>
    unfold setFirstWeightTo
    by_cases hc : e.GetEndVertexNumber = v2
    · rw [if_pos hc]
      have h1 : ¬ e.GetEndVertexNumber = y := fun h => hy (h.symm.trans hc)
      have h2 : ¬ (e.SetEdgeWeight w).GetEndVertexNumber = y := h1
      simp only [firstWeightTo, if_neg h1, if_neg h2]
    · rw [if_neg hc]
      by_cases hc2 : e.GetEndVertexNumber = y
      · simp only [firstWeightTo, if_pos hc2]
      · simp only [firstWeightTo, if_neg hc2, ih]

theorem SetEdgeValue_of_adjacent (G : Graph) (v1 v2 : Nat) (w : ℚ)
    (h1 : v1 < G.m_EdgeList.length) (hadj : G.Adjacent v1 v2 = .ok true) :
    G.SetEdgeValue v1 v2 w =
      .ok ⟨G.m_EdgeList.set v1 (setFirstWeightTo v2 w (G.adj v1)), G.m_EdgesAmount⟩ := by
  unfold SetEdgeValue
  rw [hadj, Res.bind_ok, if_pos rfl, adj_of_lt G v1 h1]

theorem SetEdgeValue_of_not_adjacent (G : Graph) (v1 v2 : Nat) (w : ℚ)
    (hadj : G.Adjacent v1 v2 = .ok false) : G.SetEdgeValue v1 v2 w = .ok G := by
  unfold SetEdgeValue
  rw [hadj]
  rfl

theorem setFirstWeightTo_split (v : Nat) (w : ℚ) (l : List Edge)
    (h : ∃ e ∈ l, e.m_endVertex = v) :
    ∃ a e b, l = a ++ e :: b ∧ e.m_endVertex = v ∧ (∀ e1 ∈ a, e1.m_endVertex ≠ v) ∧
      setFirstWeightTo v w l = a ++ ⟨e.m_startVertex, e.m_endVertex, w⟩ :: b := by
  induction l with
  | nil =>
    obtain ⟨e, he, _⟩ := h
    simp at he
  | cons e1 es ih =>
    by_cases hc : e1.GetEndVertexNumber = v
    · refine ⟨[], e1, es, rfl, hc, by simp, ?_⟩
      simp [setFirstWeightTo, hc, Edge.SetEdgeWeight]
    · have hex : ∃ e ∈ es, e.m_endVertex = v := by
        obtain ⟨e, he, hend⟩ := h
        rcases List.mem_cons.1 he with rfl | he
        · exact absurd hend hc
        · exact ⟨e, he, hend⟩
      obtain ⟨a, e, b, hl, hend, ha, her⟩ := ih hex
      refine ⟨e1 :: a, e, b, by rw [hl]; rfl, hend, ?_, ?_⟩
      · intro e2 he2
        rcases List.mem_cons.1 he2 with rfl | he2
        · exact hc
        · exact ha e2 he2
      · simp [setFirstWeightTo, hc, her]

theorem getElem?_set_cases (ls : List (List Edge)) (i x : Nat) (l : List Edge)
    (hi : i < ls.length) :
    (ls.set i l)[x]? = if x = i then some l else ls[x]? := by
  by_cases hx : x = i
  · subst hx
    simp [List.getElem?_set, hi]
  · have hx1 : ¬ i = x := fun h => hx h.symm
    simp [List.getElem?_set, hx, hx1]

/-- Claim C13: on a graph whose vertex count fits, for two different vertices `v1`,
`v2` of the graph: if `v1` is adjacent to `v2`, `SetEdgeValue(v1, v2, w)` returns a graph
in which `GetEdgeValue(v1, v2)` is `w`, `GetEdgeValue(v2, v1)` is what it was, and so are
the edge count, the vertex count, `Adjacent` on every pair, and `GetEdgeValue` on every
pair other than `(v1, v2)`; the stored edges are the same except that the first edge to
`v2` in the list of `v1` now has weight `w`. If `v1` is not adjacent to `v2`, the graph is
returned unchanged. -/
theorem SetEdgeValue_frame (G : Graph) (hfit : G.Fits) (v1 v2 : Nat) (w : ℚ)
    (h1 : v1 < G.m_EdgeList.length) (h2 : v2 < G.m_EdgeList.length) (hne : v1 ≠ v2) :
    (G.Adjacent v1 v2 = .ok true →
      ∃ G1, G.SetEdgeValue v1 v2 w = .ok G1 ∧ G1.GetEdgeValue v1 v2 = .ok w ∧
        G1.GetEdgeValue v2 v1 = G.GetEdgeValue v2 v1 ∧
        G1.GetEdgesAmount = G.GetEdgesAmount ∧
        G1.GetVerticesAmount = G.GetVerticesAmount ∧
        (∀ x y, G1.Adjacent x y = G.Adjacent x y) ∧
        (∀ x y, ¬ (x = v1 ∧ y = v2) → G1.GetEdgeValue x y = G.GetEdgeValue x y) ∧
        (∀ x, x ≠ v1 → G1.adj x = G.adj x) ∧
        ∃ a e b, G.adj v1 = a ++ e :: b ∧ e.m_endVertex = v2 ∧
          (∀ e1 ∈ a, e1.m_endVertex ≠ v2) ∧
          G1.adj v1 = a ++ ⟨e.m_startVertex, e.m_endVertex, w⟩ :: b) ∧
    (G.Adjacent v1 v2 = .ok false → G.SetEdgeValue v1 v2 w = .ok G) := by
  refine ⟨fun hadj => ?_, SetEdgeValue_of_not_adjacent G v1 v2 w⟩
  have hex := (Adjacent_true_iff G hfit v1 v2 h1 h2).1 hadj
  have hlen : (G.m_EdgeList.set v1 (setFirstWeightTo v2 w (G.adj v1))).length =
      G.m_EdgeList.length := by simp
  have hrb : (Graph.mk (G.m_EdgeList.set v1 (setFirstWeightTo v2 w (G.adj v1)))
      G.m_EdgesAmount).rangeBound = G.rangeBound := by
    unfold rangeBound GetVerticesAmount
    simp only [hlen]
  have hAdj : ∀ x y, (Graph.mk (G.m_EdgeList.set v1 (setFirstWeightTo v2 w (G.adj v1)))
      G.m_EdgesAmount).Adjacent x y = G.Adjacent x y := by
    intro x y
    unfold Adjacent
    rw [hrb]
    simp only [getElem?_set_cases G.m_EdgeList v1 x _ h1]
    by_cases hx : x = v1
    · subst hx
      simp only [if_true, adj_of_lt G x h1, setFirstWeightTo_any]
    · simp only [if_neg hx]
  have hVal : ∀ x y, ¬ (x = v1 ∧ y = v2) →
      (Graph.mk (G.m_EdgeList.set v1 (setFirstWeightTo v2 w (G.adj v1)))
        G.m_EdgesAmount).GetEdgeValue x y = G.GetEdgeValue x y := by
    intro x y hxy
    unfold GetEdgeValue
    rw [hAdj x y]
    simp only [getElem?_set_cases G.m_EdgeList v1 x _ h1]
    by_cases hx : x = v1
    · subst hx
      have hy : y ≠ v2 := fun h => hxy ⟨rfl, h⟩
      simp only [if_true, adj_of_lt G x h1, firstWeightTo_setFirst_other v2 y w _ hy]
    · simp only [if_neg hx]
  have hadjx : ∀ x, (Graph.mk (G.m_EdgeList.set v1 (setFirstWeightTo v2 w (G.adj v1)))
      G.m_EdgesAmount).adj x = if x = v1 then setFirstWeightTo v2 w (G.adj v1) else G.adj x := by
    intro x
    unfold adj
    simp only [getElem?_set_cases G.m_EdgeList v1 x _ h1]
    by_cases hx : x = v1
    · simp only [if_pos hx, Option.getD_some]
    · simp only [if_neg hx]
  obtain ⟨a, e, b, hsa, hse, hsn, hsw⟩ := setFirstWeightTo_split v2 w (G.adj v1) hex
  refine ⟨_, SetEdgeValue_of_adjacent G v1 v2 w h1 hadj, ?_, ?_, rfl, ?_, hAdj, hVal,
    fun x hx => by rw [hadjx x, if_neg hx],
    ⟨a, e, b, hsa, hse, hsn, by rw [hadjx v1, if_pos rfl, hsw]⟩⟩
  · have hfit1 : (Graph.mk (G.m_EdgeList.set v1 (setFirstWeightTo v2 w (G.adj v1)))
        G.m_EdgesAmount).Fits := by
      unfold Fits
      simp only [hlen]
      exact hfit
    rw [GetEdgeValue_of_lt _ hfit1 v1 v2 (by simpa using h1) (by simpa using h2)]
    have hadj1 : (Graph.mk (G.m_EdgeList.set v1 (setFirstWeightTo v2 w (G.adj v1)))
        G.m_EdgesAmount).adj v1 = setFirstWeightTo v2 w (G.adj v1) := by
      unfold adj
      simp [getElem?_set_cases G.m_EdgeList v1 v1 _ h1]
    rw [hadj1, firstWeightTo_setFirst_same v2 w (G.adj v1) hex]
    rfl
  · exact hVal v2 v1 (fun h => hne h.1.symm)
  · unfold GetVerticesAmount
    simp only [hlen]

/-- Witness for `SetEdgeValue_frame`: `SetEdgeValue(0, 2, 9)` on the triangle graph. -/
theorem SetEdgeValue_frame_witness :
    (triangleGraph.SetEdgeValue 0 2 9 =
      .ok ⟨[[⟨0, 1, 1⟩, ⟨0, 2, 9⟩], [⟨1, 0, 1⟩, ⟨1, 2, 2⟩], [⟨2, 1, 2⟩, ⟨2, 0, 5⟩]], 3⟩) ∧
    ((triangleGraph.Adjacent 0 2 = .ok true →
      ∃ G1, triangleGraph.SetEdgeValue 0 2 9 = .ok G1 ∧ G1.GetEdgeValue 0 2 = .ok 9 ∧
        G1.GetEdgeValue 2 0 = triangleGraph.GetEdgeValue 2 0 ∧
        G1.GetEdgesAmount = triangleGraph.GetEdgesAmount ∧
        G1.GetVerticesAmount = triangleGraph.GetVerticesAmount ∧
        (∀ x y, G1.Adjacent x y = triangleGraph.Adjacent x y) ∧
        (∀ x y, ¬ (x = 0 ∧ y = 2) → G1.GetEdgeValue x y = triangleGraph.GetEdgeValue x y) ∧
        (∀ x, x ≠ 0 → G1.adj x = triangleGraph.adj x) ∧
        ∃ a e b, triangleGraph.adj 0 = a ++ e :: b ∧ e.m_endVertex = 2 ∧
          (∀ e1 ∈ a, e1.m_endVertex ≠ 2) ∧
          G1.adj 0 = a ++ ⟨e.m_startVertex, e.m_endVertex, 9⟩ :: b) ∧
    (triangleGraph.Adjacent 0 2 = .ok false →
      triangleGraph.SetEdgeValue 0 2 9 = .ok triangleGraph)) :=
  ⟨by decide!,
    SetEdgeValue_frame triangleGraph (by decide) 0 2 9 (by decide) (by decide) (by decide)⟩

end Graph

/-! ## Graphs built through the public operations -/

namespace Graph

theorem countTo_append (y : Nat) (l1 l2 : List Edge) :
    countTo y (l1 ++ l2) = countTo y l1 + countTo y l2 := by
  simp [countTo, List.countP_append]

theorem countTo_singleton (y : Nat) (e : Edge) :
    countTo y [e] = if e.m_endVertex = y then 1 else 0 := by
  by_cases h : e.m_endVertex = y
  · simp [countTo, List.countP_cons, h]
  · simp [countTo, List.countP_cons, h]

theorem countTo_cons (y : Nat) (e : Edge) (l : List Edge) :
    countTo y (e :: l) = countTo y l + if e.m_endVertex = y then 1 else 0 := by
  by_cases h : e.m_endVertex = y
  · simp [countTo, List.countP_cons, h]
  · simp [countTo, List.countP_cons, h]

theorem countTo_pos_iff (y : Nat) (l : List Edge) :
    0 < countTo y l ↔ ∃ e ∈ l, e.m_endVertex = y := by
  simp [countTo, List.countP_pos_iff]

theorem countTo_eraseFirstTo (y v : Nat) (l : List Edge) :
    countTo y (eraseFirstTo v l) = if y = v then countTo v l - 1 else countTo y l := by
  induction l with
  | nil => simp [eraseFirstTo, countTo]
  | cons e es ih =>
    unfold eraseFirstTo
    by_cases hc : e.GetEndVertexNumber = v
    · have hc1 : e.m_endVertex = v := hc
      rw [if_pos hc, countTo_cons, countTo_cons]
      by_cases hy : y = v
      · subst hy
        simp [hc1]
      · have : ¬ e.m_endVertex = y := fun h => hy (h.symm.trans hc1)
        simp [hy, this]
    · have hc1 : ¬ e.m_endVertex = v := hc
      rw [if_neg hc]
      simp only [countTo_cons, ih]
      by_cases hy : y = v
      · subst hy
        simp only [if_true, if_neg hc1]
        omega
      · simp only [if_neg hy]

theorem countTo_setFirstWeightTo (y v : Nat) (w : ℚ) (l : List Edge) :
    countTo y (setFirstWeightTo v w l) = countTo y l := by
  induction l with
  | nil => rfl
  | cons e es ih =>
    unfold setFirstWeightTo
    by_cases hc : e.GetEndVertexNumber = v
    · rw [if_pos hc, countTo_cons, countTo_cons]
      rfl
    · rw [if_neg hc, countTo_cons, countTo_cons, ih]

theorem mem_eraseFirstTo (v : Nat) (l : List Edge) (e : Edge) (h : e ∈ eraseFirstTo v l) :
    e ∈ l := by
  induction l with
  | nil => simp [eraseFirstTo] at h
  | cons e1 es ih =>
    unfold eraseFirstTo at h
    by_cases hc : e1.GetEndVertexNumber = v
    · rw [if_pos hc] at h
      exact List.mem_cons_of_mem _ h
    · rw [if_neg hc] at h
      rcases List.mem_cons.1 h with rfl | h
      · exact List.mem_cons_self _ _
      · exact List.mem_cons_of_mem _ (ih h)

theorem mem_setFirstWeightTo (v : Nat) (w : ℚ) (l : List Edge) (e : Edge)
    (h : e ∈ setFirstWeightTo v w l) :
    ∃ e0 ∈ l, e.m_startVertex = e0.m_startVertex ∧ e.m_endVertex = e0.m_endVertex := by
  induction l with
  | nil => simp [setFirstWeightTo] at h
  | cons e1 es ih =>
    unfold setFirstWeightTo at h
    by_cases hc : e1.GetEndVertexNumber = v
    · rw [if_pos hc] at h
      rcases List.mem_cons.1 h with rfl | h
      · exact ⟨e1, List.mem_cons_self _ _, rfl, rfl⟩
      · exact ⟨e, List.mem_cons_of_mem _ h, rfl, rfl⟩
    · rw [if_neg hc] at h
      rcases List.mem_cons.1 h with rfl | h
      · exact ⟨e, List.mem_cons_self _ _, rfl, rfl⟩
      · obtain ⟨e0, he0, h1, h2⟩ := ih h
        exact ⟨e0, List.mem_cons_of_mem _ he0, h1, h2⟩

/-- Erasing the first edge that ends in `v` takes one edge out of the list and leaves
the others in place. -/
theorem eraseFirstTo_split (v : Nat) (l : List Edge) (h : ∃ e ∈ l, e.m_endVertex = v) :
    ∃ a e b, l = a ++ e :: b ∧ e.m_endVertex = v ∧ (∀ e1 ∈ a, e1.m_endVertex ≠ v) ∧
      eraseFirstTo v l = a ++ b := by
  induction l with
  | nil =>
    obtain ⟨e, he, _⟩ := h
    simp at he
  | cons e1 es ih =>
    by_cases hc : e1.GetEndVertexNumber = v
    · refine ⟨[], e1, es, rfl, hc, by simp, ?_⟩
      simp [eraseFirstTo, hc]
    · have hex : ∃ e ∈ es, e.m_endVertex = v := by
        obtain ⟨e, he, hend⟩ := h
        rcases List.mem_cons.1 he with rfl | he
        · exact absurd hend hc
        · exact ⟨e, he, hend⟩
      obtain ⟨a, e, b, hl, hend, ha, her⟩ := ih hex
      refine ⟨e1 :: a, e, b, by rw [hl]; rfl, hend, ?_, ?_⟩
      · intro e2 he2
        rcases List.mem_cons.1 he2 with rfl | he2
        · exact hc
        · exact ha e2 he2
      · simp [eraseFirstTo, hc, her]

/-- The effect of `DeleteEdge` on two different, adjacent vertices of the graph. -/
theorem DeleteEdge_of_adjacent (G : Graph) (v1 v2 : Nat) (h1 : v1 < G.m_EdgeList.length)
    (h2 : v2 < G.m_EdgeList.length) (hne : v1 ≠ v2) (hadj : G.Adjacent v1 v2 = .ok true) :
    ∃ G1, G.DeleteEdge v1 v2 = .ok G1 ∧ G1.m_EdgeList.length = G.m_EdgeList.length ∧
      G1.m_EdgesAmount = (G.m_EdgesAmount + UINT_RANGE - 1) % UINT_RANGE ∧
      ∀ x, G1.adj x =
        if x = v2 then eraseFirstTo v1 (G.adj v2)
        else if x = v1 then eraseFirstTo v2 (G.adj v1) else G.adj x := by
  have hset1 : v2 < (G.m_EdgeList.set v1 (eraseFirstTo v2 (G.adj v1))).length := by
    simpa using h2
  have hv2 : (G.m_EdgeList.set v1 (eraseFirstTo v2 (G.adj v1)))[v2]? = some (G.adj v2) := by
    rw [getElem?_set_cases G.m_EdgeList v1 v2 _ h1, if_neg (fun h => hne h.symm),
      adj_of_lt G v2 h2]
  refine ⟨⟨(G.m_EdgeList.set v1 (eraseFirstTo v2 (G.adj v1))).set v2
      (eraseFirstTo v1 (G.adj v2)), (G.m_EdgesAmount + UINT_RANGE - 1) % UINT_RANGE⟩,
    ?_, by simp, rfl, ?_⟩
  · unfold DeleteEdge
    rw [if_neg hne, hadj, Res.bind_ok, if_pos rfl, adj_of_lt G v1 h1]
    simp only [hv2]
  · intro x
    simp only [adj] at hset1 ⊢
    rw [getD_set _ v2 _ x hset1, getD_set _ v1 _ x h1]

theorem DeleteEdge_of_not_adjacent (G : Graph) (v1 v2 : Nat)
    (h : v1 = v2 ∨ G.Adjacent v1 v2 = .ok false) : G.DeleteEdge v1 v2 = .ok G := by
  unfold DeleteEdge
  by_cases hv : v1 = v2
  · rw [if_pos hv]
  · rw [if_neg hv]
    rcases h with h | h
    · exact absurd h hv
    · rw [h]
      rfl

theorem Tidy_ofSize (n : Nat) (hn : n + 1 < UINT_RANGE) : Tidy (ofSize n) where
  fits := by
    unfold Fits ofSize
    simpa using hn
  counter := by
    show 0 < UINT_RANGE
    decide
  starts := fun x e he => by
    rw [adj_ofSize] at he
    simp at he
  sym := fun x y _ _ => by simp [adj_ofSize, countTo]
  uniq := fun x y _ => by simp [adj_ofSize, countTo]

theorem Tidy_AddEdge (G G1 : Graph) (v1 v2 : Nat) (w : ℚ) (hT : Tidy G)
    (h1 : v1 < G.m_EdgeList.length) (h2 : v2 < G.m_EdgeList.length)
    (hadd : G.AddEdge v1 v2 w = .ok G1) :
    Tidy G1 ∧ G1.m_EdgeList.length = G.m_EdgeList.length := by
  by_cases hadj : ∃ e ∈ G.adj v1, e.m_endVertex = v2
  · have hA := (Adjacent_true_iff G hT.fits v1 v2 h1 h2).2 hadj
    rw [AddEdge_of_adjacent G v1 v2 w hA] at hadd
    cases hadd
    exact ⟨hT, rfl⟩
  · have hna : ∀ e ∈ G.adj v1, e.m_endVertex ≠ v2 := fun e he h => hadj ⟨e, he, h⟩
    obtain ⟨G2, hG2, hlen, hcnt2, hadj2⟩ := AddEdge_new G hT.fits v1 v2 w h1 h2 hna
    rw [hG2] at hadd
    cases hadd
    clear hG2
    have hcount : ∀ x y, countTo y (G1.adj x) = countTo y (G.adj x) +
        (if x = v1 ∧ v2 = y then 1 else 0) + (if x = v2 ∧ v1 = y then 1 else 0) := by
      intro x y
      rw [hadj2 x]
      by_cases h21 : v2 = v1
      · subst h21
        by_cases hx : x = v2
        · subst hx
          simp only [if_true, countTo_append, countTo_singleton, true_and]
        · simp only [if_neg hx, hx, false_and, if_false]
          omega
      · by_cases hx2 : x = v2
        · subst hx2
          have hx1 : ¬ x = v1 := h21
          simp only [if_true, if_neg h21, countTo_append, countTo_singleton, hx1, false_and,
            if_false, true_and]
          omega
        · by_cases hx1 : x = v1
          · subst hx1
            simp only [if_neg hx2, if_true, countTo_append, countTo_singleton, true_and, hx2,
              false_and, if_false]
            omega
          · simp only [if_neg hx2, if_neg hx1, hx1, hx2, false_and, if_false]
            omega
    have hc12 : countTo v2 (G.adj v1) = 0 := by
      by_contra hc
      exact hadj ((countTo_pos_iff v2 _).1 (Nat.pos_of_ne_zero hc))
    have hc21 : countTo v1 (G.adj v2) = 0 := by
      by_contra hc
      have := (hT.sym v2 v1 h2 h1).1 (Nat.pos_of_ne_zero hc)
      omega
    refine ⟨⟨?_, ?_, ?_, ?_, ?_⟩, hlen⟩
    · unfold Fits
      rw [hlen]
      exact hT.fits
    · rw [hcnt2]
      exact Nat.mod_lt _ (by decide)
    · intro x e he
      rw [hadj2 x] at he
      by_cases hx2 : x = v2
      · rw [if_pos hx2] at he
        rcases List.mem_append.1 he with he | he
        · by_cases h21 : v2 = v1
          · rw [if_pos h21] at he
            rcases List.mem_append.1 he with he | he
            · rw [hx2, h21]
              exact hT.starts v1 e he
            · rw [List.mem_singleton.1 he, hx2, h21]
          · rw [if_neg h21] at he
            rw [hx2]
            exact hT.starts v2 e he
        · rw [List.mem_singleton.1 he, hx2]
      · rw [if_neg hx2] at he
        by_cases hx1 : x = v1
        · rw [if_pos hx1] at he
          rcases List.mem_append.1 he with he | he
          · rw [hx1]
            exact hT.starts v1 e he
          · rw [List.mem_singleton.1 he, hx1]
        · rw [if_neg hx1] at he
          exact hT.starts x e he
    · intro x y hx hy
      rw [hlen] at hx hy
      have hs := hT.sym x y hx hy
      rw [hcount x y, hcount y x]
      have hd : (y = v2 ∧ v1 = x) ↔ (x = v1 ∧ v2 = y) :=
        ⟨fun h => ⟨h.2.symm, h.1.symm⟩, fun h => ⟨h.2.symm, h.1.symm⟩⟩
      have hc : (y = v1 ∧ v2 = x) ↔ (x = v2 ∧ v1 = y) :=
        ⟨fun h => ⟨h.2.symm, h.1.symm⟩, fun h => ⟨h.2.symm, h.1.symm⟩⟩
      simp only [hd, hc]
      by_cases a : x = v1 ∧ v2 = y
      · by_cases b : x = v2 ∧ v1 = y
        · rw [if_pos a, if_pos b]
          omega
        · rw [if_pos a, if_neg b]
          omega
      · by_cases b : x = v2 ∧ v1 = y
        · rw [if_neg a, if_pos b]
          omega
        · rw [if_neg a, if_neg b]
          omega
    · intro x y hxy
      have hu := hT.uniq x y hxy
      rw [hcount x y]
      by_cases a : x = v1 ∧ v2 = y
      · have b : ¬ (x = v2 ∧ v1 = y) := fun hb => hxy (hb.1.trans a.2)
        rw [if_pos a, if_neg b, a.1, ← a.2, hc12]
      · by_cases b : x = v2 ∧ v1 = y
        · rw [if_neg a, if_pos b, b.1, ← b.2, hc21]
        · rw [if_neg a, if_neg b]
          omega

end Graph

namespace Graph

theorem Adjacent_cases (G : Graph) (hfit : G.Fits) (v1 v2 : Nat)
    (h1 : v1 < G.m_EdgeList.length) (h2 : v2 < G.m_EdgeList.length) :
    G.Adjacent v1 v2 = .ok true ∨ G.Adjacent v1 v2 = .ok false := by
  rw [Adjacent_of_lt G hfit v1 v2 h1 h2]
  cases (G.adj v1).any (fun e => e.GetEndVertexNumber == v2)
  · exact Or.inr rfl
  · exact Or.inl rfl

theorem Adjacent_true_iff_count (G : Graph) (hfit : G.Fits) (v1 v2 : Nat)
    (h1 : v1 < G.m_EdgeList.length) (h2 : v2 < G.m_EdgeList.length) :
    G.Adjacent v1 v2 = .ok true ↔ 0 < countTo v2 (G.adj v1) := by
  rw [Adjacent_true_iff G hfit v1 v2 h1 h2, countTo_pos_iff]

theorem Tidy_DeleteEdge (G G1 : Graph) (v1 v2 : Nat) (hT : Tidy G)
    (h1 : v1 < G.m_EdgeList.length) (h2 : v2 < G.m_EdgeList.length)
    (hdel : G.DeleteEdge v1 v2 = .ok G1) :
    Tidy G1 ∧ G1.m_EdgeList.length = G.m_EdgeList.length := by
  by_cases hne : v1 = v2
  · rw [DeleteEdge_of_not_adjacent G v1 v2 (Or.inl hne)] at hdel
    cases hdel
    exact ⟨hT, rfl⟩
  rcases Adjacent_cases G hT.fits v1 v2 h1 h2 with hadj | hadj
  swap
  · rw [DeleteEdge_of_not_adjacent G v1 v2 (Or.inr hadj)] at hdel
    cases hdel
    exact ⟨hT, rfl⟩
  obtain ⟨G2, hG2, hlen, hcnt2, hadj2⟩ := DeleteEdge_of_adjacent G v1 v2 h1 h2 hne hadj
  rw [hG2] at hdel
  cases hdel
  clear hG2
  have hne' : ¬ v2 = v1 := fun h => hne h.symm
  have hp12 : 0 < countTo v2 (G.adj v1) :=
    (Adjacent_true_iff_count G hT.fits v1 v2 h1 h2).1 hadj
  have hp21 : 0 < countTo v1 (G.adj v2) := (hT.sym v1 v2 h1 h2).1 hp12
  have hu12 := hT.uniq v1 v2 hne
  have hu21 := hT.uniq v2 v1 hne'
  have hcount : ∀ x y, countTo y (G1.adj x) =
      if (x = v1 ∧ y = v2) ∨ (x = v2 ∧ y = v1) then 0 else countTo y (G.adj x) := by
    intro x y
    rw [hadj2 x]
    by_cases hx2 : x = v2
    · subst hx2
      rw [if_pos rfl, countTo_eraseFirstTo]
      by_cases hy : y = v1
      · subst hy
        rw [if_pos rfl, if_pos (Or.inr ⟨rfl, rfl⟩)]
        omega
      · rw [if_neg hy, if_neg]
        rintro (⟨h, _⟩ | ⟨_, h⟩)
        · exact hne' h
        · exact hy h
    · rw [if_neg hx2]
      by_cases hx1 : x = v1
      · subst hx1
        rw [if_pos rfl, countTo_eraseFirstTo]
        by_cases hy : y = v2
        · subst hy
          rw [if_pos rfl, if_pos (Or.inl ⟨rfl, rfl⟩)]
          omega
        · rw [if_neg hy, if_neg]
          rintro (⟨_, h⟩ | ⟨h, _⟩)
          · exact hy h
          · exact hx2 h
      · rw [if_neg hx1, if_neg]
        rintro (⟨h, _⟩ | ⟨h, _⟩)
        · exact hx1 h
        · exact hx2 h
  refine ⟨⟨?_, ?_, ?_, ?_, ?_⟩, hlen⟩
  · unfold Fits
    rw [hlen]
    exact hT.fits
  · rw [hcnt2]
    exact Nat.mod_lt _ (by decide)
  · intro x e he
    rw [hadj2 x] at he
    by_cases hx2 : x = v2
    · rw [if_pos hx2] at he
      rw [hx2]
      exact hT.starts v2 e (mem_eraseFirstTo _ _ _ he)
    · rw [if_neg hx2] at he
      by_cases hx1 : x = v1
      · rw [if_pos hx1] at he
        rw [hx1]
        exact hT.starts v1 e (mem_eraseFirstTo _ _ _ he)
      · rw [if_neg hx1] at he
        exact hT.starts x e he
  · intro x y hx hy
    rw [hlen] at hx hy
    have hs := hT.sym x y hx hy
    rw [hcount x y, hcount y x]
    have hsw : ((y = v1 ∧ x = v2) ∨ (y = v2 ∧ x = v1)) ↔ ((x = v1 ∧ y = v2) ∨ (x = v2 ∧ y = v1)) :=
      ⟨fun h => h.elim (fun h => Or.inr ⟨h.2, h.1⟩) (fun h => Or.inl ⟨h.2, h.1⟩),
        fun h => h.elim (fun h => Or.inr ⟨h.2, h.1⟩) (fun h => Or.inl ⟨h.2, h.1⟩)⟩
    simp only [hsw]
    by_cases a : (x = v1 ∧ y = v2) ∨ (x = v2 ∧ y = v1)
    · simp only [if_pos a]
    · simp only [if_neg a]
      exact hs
  · intro x y hxy
    have hu := hT.uniq x y hxy
    rw [hcount x y]
    by_cases a : (x = v1 ∧ y = v2) ∨ (x = v2 ∧ y = v1)
    · rw [if_pos a]
      omega
    · rw [if_neg a]
      exact hu

theorem Tidy_SetEdgeValue (G G1 : Graph) (v1 v2 : Nat) (w : ℚ) (hT : Tidy G)
    (h1 : v1 < G.m_EdgeList.length) (h2 : v2 < G.m_EdgeList.length)
    (hset : G.SetEdgeValue v1 v2 w = .ok G1) :
    Tidy G1 ∧ G1.m_EdgeList.length = G.m_EdgeList.length := by
  rcases Adjacent_cases G hT.fits v1 v2 h1 h2 with hadj | hadj
  swap
  · rw [SetEdgeValue_of_not_adjacent G v1 v2 w hadj] at hset
    cases hset
    exact ⟨hT, rfl⟩
  rw [SetEdgeValue_of_adjacent G v1 v2 w h1 hadj] at hset
  cases hset
  have hlen : (G.m_EdgeList.set v1 (setFirstWeightTo v2 w (G.adj v1))).length =
      G.m_EdgeList.length := by simp
  have hadj2 : ∀ x, (Graph.mk (G.m_EdgeList.set v1 (setFirstWeightTo v2 w (G.adj v1)))
      G.m_EdgesAmount).adj x = if x = v1 then setFirstWeightTo v2 w (G.adj v1) else G.adj x := by
    intro x
    simp only [adj]
    rw [getD_set _ v1 _ x h1]
  have hcount : ∀ x y, countTo y ((Graph.mk (G.m_EdgeList.set v1
      (setFirstWeightTo v2 w (G.adj v1))) G.m_EdgesAmount).adj x) = countTo y (G.adj x) := by
    intro x y
    rw [hadj2 x]
    by_cases hx : x = v1
    · rw [if_pos hx, countTo_setFirstWeightTo, hx]
    · rw [if_neg hx]
  refine ⟨⟨?_, hT.counter, ?_, ?_, ?_⟩, hlen⟩
  · unfold Fits
    simp only [hlen]
    exact hT.fits
  · intro x e he
    rw [hadj2 x] at he
    by_cases hx : x = v1
    · rw [if_pos hx] at he
      obtain ⟨e0, he0, hs, _⟩ := mem_setFirstWeightTo _ _ _ _ he
      rw [hs, hx]
      exact hT.starts v1 e0 he0
    · rw [if_neg hx] at he
      exact hT.starts x e he
  · intro x y hx hy
    simp only [hlen] at hx hy
    rw [hcount x y, hcount y x]
    exact hT.sym x y hx hy
  · intro x y hxy
    rw [hcount x y]
    exact hT.uniq x y hxy

/-- Every graph built through the public operations is tidy. -/
theorem Built.tidy {G : Graph} (hB : Built G) : Tidy G := by
  induction hB with
  | ofSize n hn => exact Tidy_ofSize n hn
  | addEdge v1 v2 w _ h1 h2 hadd ih => exact (Tidy_AddEdge _ _ v1 v2 w ih h1 h2 hadd).1
  | deleteEdge v1 v2 _ h1 h2 hdel ih => exact (Tidy_DeleteEdge _ _ v1 v2 ih h1 h2 hdel).1
  | setEdgeValue v1 v2 w _ h1 h2 hset ih => exact (Tidy_SetEdgeValue _ _ v1 v2 w ih h1 h2 hset).1

/-- Claim C12: on a graph built from `Graph(n)` by the public operations, for vertices
`v1`, `v2` of the graph: if `v1 == v2` or `v1` is not adjacent to `v2`, `DeleteEdge(v1, v2)`
returns the graph unchanged; otherwise it returns a graph in which the list of `v1` has
lost exactly its edge to `v2` and the list of `v2` exactly its edge to `v1` (the other
edges of both lists keep their places), every other list is unchanged, neither vertex is
adjacent to the other any more, and the edge count is the old one minus 1 in `unsigned
int` arithmetic (exactly minus 1 when the old count is positive). -/
theorem DeleteEdge_effect (G : Graph) (hB : Built G) (v1 v2 : Nat)
    (h1 : v1 < G.m_EdgeList.length) (h2 : v2 < G.m_EdgeList.length) :
    ((v1 = v2 ∨ G.Adjacent v1 v2 = .ok false) → G.DeleteEdge v1 v2 = .ok G) ∧
    (v1 ≠ v2 → G.Adjacent v1 v2 = .ok true →
      ∃ G1 a1 e12 b1 a2 e21 b2, G.DeleteEdge v1 v2 = .ok G1 ∧
        G1.m_EdgeList.length = G.m_EdgeList.length ∧
        G.adj v1 = a1 ++ e12 :: b1 ∧ G1.adj v1 = a1 ++ b1 ∧
        e12.m_startVertex = v1 ∧ e12.m_endVertex = v2 ∧
        G.adj v2 = a2 ++ e21 :: b2 ∧ G1.adj v2 = a2 ++ b2 ∧
        e21.m_startVertex = v2 ∧ e21.m_endVertex = v1 ∧
        (∀ x, x ≠ v1 → x ≠ v2 → G1.adj x = G.adj x) ∧
        G1.Adjacent v1 v2 = .ok false ∧ G1.Adjacent v2 v1 = .ok false ∧
        G1.GetEdgesAmount = (G.GetEdgesAmount + UINT_RANGE - 1) % UINT_RANGE ∧
        (0 < G.GetEdgesAmount → G1.GetEdgesAmount + 1 = G.GetEdgesAmount)) := by
  have hT := hB.tidy
  refine ⟨DeleteEdge_of_not_adjacent G v1 v2, fun hne hadj => ?_⟩
  obtain ⟨G1, hdel, hlen, hcnt, hadj1⟩ := DeleteEdge_of_adjacent G v1 v2 h1 h2 hne hadj
  have hT1 := (Tidy_DeleteEdge G G1 v1 v2 hT h1 h2 hdel).1
  have hne' : ¬ v2 = v1 := fun h => hne h.symm
  have hp12 : 0 < countTo v2 (G.adj v1) :=
    (Adjacent_true_iff_count G hT.fits v1 v2 h1 h2).1 hadj
  have hp21 : 0 < countTo v1 (G.adj v2) := (hT.sym v1 v2 h1 h2).1 hp12
  obtain ⟨a1, e12, b1, hs1, he12, _, her1⟩ :=
    eraseFirstTo_split v2 (G.adj v1) ((countTo_pos_iff _ _).1 hp12)
  obtain ⟨a2, e21, b2, hs2, he21, _, her2⟩ :=
    eraseFirstTo_split v1 (G.adj v2) ((countTo_pos_iff _ _).1 hp21)
  have hg1 : G1.adj v1 = eraseFirstTo v2 (G.adj v1) := by
    rw [hadj1 v1, if_neg hne, if_pos rfl]
  have hg2 : G1.adj v2 = eraseFirstTo v1 (G.adj v2) := by
    rw [hadj1 v2, if_pos rfl]
  have h1' : v1 < G1.m_EdgeList.length := by rw [hlen]; exact h1
  have h2' : v2 < G1.m_EdgeList.length := by rw [hlen]; exact h2
  have hz12 : countTo v2 (G1.adj v1) = 0 := by
    rw [hg1, countTo_eraseFirstTo, if_pos rfl]
    have := hT.uniq v1 v2 hne
    omega
  have hz21 : countTo v1 (G1.adj v2) = 0 := by
    rw [hg2, countTo_eraseFirstTo, if_pos rfl]
    have := hT.uniq v2 v1 hne'
    omega
  refine ⟨G1, a1, e12, b1, a2, e21, b2, hdel, hlen, hs1, by rw [hg1, her1], ?_, he12, hs2,
    by rw [hg2, her2], ?_, he21, ?_, ?_, ?_, hcnt, ?_⟩
  · exact hT.starts v1 e12 (by rw [hs1]; simp)
  · exact hT.starts v2 e21 (by rw [hs2]; simp)
  · intro x hx1 hx2
    rw [hadj1 x, if_neg hx2, if_neg hx1]
  · rcases Adjacent_cases G1 hT1.fits v1 v2 h1' h2' with h | h
    · have := (Adjacent_true_iff_count G1 hT1.fits v1 v2 h1' h2').1 h
      omega
    · exact h
  · rcases Adjacent_cases G1 hT1.fits v2 v1 h2' h1' with h | h
    · have := (Adjacent_true_iff_count G1 hT1.fits v2 v1 h2' h1').1 h
      omega
    · exact h
  · intro hpos
    show G1.m_EdgesAmount + 1 = G.m_EdgesAmount
    have hpos' : 0 < G.m_EdgesAmount := hpos
    rw [hcnt]
    have hlt := hT.counter
    have : G.m_EdgesAmount + UINT_RANGE - 1 = (G.m_EdgesAmount - 1) + UINT_RANGE := by omega
    rw [this, Nat.add_mod_right, Nat.mod_eq_of_lt (by omega)]
    omega

end Graph

namespace Graph

theorem pairGraph_built : Built pairGraph :=
  @Built.addEdge (ofSize 2) pairGraph 0 1 1 (Built.ofSize 2 (by decide)) (by decide) (by decide)
    (by decide!)

/-- Witness for `DeleteEdge_effect`: `DeleteEdge(0, 1)` on the graph built by
`AddEdge(0,1,1)` on `Graph(2)`, which gives back `Graph(2)`. -/
theorem DeleteEdge_effect_witness :
    pairGraph.DeleteEdge 0 1 = .ok (ofSize 2) ∧
    (((0 = 1 ∨ pairGraph.Adjacent 0 1 = .ok false) → pairGraph.DeleteEdge 0 1 = .ok pairGraph) ∧
    (0 ≠ 1 → pairGraph.Adjacent 0 1 = .ok true →
      ∃ G1 a1 e12 b1 a2 e21 b2, pairGraph.DeleteEdge 0 1 = .ok G1 ∧
        G1.m_EdgeList.length = pairGraph.m_EdgeList.length ∧
        pairGraph.adj 0 = a1 ++ e12 :: b1 ∧ G1.adj 0 = a1 ++ b1 ∧
        e12.m_startVertex = 0 ∧ e12.m_endVertex = 1 ∧
        pairGraph.adj 1 = a2 ++ e21 :: b2 ∧ G1.adj 1 = a2 ++ b2 ∧
        e21.m_startVertex = 1 ∧ e21.m_endVertex = 0 ∧
        (∀ x, x ≠ 0 → x ≠ 1 → G1.adj x = pairGraph.adj x) ∧
        G1.Adjacent 0 1 = .ok false ∧ G1.Adjacent 1 0 = .ok false ∧
        G1.GetEdgesAmount = (pairGraph.GetEdgesAmount + UINT_RANGE - 1) % UINT_RANGE ∧
        (0 < pairGraph.GetEdgesAmount → G1.GetEdgesAmount + 1 = pairGraph.GetEdgesAmount))) :=
  ⟨by decide!, DeleteEdge_effect pairGraph pairGraph_built 0 1 (by decide) (by decide)⟩

/-- Claim C14: in every graph built from `Graph(n)` by calls of `AddEdge`, `DeleteEdge` and
`SetEdgeValue` on vertices of the graph, `Adjacent(u, v)` equals `Adjacent(v, u)` for all
vertices `u`, `v` of the graph. -/
theorem Adjacent_symmetric (G : Graph) (hB : Built G) (u v : Nat)
    (hu : u < G.m_EdgeList.length) (hv : v < G.m_EdgeList.length) :
    G.Adjacent u v = G.Adjacent v u := by
  have hT := hB.tidy
  rcases Adjacent_cases G hT.fits u v hu hv with h1 | h1 <;>
    rcases Adjacent_cases G hT.fits v u hv hu with h2 | h2
  · rw [h1, h2]
  · have := (hT.sym u v hu hv).1 ((Adjacent_true_iff_count G hT.fits u v hu hv).1 h1)
    rw [(Adjacent_true_iff_count G hT.fits v u hv hu).2 this] at h2
    cases h2
  · have := (hT.sym u v hu hv).2 ((Adjacent_true_iff_count G hT.fits v u hv hu).1 h2)
    rw [(Adjacent_true_iff_count G hT.fits u v hu hv).2 this] at h1
    cases h1
  · rw [h1, h2]

/-- Witness for `Adjacent_symmetric`: vertices 0 and 2 of the graph obtained from
`Graph(3)` by `AddEdge(0,1,1)`, `AddEdge(0,2,5)`, `SetEdgeValue(0,2,9)` and
`DeleteEdge(0,1)`. -/
theorem Adjacent_symmetric_witness :
    (Graph.mk [[⟨0, 2, 9⟩], [], [⟨2, 0, 5⟩]] 1).Adjacent 0 2 =
      (Graph.mk [[⟨0, 2, 9⟩], [], [⟨2, 0, 5⟩]] 1).Adjacent 2 0 :=
  Adjacent_symmetric (Graph.mk [[⟨0, 2, 9⟩], [], [⟨2, 0, 5⟩]] 1)
    (@Built.deleteEdge (Graph.mk [[⟨0, 1, 1⟩, ⟨0, 2, 9⟩], [⟨1, 0, 1⟩], [⟨2, 0, 5⟩]] 2) _ 0 1
      (@Built.setEdgeValue (Graph.mk [[⟨0, 1, 1⟩, ⟨0, 2, 5⟩], [⟨1, 0, 1⟩], [⟨2, 0, 5⟩]] 2) _
        0 2 9
        (@Built.addEdge (Graph.mk [[⟨0, 1, 1⟩], [⟨1, 0, 1⟩], []] 1) _ 0 2 5
          (@Built.addEdge (ofSize 3) _ 0 1 1 (Built.ofSize 3 (by decide)) (by decide) (by decide)
            (by decide!))
          (by decide) (by decide) (by decide!))
        (by decide) (by decide) (by decide!))
      (by decide) (by decide) (by decide!))
    0 2 (by decide) (by decide)

end Graph

/-! ## The random constructor -/

namespace Graph

theorem pushBackAt_spec (ls : List (List Edge)) (i : Nat) (e : Edge) (hi : i < ls.length) :
    ∃ ls1, pushBackAt ls i e = .ok ls1 ∧ ls1.length = ls.length ∧
      risingEdges ls1 =
        risingEdges ls + (if e.m_startVertex < e.m_endVertex then 1 else 0) ∧
      (ls1.map List.length).sum = (ls.map List.length).sum + 1 := by
  unfold pushBackAt
  rw [List.getElem?_eq_getElem hi]
  refine ⟨_, rfl, by simp, ?_, ?_⟩
  · unfold risingEdges
    induction ls generalizing i with
    | nil => simp at hi
    | cons l ls ih =>
      cases i with
      | zero =>
        simp only [List.getElem_cons_zero, List.set_cons_zero, List.map_cons, List.sum_cons,
          List.countP_append, List.countP_cons, List.countP_nil, decide_eq_true_eq]
        omega
      | succ i =>
        simp only [List.getElem_cons_succ, List.set_cons_succ, List.map_cons, List.sum_cons]
        rw [ih i (by simpa using hi)]
        omega
  · induction ls generalizing i with
    | nil => simp at hi
    | cons l ls ih =>
      cases i with
      | zero =>
        simp only [List.getElem_cons_zero, List.set_cons_zero, List.map_cons, List.sum_cons,
          List.length_append, List.length_singleton]
        omega
      | succ i =>
        simp only [List.getElem_cons_succ, List.set_cons_succ, List.map_cons, List.sum_cons]
        rw [ih i (by simpa using hi)]
        omega

/-- The inner loop of the random constructor adds 2 to the counter for every pair it
creates. -/
theorem randomInner_count (rnd : Nat → ℚ) (density dmin dmax : ℚ) (i : Nat) :
    ∀ (n j : Nat) (s : GenState), i < j → j + n = s.m_EdgeList.length →
      s.m_EdgesAmount < UINT_RANGE →
      ∃ s1, randomInner rnd density dmin dmax i n j s = .ok s1 ∧
        s1.m_EdgeList.length = s.m_EdgeList.length ∧ s1.m_EdgesAmount < UINT_RANGE ∧
        ∃ k, risingEdges s1.m_EdgeList = risingEdges s.m_EdgeList + k ∧
          (s1.m_EdgeList.map List.length).sum = (s.m_EdgeList.map List.length).sum + 2 * k ∧
          s1.m_EdgesAmount = (s.m_EdgesAmount + 2 * k) % UINT_RANGE := by
  intro n
  induction n with
  | zero =>
    intro j s _ _ hc
    exact ⟨s, rfl, rfl, hc, 0, rfl, rfl, (Nat.mod_eq_of_lt hc).symm⟩
  | succ n ih =>
    intro j s hij hlen hc
    unfold randomInner
    by_cases hp : (GenerateRandomDouble rnd s.taken 0 1).1 < density
    · rw [if_pos hp]
      obtain ⟨ls1, h1, hl1, hr1, hs1⟩ := pushBackAt_spec s.m_EdgeList i
        ⟨i, j, (GenerateRandomDouble rnd (s.taken + 1) dmin dmax).1⟩ (by omega)
      obtain ⟨ls2, h2, hl2, hr2, hs2⟩ := pushBackAt_spec ls1 j
        ⟨j, i, (GenerateRandomDouble rnd (s.taken + 1) dmin dmax).1⟩ (by omega)
      rw [h1, Res.bind_ok, h2, Res.bind_ok]
      obtain ⟨s1, hs1', hlen1, hc1, k, hk1, hk2, hk3⟩ := ih (j + 1)
        ⟨ls2, (s.m_EdgesAmount + 2) % UINT_RANGE, s.taken + 2⟩ (by omega)
        (by simp only [hl2, hl1]; omega) (Nat.mod_lt _ (by decide))
      refine ⟨s1, hs1', by rw [hlen1]; simp only [hl2, hl1], hc1, k + 1, ?_, ?_, ?_⟩
      · rw [hk1]
        simp only [hr2, hr1]
        have a1 : (i < j) := hij
        have a2 : ¬ (j < i) := by omega
        simp only [a1, a2, if_true, if_false]
        omega
      · rw [hk2]
        simp only [hs2, hs1]
        omega
      · rw [hk3]
        simp only [UINT_RANGE]
        omega
    · rw [if_neg hp]
      obtain ⟨s1, hs1, hlen1, hc1, k, hk1, hk2, hk3⟩ := ih (j + 1)
        { s with taken := s.taken + 1 }
        (by omega) (by simpa using (by omega : j + 1 + n = s.m_EdgeList.length)) hc
      exact ⟨s1, hs1, hlen1, hc1, k, hk1, hk2, hk3⟩

theorem randomOuter_count (rnd : Nat → ℚ) (density dmin dmax : ℚ) :
    ∀ (n i : Nat) (s : GenState), i + n = s.m_EdgeList.length → s.m_EdgesAmount < UINT_RANGE →
      ∃ s1, randomOuter rnd density dmin dmax n i s = .ok s1 ∧
        s1.m_EdgeList.length = s.m_EdgeList.length ∧
        ∃ k, risingEdges s1.m_EdgeList = risingEdges s.m_EdgeList + k ∧
          (s1.m_EdgeList.map List.length).sum =
            (s.m_EdgeList.map List.length).sum + n + 2 * k ∧
          s1.m_EdgesAmount = (s.m_EdgesAmount + n + 2 * k) % UINT_RANGE := by
  intro n
  induction n with
  | zero =>
    intro i s _ hc
    exact ⟨s, rfl, rfl, 0, rfl, rfl, (Nat.mod_eq_of_lt hc).symm⟩
  | succ n ih =>
    intro i s hlen hc
    unfold randomOuter
    obtain ⟨ls1, h1, hl1, hr1, hs1⟩ := pushBackAt_spec s.m_EdgeList i ⟨i, i, 0⟩ (by omega)
    rw [h1, Res.bind_ok]
    obtain ⟨s1, hs1', hlen1, hc1, k1, hk1, hk1', hk1''⟩ :=
      randomInner_count rnd density dmin dmax i n (i + 1)
        ⟨ls1, (s.m_EdgesAmount + 1) % UINT_RANGE, s.taken⟩ (by omega)
        (by simp only [hl1]; omega) (Nat.mod_lt _ (by decide))
    rw [hs1', Res.bind_ok]
    obtain ⟨s2, hs2, hlen2, k2, hk2, hk2', hk2''⟩ :=
      ih (i + 1) s1 (by rw [hlen1]; simp only [hl1]; omega) hc1
    refine ⟨s2, hs2, by rw [hlen2, hlen1]; simp only [hl1], k1 + k2, ?_, ?_, ?_⟩
    · rw [hk2, hk1]
      simp only [hr1, lt_self_iff_false, if_false]
      omega
    · rw [hk2', hk1']
      simp only [hs1]
      omega
    · rw [hk2'', hk1'']
      simp only [UINT_RANGE]
      omega

/-- What the random constructor leaves in the edge counter, for every stream of random
values: the graph has `size` vertices, the number of stored edges is `size` plus twice the
number of pairs `i < j` for which an edge was created, and `GetEdgesAmount` is that number
of stored edges (in `unsigned int` arithmetic), so every created pair is counted twice. -/
theorem ofRandom_count (rnd : Nat → ℚ) (size : Nat) (density dmin dmax : ℚ) :
    ∃ G, ofRandom rnd size density dmin dmax = .ok G ∧ G.m_EdgeList.length = size ∧
      G.storedEdges = size + 2 * G.createdPairs ∧
      G.GetEdgesAmount = (size + 2 * G.createdPairs) % UINT_RANGE := by
  obtain ⟨s1, hs1, hlen1, k, hk1, hk2, hk3⟩ := randomOuter_count rnd density dmin dmax size 0
    ⟨List.replicate size [], 0, 0⟩ (by simp) (show 0 < UINT_RANGE by decide)
  have h0 : risingEdges (List.replicate size ([] : List Edge)) = 0 := by
    unfold risingEdges
    induction size with
    | zero => rfl
    | succ m ihm => simp [List.replicate_succ]
  have h1 : ((List.replicate size ([] : List Edge)).map List.length).sum = 0 := by
    induction size with
    | zero => rfl
    | succ m ihm => simp [List.replicate_succ]
  have hk : createdPairs ⟨s1.m_EdgeList, s1.m_EdgesAmount⟩ = k := by
    show risingEdges s1.m_EdgeList = k
    rw [hk1, h0]
    omega
  refine ⟨⟨s1.m_EdgeList, s1.m_EdgesAmount⟩, ?_, by simpa using hlen1, ?_, ?_⟩
  · unfold ofRandom
    rw [hs1, Res.bind_ok]
  · rw [hk]
    show (s1.m_EdgeList.map List.length).sum = size + 2 * k
    rw [hk2, h1]
    omega
  · rw [hk]
    show s1.m_EdgesAmount = (size + 2 * k) % UINT_RANGE
    rw [hk3]
    simp

/-- Claim C15 (failing input): `Graph(2, 1, 1, 10)` run on random values that are all 0
creates the one pair 0-1, so the claim gives an edge count of 2 + 1 = 3; the constructor
leaves 4 in the counter, because it adds 2 for the pair. `AddEdge(0, 1, 1)` on `Graph(2)`
stores the same two edges and counts 1, and `DeleteEdge(0, 1)` on the random graph
removes the pair and takes 1 off the counter, which leaves 3 for two self-loops. -/
theorem ofRandom_counts_pair_twice :
    ofRandom (fun _ => 0) 2 1 1 10 =
        .ok ⟨[[⟨0, 0, 0⟩, ⟨0, 1, 1⟩], [⟨1, 0, 1⟩, ⟨1, 1, 0⟩]], 4⟩ ∧
      (Graph.mk [[⟨0, 0, 0⟩, ⟨0, 1, 1⟩], [⟨1, 0, 1⟩, ⟨1, 1, 0⟩]] 4).GetEdgesAmount = 4 ∧
      2 + (Graph.mk [[⟨0, 0, 0⟩, ⟨0, 1, 1⟩], [⟨1, 0, 1⟩, ⟨1, 1, 0⟩]] 4).createdPairs = 3 ∧
      (ofSize 2).AddEdge 0 1 1 = .ok ⟨[[⟨0, 1, 1⟩], [⟨1, 0, 1⟩]], 1⟩ ∧
      (Graph.mk [[⟨0, 0, 0⟩, ⟨0, 1, 1⟩], [⟨1, 0, 1⟩, ⟨1, 1, 0⟩]] 4).DeleteEdge 0 1 =
        .ok ⟨[[⟨0, 0, 0⟩], [⟨1, 1, 0⟩]], 3⟩ := by
  decide!

end Graph

/-! ## The binary heap meets the contract -/

theorem lookup_set {α : Type} (L : List α) (i j : Nat) (v : α) (hi : i < L.length) :
    (L.set i v)[j]? = if j = i then some v else L[j]? := by
  rw [List.getElem?_set]
  by_cases h : i = j
  · subst h
    simp [hi]
  · have h1 : ¬ j = i := fun e => h e.symm
    simp [h, h1]

theorem set_lookup_self {α : Type} (p : α) :
    ∀ (L : List α) (k : Nat), L[k]? = some p → L.set k p = L
  | [], _, h => by simp at h
  | a :: t, 0, h => by
    simp only [List.getElem?_cons_zero, Option.some.injEq] at h
    rw [h]
    rfl
  | a :: t, k + 1, h => by
    simp only [List.getElem?_cons_succ] at h
    simp only [List.set_cons_succ, set_lookup_self p t k h]

theorem cons_set_perm {α : Type} (x a : α) :
    ∀ (t : List α) (k : Nat), k < t.length → (x :: t.set k a).Perm (a :: t.set k x)
  | [], _, hk => by simp at hk
  | b :: s, 0, _ => List.Perm.swap a x s
  | b :: s, k + 1, hk => by
    have ih := cons_set_perm x a s k (by simpa using hk)
    simp only [List.set_cons_succ]
    exact (List.Perm.swap b x _).trans (((List.Perm.cons b ih)).trans (List.Perm.swap a b _))

/-- Moving the value at position `h'` to the hole `h` and the new value to `h'` gives the
same elements as putting the new value in the hole. -/
theorem set_set_perm {α : Type} (x p : α) :
    ∀ (L : List α) (h h' : Nat), h < L.length → h' ≠ h → L[h']? = some p →
      ((L.set h p).set h' x).Perm (L.set h x)
  | [], _, _, hh, _, _ => by simp at hh
  | a :: t, 0, 0, _, hne, _ => absurd rfl hne
  | a :: t, 0, k + 1, _, _, hp => by
    simp only [List.getElem?_cons_succ] at hp
    have hk : k < t.length := (List.getElem?_eq_some.1 hp).1
    simp only [List.set_cons_zero, List.set_cons_succ]
    have h1 := cons_set_perm x p t k hk
    rw [set_lookup_self p t k hp] at h1
    exact h1.symm
  | a :: t, k + 1, 0, hh, _, hp => by
    simp only [List.getElem?_cons_zero, Option.some.injEq] at hp
    subst hp
    simp only [List.set_cons_zero, List.set_cons_succ]
    exact cons_set_perm x a t k (by simpa using hh)
  | a :: t, h + 1, h' + 1, hh, hne, hp => by
    simp only [List.getElem?_cons_succ] at hp
    simp only [List.set_cons_succ]
    exact List.Perm.cons a (set_set_perm x p t h h' (by simpa using hh) (by omega) hp)

theorem IsHeap_append_left {α : Type} {comp : α → α → Bool} {A B : List α}
    (h : IsHeap comp (A ++ B)) : IsHeap comp A := by
  intro i a b hi ha hb
  have hib : i < A.length := (List.getElem?_eq_some.1 hb).1
  have hia : (i - 1) / 2 < A.length := (List.getElem?_eq_some.1 ha).1
  exact h i a b hi (by rw [List.getElem?_append_left hia]; exact ha)
    (by rw [List.getElem?_append_left hib]; exact hb)

/-- The loop of `std::__push_heap` from a hole `h`: if every position other than the hole
respects its parent, the value `x` does not compare below the children of the hole, and
the parent of the hole does not compare below them either, the result is a heap with the
elements of the list in which `x` fills the hole. -/
theorem pushHeapHole_spec {α : Type} {comp : α → α → Bool} (hsw : StrictWeak comp) (x : α) :
    ∀ (fuel : Nat) (L : List α) (h : Nat), h < fuel → h < L.length →
      (∀ i a b, 0 < i → i ≠ h → L[(i - 1) / 2]? = some a → L[i]? = some b →
        comp a b = false) →
      (∀ i b, 0 < i → (i - 1) / 2 = h → L[i]? = some b → comp x b = false) →
      (∀ i a b, 0 < h → 0 < i → (i - 1) / 2 = h → L[(h - 1) / 2]? = some a →
        L[i]? = some b → comp a b = false) →
      IsHeap comp (pushHeapHole comp x 0 fuel L h) ∧
        (pushHeapHole comp x 0 fuel L h).Perm (L.set h x) := by
  intro fuel
  induction fuel with
  | zero => intro L h hf; omega
  | succ fuel ih =>
    intro L h hf hL inv3 inv6 inv7
    have hpar : (h - 1) / 2 < L.length := by omega
    have hp : L[(h - 1) / 2]? = some (L[(h - 1) / 2]) := List.getElem?_eq_getElem hpar
    generalize L[(h - 1) / 2] = p at hp
    unfold pushHeapHole
    simp only [hp]
    by_cases hc : h > 0 ∧ comp p x = true
    · rw [if_pos hc]
      obtain ⟨hpos, hpx⟩ := hc
      have hlt : (h - 1) / 2 < h := by omega
      have hne : (h - 1) / 2 ≠ h := by omega
      have i3 : ∀ i a b, 0 < i → i ≠ (h - 1) / 2 → (L.set h p)[(i - 1) / 2]? = some a →
          (L.set h p)[i]? = some b → comp a b = false := by
        intro i a b hi hih ha hb
        rw [lookup_set L h _ p hL] at ha hb
        by_cases e1 : i = h
        · subst e1
          rw [if_neg hne, hp] at ha
          rw [if_pos rfl] at hb
          cases ha
          cases hb
          exact hsw.1 _
        · rw [if_neg e1] at hb
          by_cases e2 : (i - 1) / 2 = h
          · rw [if_pos e2] at ha
            cases ha
            exact inv7 i _ b hpos hi e2 hp hb
          · rw [if_neg e2] at ha
            exact inv3 i a b hi e1 ha hb
      have i6 : ∀ i b, 0 < i → (i - 1) / 2 = (h - 1) / 2 → (L.set h p)[i]? = some b →
          comp x b = false := by
        intro i b hi hih hb
        rw [lookup_set L h _ p hL] at hb
        by_cases e1 : i = h
        · rw [if_pos e1] at hb
          cases hb
          exact hsw.asymm _ _ hpx
        · rw [if_neg e1] at hb
          have h1 := inv3 i p b hi e1 (by rw [hih]; exact hp) hb
          cases hxb : comp x b
          · rfl
          · have := hsw.2.1 p x b hpx hxb
            rw [h1] at this
            cases this
      have i7 : ∀ i a b, 0 < (h - 1) / 2 → 0 < i → (i - 1) / 2 = (h - 1) / 2 →
          (L.set h p)[((h - 1) / 2 - 1) / 2]? = some a → (L.set h p)[i]? = some b →
          comp a b = false := by
        intro i a b hpos' hi hih ha hb
        have hne2 : (((h - 1) / 2) - 1) / 2 ≠ h := by omega
        rw [lookup_set L h _ p hL] at ha hb
        rw [if_neg hne2] at ha
        have h1 := inv3 ((h - 1) / 2) a p hpos' hne ha hp
        by_cases e1 : i = h
        · rw [if_pos e1] at hb
          cases hb
          exact h1
        · rw [if_neg e1] at hb
          have h2 := inv3 i p b hi e1 (by rw [hih]; exact hp) hb
          exact hsw.2.2 a p b h1 h2
      obtain ⟨r1, r2⟩ := ih (L.set h p) ((h - 1) / 2) (by omega) (by simpa using hpar) i3 i6 i7
      exact ⟨r1, r2.trans (set_set_perm x p L h ((h - 1) / 2) hL hne hp)⟩
    · rw [if_neg hc]
      refine ⟨?_, List.Perm.refl _⟩
      intro i a b hi ha hb
      rw [lookup_set L h _ x hL] at ha hb
      by_cases e1 : i = h
      · subst e1
        have hne : (i - 1) / 2 ≠ i := by omega
        rw [if_neg hne, hp] at ha
        rw [if_pos rfl] at hb
        cases ha
        cases hb
        cases hpx : comp p x
        · rfl
        · exact absurd ⟨hi, hpx⟩ hc
      · rw [if_neg e1] at hb
        by_cases e2 : (i - 1) / 2 = h
        · rw [if_pos e2] at ha
          cases ha
          exact inv6 i b hi e2 hb
        · rw [if_neg e2] at ha
          exact inv3 i a b hi e1 ha hb

theorem pushHeapHole_append {α : Type} (comp : α → α → Bool) (x : α) (B : List α) :
    ∀ (fuel : Nat) (A : List α) (h : Nat), h < A.length →
      pushHeapHole comp x 0 fuel (A ++ B) h = pushHeapHole comp x 0 fuel A h ++ B := by
  intro fuel
  induction fuel with
  | zero =>
    intro A h hA
    simp only [pushHeapHole]
    exact List.set_append_left h x hA
  | succ fuel ih =>
    intro A h hA
    have hpar : (h - 1) / 2 < A.length := by omega
    unfold pushHeapHole
    rw [List.getElem?_append_left hpar, List.getElem?_eq_getElem hpar]
    simp only
    by_cases hc : h > 0 ∧ comp A[(h - 1) / 2] x = true
    · rw [if_pos hc, if_pos hc, List.set_append_left h _ hA]
      exact ih _ _ (by simpa using hpar)
    · rw [if_neg hc, if_neg hc]
      exact List.set_append_left h x hA

/-- The value of a child of `h` that does not compare below the other children of `h` can
be copied to position `h` of a heap. -/
theorem IsHeap_pull_up {α : Type} {comp : α → α → Bool} (hsw : StrictWeak comp) (L : List α)
    (h c : Nat) (cv : α) (hL : IsHeap comp L) (hh : h < L.length) (hc : L[c]? = some cv)
    (hpar : (c - 1) / 2 = h) (hpos : 0 < c)
    (hbest : ∀ i b, 0 < i → (i - 1) / 2 = h → L[i]? = some b → comp cv b = false) :
    IsHeap comp (L.set h cv) := by
  intro i a b hi ha hb
  rw [lookup_set L h _ cv hh] at ha hb
  by_cases e1 : i = h
  · subst e1
    have hne : (i - 1) / 2 ≠ i := by omega
    rw [if_neg hne] at ha
    rw [if_pos rfl] at hb
    cases hb
    have h1 := hL i a L[i] hi ha (List.getElem?_eq_getElem hh)
    have h2 := hL c L[i] cv hpos (by rw [hpar]; exact List.getElem?_eq_getElem hh) hc
    exact hsw.2.2 a _ cv h1 h2
  · rw [if_neg e1] at hb
    by_cases e2 : (i - 1) / 2 = h
    · rw [if_pos e2] at ha
      cases ha
      exact hbest i b hi e2 hb
    · rw [if_neg e2] at ha
      exact hL i a b hi ha hb

/-- The first loop of `std::__adjust_heap` on a heap: the list stays a heap of the same
length, the hole ends where the loop condition fails, and filling the final hole gives
the same elements as filling the first one. -/
theorem adjustHeapLoop_spec {α : Type} {comp : α → α → Bool} (hsw : StrictWeak comp)
    (len : Nat) :
    ∀ (fuel : Nat) (L : List α) (h : Nat), IsHeap comp L → L.length = len → h < len →
      len ≤ h + fuel →
      IsHeap comp (adjustHeapLoop comp len fuel L h).1 ∧
        (adjustHeapLoop comp len fuel L h).1.length = len ∧
        (adjustHeapLoop comp len fuel L h).2 < len ∧
        ¬ ((adjustHeapLoop comp len fuel L h).2 < (len - 1) / 2) ∧
        ∀ v, ((adjustHeapLoop comp len fuel L h).1.set (adjustHeapLoop comp len fuel L h).2
          v).Perm (L.set h v) := by
  intro fuel
  induction fuel with
  | zero => intro L h _ _ hh hf; omega
  | succ fuel ih =>
    intro L h hL hlen hh hf
    unfold adjustHeapLoop
    by_cases hc : h < (len - 1) / 2
    · rw [if_pos hc]
      have hr : 2 * (h + 1) < L.length := by omega
      have hl : 2 * (h + 1) - 1 < L.length := by omega
      have hR : L[2 * (h + 1)]? = some (L[2 * (h + 1)]) := List.getElem?_eq_getElem hr
      have hLf : L[2 * (h + 1) - 1]? = some (L[2 * (h + 1) - 1]) := List.getElem?_eq_getElem hl
      generalize L[2 * (h + 1)] = right at hR
      generalize L[2 * (h + 1) - 1] = left at hLf
      simp only [hR, hLf]
      have hkids : ∀ i, 0 < i → (i - 1) / 2 = h → i = 2 * (h + 1) - 1 ∨ i = 2 * (h + 1) := by
        intro i hi hih
        omega
      by_cases hcmp : comp right left = true
      · rw [if_pos hcmp]
        have hheap : IsHeap comp (L.set h left) := by
          refine IsHeap_pull_up hsw L h (2 * (h + 1) - 1) left hL (by omega) hLf (by omega)
            (by omega) ?_
          intro i b hi hih hb
          rcases hkids i hi hih with e | e
          · rw [e, hLf] at hb
            cases hb
            exact hsw.1 _
          · rw [e, hR] at hb
            cases hb
            exact hsw.asymm _ _ hcmp
        obtain ⟨r1, r2, r3, r4, r5⟩ := ih (L.set h left) (2 * (h + 1) - 1) hheap
          (by simpa using hlen) (by omega) (by omega)
        refine ⟨r1, r2, r3, r4, fun v => (r5 v).trans ?_⟩
        exact set_set_perm v left L h (2 * (h + 1) - 1) (by omega) (by omega) hLf
      · rw [if_neg hcmp]
        have hcmp' : comp right left = false := by
          cases hx : comp right left
          · rfl
          · exact absurd hx hcmp
        have hheap : IsHeap comp (L.set h right) := by
          refine IsHeap_pull_up hsw L h (2 * (h + 1)) right hL (by omega) hR (by omega)
            (by omega) ?_
          intro i b hi hih hb
          rcases hkids i hi hih with e | e
          · rw [e, hLf] at hb
            cases hb
            exact hcmp'
          · rw [e, hR] at hb
            cases hb
            exact hsw.1 _
        obtain ⟨r1, r2, r3, r4, r5⟩ := ih (L.set h right) (2 * (h + 1)) hheap
          (by simpa using hlen) (by omega) (by omega)
        refine ⟨r1, r2, r3, r4, fun v => (r5 v).trans ?_⟩
        exact set_set_perm v right L h (2 * (h + 1)) (by omega) (by omega) hR
    · rw [if_neg hc]
      exact ⟨hL, hlen, hh, hc, fun v => List.Perm.refl _⟩

theorem adjustHeapLoop_append {α : Type} (comp : α → α → Bool) (len : Nat) (B : List α) :
    ∀ (fuel : Nat) (A : List α) (h : Nat), A.length = len → h < len →
      adjustHeapLoop comp len fuel (A ++ B) h =
        ((adjustHeapLoop comp len fuel A h).1 ++ B, (adjustHeapLoop comp len fuel A h).2) := by
  intro fuel
  induction fuel with
  | zero =>
    intro A h _ _
    rfl
  | succ fuel ih =>
    intro A h hlen hh
    unfold adjustHeapLoop
    by_cases hc : h < (len - 1) / 2
    · rw [if_pos hc, if_pos hc]
      have hr : 2 * (h + 1) < A.length := by omega
      have hl : 2 * (h + 1) - 1 < A.length := by omega
      rw [List.getElem?_append_left hr, List.getElem?_append_left hl,
        List.getElem?_eq_getElem hr, List.getElem?_eq_getElem hl]
      simp only
      by_cases hcmp : comp A[2 * (h + 1)] A[2 * (h + 1) - 1] = true
      · rw [if_pos hcmp, if_pos hcmp, List.set_append_left h _ (by omega)]
        exact ih _ _ (by simpa using hlen) (by omega)
      · rw [if_neg hcmp, if_neg hcmp, List.set_append_left h _ (by omega)]
        exact ih _ _ (by simpa using hlen) (by omega)
    · rw [if_neg hc, if_neg hc]

/-- Function `std::__adjust_heap` from the root of a non-empty heap: the result is a heap
with the elements of the list in which `v` replaces the first element. -/
theorem adjustHeap_spec {α : Type} {comp : α → α → Bool} (hsw : StrictWeak comp) (A : List α)
    (v : α) (hA : IsHeap comp A) (hne : 0 < A.length) :
    IsHeap comp (adjustHeap comp A 0 A.length v) ∧
      (adjustHeap comp A 0 A.length v).Perm (A.set 0 v) := by
  obtain ⟨r1, r2, r3, r4, r5⟩ :=
    adjustHeapLoop_spec hsw A.length A.length A 0 hA rfl hne (by omega)
  unfold adjustHeap
  simp only
  generalize adjustHeapLoop comp A.length A.length A 0 = r at r1 r2 r3 r4 r5
  by_cases hcond : A.length % 2 = 0 ∧ r.2 = (A.length - 2) / 2
  · rw [if_pos hcond]
    have hcl : 2 * (r.2 + 1) - 1 < r.1.length := by omega
    have hC : r.1[2 * (r.2 + 1) - 1]? = some (r.1[2 * (r.2 + 1) - 1]) :=
      List.getElem?_eq_getElem hcl
    generalize r.1[2 * (r.2 + 1) - 1] = cv at hC
    simp only [hC]
    have hheap : IsHeap comp (r.1.set r.2 cv) := by
      refine IsHeap_pull_up hsw r.1 r.2 (2 * (r.2 + 1) - 1) cv r1 (by omega) hC (by omega)
        (by omega) ?_
      intro i b hi hih hb
      have hib : i < r.1.length := (List.getElem?_eq_some.1 hb).1
      have e : i = 2 * (r.2 + 1) - 1 := by omega
      rw [e, hC] at hb
      cases hb
      exact hsw.1 _
    obtain ⟨p1, p2⟩ := pushHeapHole_spec hsw v A.length (r.1.set r.2 cv) (2 * (r.2 + 1) - 1)
      (by omega) (by simpa using hcl) (fun i a b hi _ ha hb => hheap i a b hi ha hb)
      (by
        intro i b hi hih hb
        have hib : i < (r.1.set r.2 cv).length := (List.getElem?_eq_some.1 hb).1
        simp only [List.length_set] at hib
        omega)
      (by
        intro i a b _ hi hih _ hb
        have hib : i < (r.1.set r.2 cv).length := (List.getElem?_eq_some.1 hb).1
        simp only [List.length_set] at hib
        omega)
    refine ⟨p1, p2.trans (((set_set_perm v cv r.1 r.2 (2 * (r.2 + 1) - 1) (by omega) (by omega)
      hC)).trans (r5 v))⟩
  · rw [if_neg hcond]
    obtain ⟨p1, p2⟩ := pushHeapHole_spec hsw v A.length r.1 r.2 (by omega) (by omega)
      (fun i a b hi _ ha hb => r1 i a b hi ha hb)
      (by
        intro i b hi hih hb
        have hib : i < r.1.length := (List.getElem?_eq_some.1 hb).1
        omega)
      (by
        intro i a b _ hi hih _ hb
        have hib : i < r.1.length := (List.getElem?_eq_some.1 hb).1
        omega)
    exact ⟨p1, p2.trans (r5 v)⟩

theorem adjustHeap_append {α : Type} {comp : α → α → Bool} (hsw : StrictWeak comp)
    (A B : List α) (v : α) (hA : IsHeap comp A) (hne : 0 < A.length) :
    adjustHeap comp (A ++ B) 0 A.length v = adjustHeap comp A 0 A.length v ++ B := by
  obtain ⟨_, r2, r3, r4, _⟩ :=
    adjustHeapLoop_spec hsw A.length A.length A 0 hA rfl hne (by omega)
  unfold adjustHeap
  simp only
  rw [adjustHeapLoop_append comp A.length B A.length A 0 rfl hne]
  generalize adjustHeapLoop comp A.length A.length A 0 = r at r2 r3 r4
  simp only
  by_cases hcond : A.length % 2 = 0 ∧ r.2 = (A.length - 2) / 2
  · rw [if_pos hcond, if_pos hcond]
    have hcl : 2 * (r.2 + 1) - 1 < r.1.length := by omega
    rw [List.getElem?_append_left hcl, List.getElem?_eq_getElem hcl]
    simp only
    rw [List.set_append_left r.2 _ (by omega)]
    exact pushHeapHole_append comp v B A.length _ _ (by simpa using hcl)
  · rw [if_neg hcond, if_neg hcond]
    exact pushHeapHole_append comp v B A.length _ _ (by omega)

/-- The heap functions of the GNU library meet the contract of the standard. -/
theorem binaryHeap_conforms : binaryHeap.Conforms := by
  constructor
  · intro α comp l x hsw hl
    have hlast : (l ++ [x]).getLast? = some x := by simp
    have hrun : binaryHeap.push_heap comp (l ++ [x]) =
        pushHeapHole comp x 0 (l.length + 1) (l ++ [x]) l.length := by
      simp [binaryHeap]
    rw [hrun]
    obtain ⟨p1, p2⟩ := pushHeapHole_spec hsw x (l.length + 1) (l ++ [x]) l.length (by omega)
      (by simp)
      (by
        intro i a b hi hih ha hb
        have hib : i < (l ++ [x]).length := (List.getElem?_eq_some.1 hb).1
        simp only [List.length_append, List.length_singleton] at hib
        have hib1 : i < l.length := by omega
        have hia1 : (i - 1) / 2 < l.length := by omega
        rw [List.getElem?_append_left hib1] at hb
        rw [List.getElem?_append_left hia1] at ha
        exact hl i a b hi ha hb)
      (by
        intro i b hi hih hb
        have hib : i < (l ++ [x]).length := (List.getElem?_eq_some.1 hb).1
        simp only [List.length_append, List.length_singleton] at hib
        omega)
      (by
        intro i a b _ hi hih _ hb
        have hib : i < (l ++ [x]).length := (List.getElem?_eq_some.1 hb).1
        simp only [List.length_append, List.length_singleton] at hib
        omega)
    refine ⟨p1, p2.trans ?_⟩
    have : (l ++ [x]).set l.length x = l ++ [x] := by
      apply set_lookup_self
      simp
    rw [this]
  · intro α comp x l hsw hl
    rcases List.eq_nil_or_concat l with rfl | ⟨A, v, rfl⟩
    · exact ⟨[], by simp [binaryHeap], IsHeap.nil _, List.Perm.refl _⟩
    · rw [List.concat_eq_append] at hl ⊢
      have hA : IsHeap comp (x :: A) := by
        have : x :: (A ++ [v]) = (x :: A) ++ [v] := rfl
        rw [this] at hl
        exact IsHeap_append_left hl
      have hrun : binaryHeap.pop_heap comp (x :: (A ++ [v])) =
          adjustHeap comp ((x :: A) ++ [x]) 0 (x :: A).length v := by
        have hlen : (x :: (A ++ [v])).length > 1 := by simp
        have hset : (x :: (A ++ [v])).set ((x :: (A ++ [v])).length - 1) x = (x :: A) ++ [x] := by
          have : x :: (A ++ [v]) = (x :: A) ++ [v] := rfl
          rw [this, List.set_append]
          simp
        have hlast : (x :: (A ++ [v])).getLast? = some v :=
          List.getLast?_eq_some_iff.2 ⟨x :: A, rfl⟩
        simp only [binaryHeap, if_pos hlen, hset, hlast, List.getElem?_cons_zero]
        simp
      rw [hrun, adjustHeap_append hsw (x :: A) [x] v hA (by simp)]
      obtain ⟨q1, q2⟩ := adjustHeap_spec hsw (x :: A) v hA (by simp)
      refine ⟨_, rfl, q1, q2.trans ?_⟩
      simp only [List.set_cons_zero]
      exact (List.perm_append_singleton v A).symm

/-! ## Path equality -/

namespace Graph

theorem Path.GetFinalVertex_extend (p : Path) (e : Edge) :
    (p.extend e).GetFinalVertex = e.m_endVertex := by
  simp [Path.GetFinalVertex, Path.extend, Edge.GetEndVertexNumber]

theorem Path.beq_iff (p q : Path) :
    (p == q) = true ↔
      p.m_Path.length = q.m_Path.length ∧ p.GetFinalVertex = q.GetFinalVertex := by
  show Path.eq p q = true ↔ _
  unfold Path.eq
  by_cases h : p.m_Path.length = q.m_Path.length
  · simp [h]
  · simp [h]

end Graph

/-! ## The priority queue -/

namespace PriorityQueue

variable {V P : Type} [LinearOrder P]

theorem InsertIfPriorityLess_cases [BEq V] (H : StlHeap) (q : PriorityQueue V P) (val : V)
    (priority : P) :
    (q.InsertIfPriorityLess H val priority = q.Insert H val priority ∧
        (q.GetPriorityIfContains val = none ∨
          ∃ t, q.GetPriorityIfContains val = some t ∧ priority < t)) ∨
      (q.InsertIfPriorityLess H val priority = q ∧
        ∃ t, q.GetPriorityIfContains val = some t ∧ ¬ priority < t) := by
  unfold InsertIfPriorityLess
  cases hf : q.GetPriorityIfContains val with
  | none => exact Or.inl ⟨rfl, Or.inl rfl⟩
  | some t =>
    by_cases hlt : priority < t
    · simp only [if_pos hlt]
      exact Or.inl ⟨trivial, Or.inr ⟨t, rfl, hlt⟩⟩
    · simp only [if_neg hlt]
      exact Or.inr ⟨trivial, t, rfl, hlt⟩

/-- Every reachable queue state is a heap. -/
theorem Reach.isHeap [BEq V] {H : StlHeap} (hH : H.Conforms) {q : PriorityQueue V P}
    (hq : Reach H q) : IsHeap Compare q.m_MinHeap := by
  induction hq with
  | empty => exact IsHeap.nil _
  | insert val priority _ ih => exact (Insert_spec hH _ val priority ih).1
  | @insertIfPriorityLess q val priority _ ih =>
    rcases InsertIfPriorityLess_cases H q val priority with ⟨h, _⟩ | ⟨h, _⟩
    · rw [h]
      exact (Insert_spec hH _ val priority ih).1
    · rw [h]
      exact ih
  | @pop q q1 _ hne hpop ih =>
    cases hl : q.m_MinHeap with
    | nil => simp [PriorityQueue.Empty, hl] at hne
    | cons e es =>
      obtain ⟨q2, hpop2, hheap, _⟩ := Pop_spec hH q e es ih hl
      rw [hpop] at hpop2
      cases hpop2
      exact hheap

/-- Claim C16: in every queue state reachable from the empty queue by `Insert`,
`InsertIfPriorityLess` and `Pop` on non-empty queues, if the queue is not empty then
`Top` and `GetTopPriority` return the value and priority of a stored element whose
priority is at most the priority of every stored element, and `Pop` removes that one
element: the stored elements are, as a multiset, that element and the elements left, and
`Size` goes down by 1. -/
theorem Top_and_Pop_minimum [BEq V] {H : StlHeap} (hH : H.Conforms) (q : PriorityQueue V P)
    (hq : Reach H q) (hne : q.Empty = false) :
    ∃ v p q1, q.Top = .ok v ∧ q.GetTopPriority = .ok p ∧
      (∀ el ∈ q.m_MinHeap, p ≤ el.m_Priority) ∧
      (⟨v, p⟩ : PriorityQueueElement V P) ∈ q.m_MinHeap ∧
      q.Pop H = .ok q1 ∧ Reach H q1 ∧
      q.m_MinHeap.Perm (⟨v, p⟩ :: q1.m_MinHeap) ∧ q1.Size + 1 = q.Size := by
  have hheap := hq.isHeap hH
  cases hl : q.m_MinHeap with
  | nil => simp [PriorityQueue.Empty, hl] at hne
  | cons e es =>
    obtain ⟨q1, hpop, _, hperm⟩ := Pop_spec hH q e es hheap hl
    refine ⟨e.m_Value, e.m_Priority, q1, ?_, ?_, ?_, ?_, hpop, Reach.pop hq hne hpop, ?_, ?_⟩
    · simp [Top, hl]
    · simp [GetTopPriority, hl]
    · intro el hel
      exact top_min q e es hheap hl el (by rw [hl]; exact hel)
    · exact List.mem_cons_self _ _
    · exact (List.Perm.cons e hperm).symm
    · simp only [Size, hl, List.length_cons, hperm.length_eq]

/-- Witness for `Top_and_Pop_minimum`: the queue after `Insert(7, 2)` and `Insert(9, 1)`,
with the heap functions of the GNU library. -/
theorem Top_and_Pop_minimum_witness :
    ((PriorityQueue.empty.Insert binaryHeap 7 2).Insert binaryHeap 9 1 :
        PriorityQueue Nat ℚ).Top = .ok 9 ∧
      ∃ v p q1,
        ((PriorityQueue.empty.Insert binaryHeap 7 2).Insert binaryHeap 9 1 :
          PriorityQueue Nat ℚ).Top = .ok v ∧
        ((PriorityQueue.empty.Insert binaryHeap 7 2).Insert binaryHeap 9 1 :
          PriorityQueue Nat ℚ).GetTopPriority = .ok p ∧
        (∀ el ∈ ((PriorityQueue.empty.Insert binaryHeap 7 2).Insert binaryHeap 9 1 :
          PriorityQueue Nat ℚ).m_MinHeap, p ≤ el.m_Priority) ∧
        (⟨v, p⟩ : PriorityQueueElement Nat ℚ) ∈
          ((PriorityQueue.empty.Insert binaryHeap 7 2).Insert binaryHeap 9 1 :
            PriorityQueue Nat ℚ).m_MinHeap ∧
        ((PriorityQueue.empty.Insert binaryHeap 7 2).Insert binaryHeap 9 1 :
          PriorityQueue Nat ℚ).Pop binaryHeap = .ok q1 ∧
        Reach binaryHeap q1 ∧
        ((PriorityQueue.empty.Insert binaryHeap 7 2).Insert binaryHeap 9 1 :
          PriorityQueue Nat ℚ).m_MinHeap.Perm (⟨v, p⟩ :: q1.m_MinHeap) ∧
        q1.Size + 1 = ((PriorityQueue.empty.Insert binaryHeap 7 2).Insert binaryHeap 9 1 :
          PriorityQueue Nat ℚ).Size :=
  ⟨by decide!,
    Top_and_Pop_minimum binaryHeap_conforms _
      (Reach.insert 9 1 (Reach.insert 7 2 Reach.empty)) (by decide!)⟩

/-- Claim C17 (failing input): with the heap functions of the GNU library, the queue
after `Insert(7, 1)`, `Insert(9, 5)`, `InsertIfPriorityLess(9, 3)` stores the entries
`(7,1), (9,5), (9,3)` in this order. `InsertIfPriorityLess(9, 4)` then adds a fourth
entry although the stored entry `(9,3)` has a smaller priority: the priority 4 is
compared with 5, the priority of the first stored entry for 9. -/
theorem InsertIfPriorityLess_after_worse_first_entry :
    Reach binaryHeap
        (((PriorityQueue.empty.Insert binaryHeap 7 1).Insert binaryHeap 9 5).InsertIfPriorityLess
          binaryHeap 9 3 : PriorityQueue Nat ℚ) ∧
      (((PriorityQueue.empty.Insert binaryHeap 7 1).Insert binaryHeap 9 5).InsertIfPriorityLess
          binaryHeap 9 3 : PriorityQueue Nat ℚ).m_MinHeap = [⟨7, 1⟩, ⟨9, 5⟩, ⟨9, 3⟩] ∧
      ((((PriorityQueue.empty.Insert binaryHeap 7 1).Insert binaryHeap 9 5).InsertIfPriorityLess
          binaryHeap 9 3).InsertIfPriorityLess binaryHeap 9 4 :
            PriorityQueue Nat ℚ).m_MinHeap = [⟨7, 1⟩, ⟨9, 4⟩, ⟨9, 3⟩, ⟨9, 5⟩] :=
  ⟨Reach.insertIfPriorityLess 9 3 (Reach.insert 9 5 (Reach.insert 7 1 Reach.empty)),
    by decide!, by decide!⟩

end PriorityQueue

/-! ## Dijkstra: the invariant of the path search -/

namespace PriorityQueue

variable {V P : Type} [LinearOrder P]

theorem firstPriorityOf_some_beq [BEq V] (val : V) (l : List (PriorityQueueElement V P)) (t : P)
    (h : firstPriorityOf val l = some t) :
    ∃ el ∈ l, (el.m_Value == val) = true ∧ el.m_Priority = t := by
  induction l with
  | nil => simp [firstPriorityOf] at h
  | cons e es ih =>
    unfold firstPriorityOf at h
    by_cases hc : (e.m_Value == val) = true
    · rw [if_pos hc] at h
      cases h
      exact ⟨e, List.mem_cons_self _ _, hc, rfl⟩
    · rw [if_neg hc] at h
      obtain ⟨el, hel, h1, h2⟩ := ih h
      exact ⟨el, List.mem_cons_of_mem _ hel, h1, h2⟩

/-- What `InsertIfPriorityLess` does to a heap of paths: it stays a heap, either
unchanged or with the one new entry, and afterwards some entry whose path ends where
`val` ends has priority at most `priority`. -/
theorem InsertIfPriorityLess_path_spec {H : StlHeap} (hH : H.Conforms)
    (q : PriorityQueue Graph.Path ℚ) (val : Graph.Path) (priority : ℚ)
    (hq : IsHeap Compare q.m_MinHeap) :
    IsHeap Compare (q.InsertIfPriorityLess H val priority).m_MinHeap ∧
      ((q.InsertIfPriorityLess H val priority) = q ∨
        (q.InsertIfPriorityLess H val priority).m_MinHeap.Perm
          (q.m_MinHeap ++ [⟨val, priority⟩])) ∧
      ∃ el ∈ (q.InsertIfPriorityLess H val priority).m_MinHeap,
        el.m_Value.GetFinalVertex = val.GetFinalVertex ∧ el.m_Priority ≤ priority := by
  have hins := Insert_spec hH q val priority hq
  have hmem : (⟨val, priority⟩ : PriorityQueueElement Graph.Path ℚ) ∈
      (q.Insert H val priority).m_MinHeap := hins.2.mem_iff.2 (by simp)
  rcases InsertIfPriorityLess_cases H q val priority with ⟨h, _⟩ | ⟨h, t, hf, hlt⟩
  · rw [h]
    exact ⟨hins.1, Or.inr hins.2, ⟨val, priority⟩, hmem, rfl, le_refl _⟩
  · rw [h]
    obtain ⟨el, hel, h1, h2⟩ := firstPriorityOf_some_beq val q.m_MinHeap t hf
    exact ⟨hq, Or.inl rfl, el, hel, ((Graph.Path.beq_iff _ _).1 h1).2,
      by rw [h2]; exact not_lt.1 hlt⟩

end PriorityQueue

namespace ShortestPathAlgorithm

open Graph

theorem IsHeap_map_entryOf (l : List (PriorityQueueElement Graph.Path ℚ)) :
    IsHeap Compare (l.map entryOf) ↔ IsHeap Compare l := by
  constructor
  · intro h i a b hi ha hb
    exact h i (entryOf a) (entryOf b) hi (by simp [List.getElem?_map, ha])
      (by simp [List.getElem?_map, hb])
  · intro h i a1 b1 hi ha hb
    rw [List.getElem?_map] at ha hb
    obtain ⟨a, ha1, rfl⟩ := Option.map_eq_some'.1 ha
    obtain ⟨b, hb1, rfl⟩ := Option.map_eq_some'.1 hb
    exact h i a b hi ha1 hb1

theorem TracesWalk_single (G : Graph) (u : Nat) : TracesWalk G u (Graph.Path.single u) :=
  ⟨[], rfl, rfl, rfl⟩

theorem TracesWalk_extend (G : Graph) (u : Nat) (p : Graph.Path) (e : Edge)
    (hp : TracesWalk G u p) (he : e ∈ G.adj p.GetFinalVertex) : TracesWalk G u (p.extend e) := by
  obtain ⟨W, hW, hpath, hw⟩ := hp
  refine ⟨W ++ [e], ?_, ?_, ?_⟩
  · rw [Graph.Path.GetFinalVertex_extend]
    exact IsWalk_append G W [e] u _ _ hW ⟨he, rfl⟩
  · simp [Graph.Path.extend, hpath, Edge.GetEndVertexNumber]
  · simp [Graph.Path.extend, hw, Edge.GetEdgeWeight]

theorem extend_weight (p : Graph.Path) (e : Edge) :
    (p.extend e).GetWeight = p.m_Weight + e.m_Weight := rfl

theorem seedPaths_spec {H : StlHeap} (hH : H.Conforms) (cur : Graph.Path) (es : List Edge)
    (q : PriorityQueue Graph.Path ℚ) (hq : IsHeap Compare q.m_MinHeap) :
    IsHeap Compare (seedPaths H cur es q).m_MinHeap ∧
      (seedPaths H cur es q).m_MinHeap.Perm
        (q.m_MinHeap ++ es.map (fun e => ⟨cur.extend e, cur.m_Weight + e.m_Weight⟩)) := by
  induction es generalizing q with
  | nil => simpa [seedPaths] using hq
  | cons e es ih =>
    have hins := PriorityQueue.Insert_spec hH q (cur.extend e) (cur.extend e).GetWeight hq
    obtain ⟨h1, h2⟩ := ih (q.Insert H (cur.extend e) (cur.extend e).GetWeight) hins.1
    refine ⟨h1, ?_⟩
    unfold seedPaths
    refine h2.trans ?_
    have := List.Perm.append_right (es.map (fun e => (⟨cur.extend e, cur.m_Weight + e.m_Weight⟩ :
      PriorityQueueElement Graph.Path ℚ))) hins.2
    simpa [extend_weight] using this

theorem relaxPaths_spec {H : StlHeap} (hH : H.Conforms) (O : List Nat) (cur : Graph.Path)
    (es : List Edge) (q : PriorityQueue Graph.Path ℚ) (hq : IsHeap Compare q.m_MinHeap) :
    IsHeap Compare (relaxPaths H O cur es q).m_MinHeap ∧
      (∀ el ∈ q.m_MinHeap, el ∈ (relaxPaths H O cur es q).m_MinHeap) ∧
      (∀ el ∈ (relaxPaths H O cur es q).m_MinHeap, el ∈ q.m_MinHeap ∨
        ∃ e ∈ es, e.m_endVertex ∉ O ∧ el = ⟨cur.extend e, cur.m_Weight + e.m_Weight⟩) ∧
      (∀ e ∈ es, e.m_endVertex ∉ O → ∃ el ∈ (relaxPaths H O cur es q).m_MinHeap,
        el.m_Value.GetFinalVertex = e.m_endVertex ∧
          el.m_Priority ≤ cur.m_Weight + e.m_Weight) ∧
      (relaxPaths H O cur es q).m_MinHeap.length ≤ q.m_MinHeap.length + es.length := by
  induction es generalizing q with
  | nil =>
    refine ⟨hq, fun el h => h, fun el h => Or.inl h, ?_, ?_⟩
    · intro e he
      simp at he
    · simp [relaxPaths]
  | cons e es ih =>
    unfold relaxPaths
    by_cases hin : e.m_endVertex ∈ O
    · have hc : OpenSetContains O e.GetEndVertexNumber = true :=
        (OpenSetContains_iff O _).2 hin
      simp only [hc, Bool.not_true, Bool.false_eq_true, if_false]
      obtain ⟨h1, h2, h3, h4, h5⟩ := ih q hq
      refine ⟨h1, h2, ?_, ?_, ?_⟩
      · intro el hel
        rcases h3 el hel with h | ⟨e1, he1, hout, heq⟩
        · exact Or.inl h
        · exact Or.inr ⟨e1, List.mem_cons_of_mem _ he1, hout, heq⟩
      · intro e1 he1 hout
        rcases List.mem_cons.1 he1 with rfl | he1
        · exact absurd hin hout
        · exact h4 e1 he1 hout
      · simp only [List.length_cons]
        omega
    · have hc : OpenSetContains O e.GetEndVertexNumber = false := by
        cases h : OpenSetContains O e.GetEndVertexNumber
        · rfl
        · exact absurd ((OpenSetContains_iff O _).1 h) hin
      simp only [hc, Bool.not_false, if_true]
      obtain ⟨g1, g2, el0, hel0, hv0, hp0⟩ :=
        PriorityQueue.InsertIfPriorityLess_path_spec hH q (cur.extend e)
          (cur.extend e).GetWeight hq
      obtain ⟨h1, h2, h3, h4, h5⟩ :=
        ih (q.InsertIfPriorityLess H (cur.extend e) (cur.extend e).GetWeight) g1
      have hsub : ∀ el ∈ q.m_MinHeap,
          el ∈ (q.InsertIfPriorityLess H (cur.extend e) (cur.extend e).GetWeight).m_MinHeap := by
        intro el hel
        rcases g2 with g | g
        · rw [g]; exact hel
        · exact g.mem_iff.2 (List.mem_append_left _ hel)
      have hsup : ∀ el ∈
          (q.InsertIfPriorityLess H (cur.extend e) (cur.extend e).GetWeight).m_MinHeap,
          el ∈ q.m_MinHeap ∨ el = ⟨cur.extend e, cur.m_Weight + e.m_Weight⟩ := by
        intro el hel
        rcases g2 with g | g
        · rw [g] at hel; exact Or.inl hel
        · rcases List.mem_append.1 (g.mem_iff.1 hel) with h | h
          · exact Or.inl h
          · exact Or.inr (by simpa [extend_weight] using h)
      have hlen : (q.InsertIfPriorityLess H (cur.extend e)
          (cur.extend e).GetWeight).m_MinHeap.length ≤ q.m_MinHeap.length + 1 := by
        rcases g2 with g | g
        · rw [g]; omega
        · rw [g.length_eq]; simp
      refine ⟨h1, fun el hel => h2 el (hsub el hel), ?_, ?_, ?_⟩
      · intro el hel
        rcases h3 el hel with h | ⟨e1, he1, hout, heq⟩
        · rcases hsup el h with h | h
          · exact Or.inl h
          · exact Or.inr ⟨e, List.mem_cons_self _ _, hin, h⟩
        · exact Or.inr ⟨e1, List.mem_cons_of_mem _ he1, hout, heq⟩
      · intro e1 he1 hout
        rcases List.mem_cons.1 he1 with rfl | he1
        · refine ⟨el0, h2 el0 hel0, ?_, ?_⟩
          · rw [hv0, Graph.Path.GetFinalVertex_extend]
          · rw [extend_weight] at hp0
            exact hp0
        · exact h4 e1 he1 hout
      · simp only [List.length_cons]
        omega

/-- The invariant of the length search survives popping an entry whose vertex is new and
putting the vertex in the open set, for any new queue that keeps the remaining entries,
adds only entries for edges leaving the vertex, and covers each of these edges. -/
theorem Inv.finalize_of {G : Graph} {u : Nat} {O : List Nat} {Q Q2 : PriorityQueue Nat ℚ}
    (hI : Inv G u O Q) (hnn : G.NonNegative) (her : G.EndsInRange)
    (top : PriorityQueueElement Nat ℚ) (rest : List (PriorityQueueElement Nat ℚ))
    (hl : Q.m_MinHeap = top :: rest) (hout : top.m_Value ∉ O)
    (hheap : IsHeap Compare Q2.m_MinHeap)
    (hkeep : ∀ el ∈ rest, el ∈ Q2.m_MinHeap)
    (hnew : ∀ el ∈ Q2.m_MinHeap, el ∈ rest ∨ ∃ e ∈ G.adj top.m_Value,
      e.m_endVertex ∉ O ++ [top.m_Value] ∧ el = ⟨e.m_endVertex, top.m_Priority + e.m_Weight⟩)
    (hcov : ∀ e ∈ G.adj top.m_Value, e.m_endVertex ∉ O ++ [top.m_Value] →
      ∃ el ∈ Q2.m_MinHeap, el.m_Value = e.m_endVertex ∧
        el.m_Priority ≤ top.m_Priority + e.m_Weight) :
    Inv G u (O ++ [top.m_Value]) Q2 := by
  have hsh := hI.top_shortest hnn top rest hl hout
  obtain ⟨Wt, hWt, hwt⟩ := hsh.1
  refine ⟨hheap, List.mem_append_left _ hI.src, ?_, ?_, ?_, ?_, ?_⟩
  · intro y hy
    rcases List.mem_append.1 hy with hy | hy
    · exact hI.inRange y hy
    · rw [List.mem_singleton.1 hy]
      exact IsWalk_end_lt G her Wt u _ hWt (hI.inRange u hI.src)
  · exact List.Nodup.append hI.nodup (List.nodup_singleton _)
      (by
        intro a ha hb
        rw [List.mem_singleton.1 hb] at ha
        exact hout ha)
  · intro y hy
    rcases List.mem_append.1 hy with hy | hy
    · exact hI.fin y hy
    · rw [List.mem_singleton.1 hy]
      exact ⟨_, hsh⟩
  · intro el hel
    rcases hnew el hel with h | ⟨e, he, _, heq⟩
    · exact hI.ent el (by rw [hl]; exact List.mem_cons_of_mem _ h)
    · refine ⟨Wt ++ [e], ?_, ?_⟩
      · rw [heq]
        exact IsWalk_append G Wt [e] u _ _ hWt ⟨he, rfl⟩
      · rw [heq, walkWeight_append, hwt]
        simp
  · intro y hy d hd e he heout
    rcases List.mem_append.1 hy with hy | hy
    · have heout1 : e.m_endVertex ∉ O := fun h => heout (List.mem_append_left _ h)
      obtain ⟨el, hel, hv, hp⟩ := hI.cov y hy d hd e he heout1
      rw [hl] at hel
      rcases List.mem_cons.1 hel with rfl | hel
      · exact absurd (by rw [hv]; simp) heout
      · exact ⟨el, hkeep el hel, hv, hp⟩
    · have hy1 : y = top.m_Value := List.mem_singleton.1 hy
      subst hy1
      have hdeq := IsShortest_unique G u _ d _ hd hsh
      rw [hdeq]
      exact hcov e he heout

theorem vertexQueue_cons (Q : PriorityQueue Graph.Path ℚ)
    (top : PriorityQueueElement Graph.Path ℚ) (rest : List (PriorityQueueElement Graph.Path ℚ))
    (hl : Q.m_MinHeap = top :: rest) :
    (vertexQueue Q).m_MinHeap = entryOf top :: rest.map entryOf := by
  simp [vertexQueue, hl]

theorem PathInv.heap {G : Graph} {u : Nat} {O : List Nat} {Q : PriorityQueue Graph.Path ℚ}
    (hI : PathInv G u O Q) : IsHeap Compare Q.m_MinHeap :=
  (IsHeap_map_entryOf Q.m_MinHeap).1 hI.base.heap

/-- The invariant survives popping a path whose final vertex is already in the open set. -/
theorem PathInv.afterSkip {G : Graph} {u : Nat} {O : List Nat} {Q Q1 : PriorityQueue Graph.Path ℚ}
    (hI : PathInv G u O Q) (top : PriorityQueueElement Graph.Path ℚ)
    (rest : List (PriorityQueueElement Graph.Path ℚ)) (hl : Q.m_MinHeap = top :: rest)
    (hin : top.m_Value.GetFinalVertex ∈ O) (hheap : IsHeap Compare Q1.m_MinHeap)
    (hperm : Q1.m_MinHeap.Perm rest) : PathInv G u O Q1 where
  base := hI.base.skip (entryOf top) (rest.map entryOf) (vertexQueue_cons Q top rest hl) hin
    ((IsHeap_map_entryOf Q1.m_MinHeap).2 hheap) (hperm.map entryOf)
  valid := fun el hel =>
    hI.valid el (by rw [hl]; exact List.mem_cons_of_mem _ (hperm.mem_iff.1 hel))

/-- The invariant survives popping a path whose final vertex is new, putting the vertex
in the open set and queueing the continuations of the path. -/
theorem PathInv.afterFinalize {H : StlHeap} (hH : H.Conforms) {G : Graph} {u : Nat} {O : List Nat}
    {Q Q1 : PriorityQueue Graph.Path ℚ} (hI : PathInv G u O Q) (hnn : G.NonNegative)
    (her : G.EndsInRange) (top : PriorityQueueElement Graph.Path ℚ)
    (rest : List (PriorityQueueElement Graph.Path ℚ)) (hl : Q.m_MinHeap = top :: rest)
    (hout : top.m_Value.GetFinalVertex ∉ O) (hheap : IsHeap Compare Q1.m_MinHeap)
    (hperm : Q1.m_MinHeap.Perm rest) :
    PathInv G u (O ++ [top.m_Value.GetFinalVertex])
      (relaxPaths H (O ++ [top.m_Value.GetFinalVertex]) top.m_Value
        (G.adj top.m_Value.GetFinalVertex) Q1) := by
  obtain ⟨r1, r2, r3, r4, _⟩ := relaxPaths_spec hH (O ++ [top.m_Value.GetFinalVertex])
    top.m_Value (G.adj top.m_Value.GetFinalVertex) Q1 hheap
  have htop := hI.valid top (by rw [hl]; exact List.mem_cons_self _ _)
  have hprio : top.m_Value.m_Weight = top.m_Priority := htop.2.symm
  refine ⟨?_, ?_⟩
  · refine Inv.finalize_of hI.base hnn her (entryOf top) (rest.map entryOf)
      (vertexQueue_cons Q top rest hl) hout ((IsHeap_map_entryOf _).2 r1) ?_ ?_ ?_
    · intro el hel
      obtain ⟨el1, hel1, rfl⟩ := List.mem_map.1 hel
      exact List.mem_map.2 ⟨el1, r2 el1 (hperm.mem_iff.2 hel1), rfl⟩
    · intro el hel
      obtain ⟨el1, hel1, rfl⟩ := List.mem_map.1 hel
      rcases r3 el1 hel1 with h | ⟨e, he, heout, heq⟩
      · exact Or.inl (List.mem_map.2 ⟨el1, hperm.mem_iff.1 h, rfl⟩)
      · refine Or.inr ⟨e, he, heout, ?_⟩
        rw [heq]
        simp only [entryOf, Graph.Path.GetFinalVertex_extend, hprio]
    · intro e he heout
      obtain ⟨el, hel, hv, hp⟩ := r4 e he heout
      refine ⟨entryOf el, List.mem_map.2 ⟨el, hel, rfl⟩, hv, ?_⟩
      rw [hprio] at hp
      exact hp
  · intro el hel
    rcases r3 el hel with h | ⟨e, he, _, heq⟩
    · exact hI.valid el (by rw [hl]; exact List.mem_cons_of_mem _ (hperm.mem_iff.1 h))
    · rw [heq]
      exact ⟨TracesWalk_extend G u top.m_Value e htop.1 he, rfl⟩

/-- The invariant holds when the loop of `GetShortestPath` is entered. -/
theorem PathInv.atStart {H : StlHeap} (hH : H.Conforms) (G : Graph) (hnn : G.NonNegative)
    (u : Nat) (hu : u < G.m_EdgeList.length) :
    PathInv G u [u] (seedPaths H (Graph.Path.single u) (G.adj u) PriorityQueue.empty) := by
  obtain ⟨s1, s2⟩ := seedPaths_spec hH (Graph.Path.single u) (G.adj u) PriorityQueue.empty
    (IsHeap.nil _)
  have hmem : ∀ el, el ∈ (seedPaths H (Graph.Path.single u) (G.adj u)
      PriorityQueue.empty).m_MinHeap ↔
      ∃ e ∈ G.adj u, el = ⟨(Graph.Path.single u).extend e, 0 + e.m_Weight⟩ := by
    intro el
    rw [s2.mem_iff]
    simp only [PriorityQueue.empty, List.nil_append, List.mem_map]
    constructor
    · rintro ⟨e, he, rfl⟩
      exact ⟨e, he, rfl⟩
    · rintro ⟨e, he, rfl⟩
      exact ⟨e, he, rfl⟩
  refine ⟨⟨(IsHeap_map_entryOf _).2 s1, List.mem_singleton_self u, ?_, List.nodup_singleton u,
    ?_, ?_, ?_⟩, ?_⟩
  · intro y hy
    rw [List.mem_singleton.1 hy]
    exact hu
  · intro y hy
    rw [List.mem_singleton.1 hy]
    exact ⟨0, IsShortest_self G hnn u⟩
  · intro el hel
    obtain ⟨el1, hel1, rfl⟩ := List.mem_map.1 hel
    obtain ⟨e, he, rfl⟩ := (hmem el1).1 hel1
    refine ⟨[e], ?_, ?_⟩
    · simp only [entryOf, Graph.Path.GetFinalVertex_extend]
      exact ⟨he, rfl⟩
    · simp [entryOf]
  · intro y hy d hd e he _
    have hy1 : y = u := List.mem_singleton.1 hy
    subst hy1
    have hd0 := IsShortest_unique G y y d 0 hd (IsShortest_self G hnn y)
    subst hd0
    refine ⟨entryOf ⟨(Graph.Path.single y).extend e, 0 + e.m_Weight⟩,
      List.mem_map.2 ⟨_, (hmem _).2 ⟨e, he, rfl⟩, rfl⟩, ?_, ?_⟩
    · simp only [entryOf, Graph.Path.GetFinalVertex_extend]
    · simp [entryOf]
  · intro el hel
    obtain ⟨e, he, rfl⟩ := (hmem el).1 hel
    refine ⟨TracesWalk_extend G u _ e (TracesWalk_single G u) he, ?_⟩
    simp [Graph.Path.extend, Graph.Path.single, Edge.GetEdgeWeight]

theorem seedPaths_length {H : StlHeap} (hH : H.Conforms) (cur : Graph.Path) (es : List Edge) :
    (seedPaths H cur es PriorityQueue.empty).m_MinHeap.length = es.length := by
  obtain ⟨_, s2⟩ := seedPaths_spec hH cur es PriorityQueue.empty (IsHeap.nil _)
  rw [s2.length_eq]
  simp [PriorityQueue.empty]

theorem init_path_budget {H : StlHeap} (hH : H.Conforms) (G : Graph) (u : Nat)
    (hu : u < G.m_EdgeList.length) :
    (seedPaths H (Graph.Path.single u) (G.adj u) PriorityQueue.empty).m_MinHeap.length +
      G.pendingWork [u] = G.storedEdges := by
  rw [seedPaths_length hH, ← pendingWork_nil G]
  have := pendingWork_append G [] u hu (by simp)
  simp only [List.nil_append] at this
  omega

/-- The budget left after one pass of the path loop that puts a vertex in the open set. -/
theorem path_budget_finalize {H : StlHeap} (hH : H.Conforms) (G : Graph) (O : List Nat)
    (Q1 : PriorityQueue Graph.Path ℚ) (x : Nat) (cur : Graph.Path)
    (rest : List (PriorityQueueElement Graph.Path ℚ))
    (fuel : Nat) (hheap : IsHeap Compare Q1.m_MinHeap) (hperm : Q1.m_MinHeap.Perm rest)
    (hx : x < G.m_EdgeList.length) (hout : x ∉ O)
    (hb : (rest.length + 1) + G.pendingWork O < fuel + 1) :
    (relaxPaths H (O ++ [x]) cur (G.adj x) Q1).m_MinHeap.length + G.pendingWork (O ++ [x]) <
      fuel := by
  obtain ⟨_, _, _, _, r5⟩ := relaxPaths_spec hH (O ++ [x]) cur (G.adj x) Q1 hheap
  have h1 := hperm.length_eq
  have h2 := pendingWork_append G O x hx hout
  omega

end ShortestPathAlgorithm

/-! ## Dijkstra: the loop of the path search -/

namespace ShortestPathAlgorithm

open Graph

theorem pathLoop_empty (H : StlHeap) (G : Graph) (u v fuel : Nat) (O : List Nat)
    (Q : PriorityQueue Graph.Path ℚ) (hl : Q.m_MinHeap = []) :
    pathLoop H G u v (fuel + 1) O Q = .ok (Graph.Path.single u) := by
  simp [pathLoop, PriorityQueue.Empty, hl]

theorem pathLoop_step (H : StlHeap) (G : Graph) (u v fuel : Nat) (O : List Nat)
    (Q Q1 : PriorityQueue Graph.Path ℚ) (top : PriorityQueueElement Graph.Path ℚ)
    (rest : List (PriorityQueueElement Graph.Path ℚ)) (hl : Q.m_MinHeap = top :: rest)
    (hpop : Q.Pop H = .ok Q1) :
    pathLoop H G u v (fuel + 1) O Q =
      if top.m_Value.GetFinalVertex = v then .ok top.m_Value
      else if !OpenSetContains O top.m_Value.GetFinalVertex then
        (G.GetNodeEdges top.m_Value.GetFinalVertex).bind fun neighbors =>
          pathLoop H G u v fuel (O ++ [top.m_Value.GetFinalVertex])
            (relaxPaths H (O ++ [top.m_Value.GetFinalVertex]) top.m_Value neighbors Q1)
      else pathLoop H G u v fuel O Q1 := by
  simp [pathLoop, PriorityQueue.Empty, PriorityQueue.Top, PriorityQueue.GetTopPriority, hl,
    hpop]

/-- The loop of `GetShortestPath` for a target outside the open set: it returns, with a
path that records a walk to `v` of the least weight, or with the path `u` alone when `v`
cannot be reached. -/
theorem pathLoop_correct {H : StlHeap} (hH : H.Conforms) (G : Graph) (hfit : G.Fits)
    (hnn : G.NonNegative) (her : G.EndsInRange) (u v : Nat) :
    ∀ (fuel : Nat) (O : List Nat) (Q : PriorityQueue Graph.Path ℚ), PathInv G u O Q → v ∉ O →
      Q.m_MinHeap.length + G.pendingWork O < fuel →
      ∃ p, pathLoop H G u v fuel O Q = .ok p ∧
        ((TracesWalk G u p ∧ p.GetFinalVertex = v ∧ G.IsShortest u v p.m_Weight) ∨
          (p = Graph.Path.single u ∧ ¬ G.Reachable u v)) := by
  intro fuel
  induction fuel with
  | zero => intro O Q _ _ hb; omega
  | succ fuel ih =>
    intro O Q hI hv hb
    cases hl : Q.m_MinHeap with
    | nil =>
      refine ⟨_, pathLoop_empty H G u v fuel O Q hl, Or.inr ⟨rfl, fun hr => hv ?_⟩⟩
      exact hI.base.closed (by simp [vertexQueue, hl]) v hr
    | cons top rest =>
      obtain ⟨Q1, hpop, hheap, hperm⟩ := PriorityQueue.Pop_spec hH Q top rest hI.heap hl
      rw [pathLoop_step H G u v fuel O Q Q1 top rest hl hpop]
      rw [hl] at hb
      have htop := hI.valid top (by rw [hl]; exact List.mem_cons_self _ _)
      by_cases htv : top.m_Value.GetFinalVertex = v
      · rw [if_pos htv]
        refine ⟨top.m_Value, rfl, Or.inl ⟨htop.1, htv, ?_⟩⟩
        have := hI.base.top_shortest hnn (entryOf top) (rest.map entryOf)
          (vertexQueue_cons Q top rest hl) (by rw [show (entryOf top).m_Value = v from htv]; exact hv)
        rw [← htop.2, ← htv]
        exact this
      · rw [if_neg htv]
        by_cases hin : top.m_Value.GetFinalVertex ∈ O
        · have hc : OpenSetContains O top.m_Value.GetFinalVertex = true :=
            (OpenSetContains_iff O _).2 hin
          simp only [hc, Bool.not_true, Bool.false_eq_true, if_false]
          refine ih O Q1 (hI.afterSkip top rest hl hin hheap hperm) hv ?_
          rw [hperm.length_eq]
          simp only [List.length_cons] at hb
          omega
        · have hc : OpenSetContains O top.m_Value.GetFinalVertex = false := by
            cases h : OpenSetContains O top.m_Value.GetFinalVertex
            · rfl
            · exact absurd ((OpenSetContains_iff O _).1 h) hin
          simp only [hc, Bool.not_false, if_true]
          have hI1 := hI.afterFinalize hH hnn her top rest hl hin hheap hperm
          have hx : top.m_Value.GetFinalVertex < G.m_EdgeList.length :=
            hI1.base.inRange _ (List.mem_append_right _ (List.mem_singleton_self _))
          rw [GetNodeEdges_of_lt G hfit _ hx, Res.bind_ok]
          refine ih _ _ hI1 ?_ ?_
          · intro h
            rcases List.mem_append.1 h with h | h
            · exact hv h
            · exact htv (List.mem_singleton.1 h).symm
          · exact path_budget_finalize hH G O Q1 _ _ rest fuel hheap hperm hx hin
              (by simpa using hb)

/-- The loop of `GetShortestPathLength` when the target is the source: the result is `-1`
when the queue holds no entry for `u`, and otherwise the least priority of the entries
for `u`. -/
theorem lengthLoop_self_min {H : StlHeap} (hH : H.Conforms) (G : Graph) (hfit : G.Fits)
    (hnn : G.NonNegative) (her : G.EndsInRange) (u : Nat) :
    ∀ (fuel : Nat) (O : List Nat) (Q : PriorityQueue Nat ℚ), Inv G u O Q →
      Q.m_MinHeap.length + G.pendingWork O < fuel →
      ∃ r, lengthLoop H G u fuel O Q = .ok r ∧
        ((∀ el ∈ Q.m_MinHeap, el.m_Value ≠ u) → r = -1) ∧
        ((∃ el ∈ Q.m_MinHeap, el.m_Value = u) →
          (∃ el ∈ Q.m_MinHeap, el.m_Value = u ∧ el.m_Priority = r) ∧
            ∀ el ∈ Q.m_MinHeap, el.m_Value = u → r ≤ el.m_Priority) := by
  intro fuel
  induction fuel with
  | zero => intro O Q _ hb; omega
  | succ fuel ih =>
    intro O Q hI hb
    cases hl : Q.m_MinHeap with
    | nil =>
      refine ⟨-1, lengthLoop_empty H G u fuel O Q hl, fun _ => rfl, ?_⟩
      rintro ⟨el, hel, _⟩
      simp at hel
    | cons top rest =>
      obtain ⟨Q1, hpop, hheap, hperm⟩ := PriorityQueue.Pop_spec hH Q top rest hI.heap hl
      rw [lengthLoop_step H G u fuel O Q Q1 top rest hl hpop]
      have hb1 : (rest.length + 1) + G.pendingWork O < fuel + 1 := by
        rw [hl] at hb
        simpa using hb
      by_cases htv : top.m_Value = u
      · rw [if_pos htv]
        refine ⟨top.m_Priority, rfl, ?_, ?_⟩
        · intro hno
          exact absurd htv (hno top (List.mem_cons_self _ _))
        · intro _
          refine ⟨⟨top, List.mem_cons_self _ _, htv, rfl⟩, ?_⟩
          intro el hel _
          exact PriorityQueue.top_min Q top rest hI.heap hl el (by rw [hl]; exact hel)
      · rw [if_neg htv]
        have hfinish : ∀ (Q2 : PriorityQueue Nat ℚ) (r : ℚ),
            (∀ el, el.m_Value = u → (el ∈ Q2.m_MinHeap ↔ el ∈ rest)) →
            ((∀ el ∈ Q2.m_MinHeap, el.m_Value ≠ u) → r = -1) ∧
            ((∃ el ∈ Q2.m_MinHeap, el.m_Value = u) →
              (∃ el ∈ Q2.m_MinHeap, el.m_Value = u ∧ el.m_Priority = r) ∧
                ∀ el ∈ Q2.m_MinHeap, el.m_Value = u → r ≤ el.m_Priority) →
            ((∀ el ∈ top :: rest, el.m_Value ≠ u) → r = -1) ∧
            ((∃ el ∈ top :: rest, el.m_Value = u) →
              (∃ el ∈ top :: rest, el.m_Value = u ∧ el.m_Priority = r) ∧
                ∀ el ∈ top :: rest, el.m_Value = u → r ≤ el.m_Priority) := by
          intro Q2 r hiff ⟨hA, hB⟩
          constructor
          · intro hno
            apply hA
            intro el hel hv
            exact hno el (List.mem_cons_of_mem _ ((hiff el hv).1 hel)) hv
          · rintro ⟨el, hel, hv⟩
            rcases List.mem_cons.1 hel with rfl | hel
            · exact absurd hv htv
            · obtain ⟨⟨el1, hel1, hv1, hp1⟩, hmin⟩ := hB ⟨el, (hiff el hv).2 hel, hv⟩
              refine ⟨⟨el1, List.mem_cons_of_mem _ ((hiff el1 hv1).1 hel1), hv1, hp1⟩, ?_⟩
              intro el2 hel2 hv2
              rcases List.mem_cons.1 hel2 with rfl | hel2
              · exact absurd hv2 htv
              · exact hmin el2 ((hiff el2 hv2).2 hel2) hv2
        by_cases hin : top.m_Value ∈ O
        · have hc : OpenSetContains O top.m_Value = true := (OpenSetContains_iff O _).2 hin
          simp only [hc, Bool.not_true, Bool.false_eq_true, if_false]
          obtain ⟨r, hr, hAB⟩ := ih O Q1 (hI.skip top rest hl hin hheap hperm)
            (by rw [hperm.length_eq]; omega)
          exact ⟨r, hr, hfinish Q1 r (fun el _ => hperm.mem_iff) hAB⟩
        · have hc : OpenSetContains O top.m_Value = false := by
            cases h : OpenSetContains O top.m_Value
            · rfl
            · exact absurd ((OpenSetContains_iff O _).1 h) hin
          simp only [hc, Bool.not_false, if_true]
          have hI1 := hI.finalize hH hnn her top rest hl hin hheap hperm
          have hx : top.m_Value < G.m_EdgeList.length :=
            hI1.inRange _ (List.mem_append_right _ (List.mem_singleton_self _))
          rw [GetNodeEdges_of_lt G hfit _ hx, Res.bind_ok]
          obtain ⟨_, r2, r3, _, _⟩ := relaxNeighbors_spec hH (O ++ [top.m_Value])
            top.m_Priority (G.adj top.m_Value) Q1 hheap
          obtain ⟨r, hr, hAB⟩ := ih _ _ hI1
            (budget_finalize hH G O Q1 _ _ rest fuel hheap hperm hx hin hb1)
          refine ⟨r, hr, hfinish _ r ?_ hAB⟩
          intro el hv
          constructor
          · intro hel
            rcases r3 el hel with h1 | ⟨e, _, heout, heq⟩
            · exact hperm.mem_iff.1 h1
            · exfalso
              apply heout
              rw [heq] at hv
              rw [show e.m_endVertex = u from hv]
              exact List.mem_append_left _ hI.src
          · intro hel
            exact r2 el (hperm.mem_iff.2 hel)

/-- The loop of `GetShortestPath` when the target is the source: the result is the path
`u` alone when no queued path ends in `u`, and otherwise a queued path that ends in `u`
and has the least priority of the queued paths that end in `u`. -/
theorem pathLoop_self_min {H : StlHeap} (hH : H.Conforms) (G : Graph) (hfit : G.Fits)
    (hnn : G.NonNegative) (her : G.EndsInRange) (u : Nat) :
    ∀ (fuel : Nat) (O : List Nat) (Q : PriorityQueue Graph.Path ℚ), PathInv G u O Q →
      Q.m_MinHeap.length + G.pendingWork O < fuel →
      ∃ p, pathLoop H G u u fuel O Q = .ok p ∧
        ((∀ el ∈ Q.m_MinHeap, el.m_Value.GetFinalVertex ≠ u) → p = Graph.Path.single u) ∧
        ((∃ el ∈ Q.m_MinHeap, el.m_Value.GetFinalVertex = u) →
          (∃ el ∈ Q.m_MinHeap, el.m_Value.GetFinalVertex = u ∧ el.m_Value = p ∧
            el.m_Priority = p.m_Weight) ∧
            ∀ el ∈ Q.m_MinHeap, el.m_Value.GetFinalVertex = u → p.m_Weight ≤ el.m_Priority) := by
  intro fuel
  induction fuel with
  | zero => intro O Q _ hb; omega
  | succ fuel ih =>
    intro O Q hI hb
    cases hl : Q.m_MinHeap with
    | nil =>
      refine ⟨_, pathLoop_empty H G u u fuel O Q hl, fun _ => rfl, ?_⟩
      rintro ⟨el, hel, _⟩
      simp at hel
    | cons top rest =>
      obtain ⟨Q1, hpop, hheap, hperm⟩ := PriorityQueue.Pop_spec hH Q top rest hI.heap hl
      rw [pathLoop_step H G u u fuel O Q Q1 top rest hl hpop]
      have hb1 : (rest.length + 1) + G.pendingWork O < fuel + 1 := by
        rw [hl] at hb
        simpa using hb
      have htop := hI.valid top (by rw [hl]; exact List.mem_cons_self _ _)
      by_cases htv : top.m_Value.GetFinalVertex = u
      · rw [if_pos htv]
        refine ⟨top.m_Value, rfl, ?_, ?_⟩
        · intro hno
          exact absurd htv (hno top (List.mem_cons_self _ _))
        · intro _
          refine ⟨⟨top, List.mem_cons_self _ _, htv, rfl, htop.2⟩, ?_⟩
          intro el hel _
          rw [← htop.2]
          exact PriorityQueue.top_min Q top rest hI.heap hl el (by rw [hl]; exact hel)
      · rw [if_neg htv]
        have hfinish : ∀ (Q2 : PriorityQueue Graph.Path ℚ) (p : Graph.Path),
            (∀ el, el.m_Value.GetFinalVertex = u → (el ∈ Q2.m_MinHeap ↔ el ∈ rest)) →
            ((∀ el ∈ Q2.m_MinHeap, el.m_Value.GetFinalVertex ≠ u) → p = Graph.Path.single u) ∧
            ((∃ el ∈ Q2.m_MinHeap, el.m_Value.GetFinalVertex = u) →
              (∃ el ∈ Q2.m_MinHeap, el.m_Value.GetFinalVertex = u ∧ el.m_Value = p ∧
                el.m_Priority = p.m_Weight) ∧
                ∀ el ∈ Q2.m_MinHeap, el.m_Value.GetFinalVertex = u →
                  p.m_Weight ≤ el.m_Priority) →
            ((∀ el ∈ top :: rest, el.m_Value.GetFinalVertex ≠ u) → p = Graph.Path.single u) ∧
            ((∃ el ∈ top :: rest, el.m_Value.GetFinalVertex = u) →
              (∃ el ∈ top :: rest, el.m_Value.GetFinalVertex = u ∧ el.m_Value = p ∧
                el.m_Priority = p.m_Weight) ∧
                ∀ el ∈ top :: rest, el.m_Value.GetFinalVertex = u →
                  p.m_Weight ≤ el.m_Priority) := by
          intro Q2 p hiff ⟨hA, hB⟩
          constructor
          · intro hno
            apply hA
            intro el hel hv
            exact hno el (List.mem_cons_of_mem _ ((hiff el hv).1 hel)) hv
          · rintro ⟨el, hel, hv⟩
            rcases List.mem_cons.1 hel with rfl | hel
            · exact absurd hv htv
            · obtain ⟨⟨el1, hel1, hv1, hp1⟩, hmin⟩ := hB ⟨el, (hiff el hv).2 hel, hv⟩
              refine ⟨⟨el1, List.mem_cons_of_mem _ ((hiff el1 hv1).1 hel1), hv1, hp1⟩, ?_⟩
              intro el2 hel2 hv2
              rcases List.mem_cons.1 hel2 with rfl | hel2
              · exact absurd hv2 htv
              · exact hmin el2 ((hiff el2 hv2).2 hel2) hv2
        by_cases hin : top.m_Value.GetFinalVertex ∈ O
        · have hc : OpenSetContains O top.m_Value.GetFinalVertex = true :=
            (OpenSetContains_iff O _).2 hin
          simp only [hc, Bool.not_true, Bool.false_eq_true, if_false]
          obtain ⟨p, hp, hAB⟩ := ih O Q1 (hI.afterSkip top rest hl hin hheap hperm)
            (by rw [hperm.length_eq]; omega)
          exact ⟨p, hp, hfinish Q1 p (fun el _ => hperm.mem_iff) hAB⟩
        · have hc : OpenSetContains O top.m_Value.GetFinalVertex = false := by
            cases h : OpenSetContains O top.m_Value.GetFinalVertex
            · rfl
            · exact absurd ((OpenSetContains_iff O _).1 h) hin
          simp only [hc, Bool.not_false, if_true]
          have hI1 := hI.afterFinalize hH hnn her top rest hl hin hheap hperm
          have hx : top.m_Value.GetFinalVertex < G.m_EdgeList.length :=
            hI1.base.inRange _ (List.mem_append_right _ (List.mem_singleton_self _))
          rw [GetNodeEdges_of_lt G hfit _ hx, Res.bind_ok]
          obtain ⟨_, r2, r3, _, _⟩ := relaxPaths_spec hH (O ++ [top.m_Value.GetFinalVertex])
            top.m_Value (G.adj top.m_Value.GetFinalVertex) Q1 hheap
          obtain ⟨p, hp, hAB⟩ := ih _ _ hI1
            (path_budget_finalize hH G O Q1 _ _ rest fuel hheap hperm hx hin hb1)
          refine ⟨p, hp, hfinish _ p ?_ hAB⟩
          intro el hv
          constructor
          · intro hel
            rcases r3 el hel with h1 | ⟨e, _, heout, heq⟩
            · exact hperm.mem_iff.1 h1
            · exfalso
              apply heout
              rw [heq, Graph.Path.GetFinalVertex_extend] at hv
              rw [hv]
              exact List.mem_append_left _ hI.base.src
          · intro hel
            exact r2 el (hperm.mem_iff.2 hel)

theorem GetShortestPath_eq (H : StlHeap) (fuel : Nat) (G : Graph) (hfit : G.Fits)
    (u v : Nat) (hu : u < G.m_EdgeList.length) :
    GetShortestPath H fuel G u v =
      pathLoop H G u v fuel [u]
        (seedPaths H (Graph.Path.single u) (G.adj u) PriorityQueue.empty) := by
  unfold GetShortestPath
  rw [GetNodeEdges_of_lt G hfit u hu, Res.bind_ok]

end ShortestPathAlgorithm

/-! ## Dijkstra: the path query -/

namespace ShortestPathAlgorithm

open Graph

theorem mem_seedNeighbors {H : StlHeap} (hH : H.Conforms) (es : List Edge)
    (el : PriorityQueueElement Nat ℚ) :
    el ∈ (seedNeighbors H es PriorityQueue.empty).m_MinHeap ↔
      ∃ e ∈ es, el = ⟨e.m_endVertex, e.m_Weight⟩ := by
  obtain ⟨_, s2⟩ := seedNeighbors_spec hH es PriorityQueue.empty (IsHeap.nil _)
  rw [s2.mem_iff]
  simp only [PriorityQueue.empty, List.nil_append, List.mem_map]
  constructor
  · rintro ⟨e, he, rfl⟩
    exact ⟨e, he, rfl⟩
  · rintro ⟨e, he, rfl⟩
    exact ⟨e, he, rfl⟩

theorem mem_seedPaths {H : StlHeap} (hH : H.Conforms) (cur : Graph.Path) (es : List Edge)
    (el : PriorityQueueElement Graph.Path ℚ) :
    el ∈ (seedPaths H cur es PriorityQueue.empty).m_MinHeap ↔
      ∃ e ∈ es, el = ⟨cur.extend e, cur.m_Weight + e.m_Weight⟩ := by
  obtain ⟨_, s2⟩ := seedPaths_spec hH cur es PriorityQueue.empty (IsHeap.nil _)
  rw [s2.mem_iff]
  simp only [PriorityQueue.empty, List.nil_append, List.mem_map]
  constructor
  · rintro ⟨e, he, rfl⟩
    exact ⟨e, he, rfl⟩
  · rintro ⟨e, he, rfl⟩
    exact ⟨e, he, rfl⟩

theorem TracesWalk_weight_of_single {G : Graph} {u : Nat} {p : Graph.Path}
    (hp : TracesWalk G u p) (hlen : p.m_Path.length = 1) : p.m_Weight = 0 := by
  obtain ⟨W, _, hpath, hw⟩ := hp
  rw [hpath] at hlen
  have hW : W = [] := by
    cases W with
    | nil => rfl
    | cons e es => simp at hlen
  rw [hw, hW]
  rfl

/-- The path query returns; the path it returns records a walk from `u`, and either is
the path `u` alone or ends in `v`. -/
theorem GetShortestPath_spec {H : StlHeap} (hH : H.Conforms) (G : Graph) (hfit : G.Fits)
    (her : G.EndsInRange) (hnn : G.NonNegative) (u v : Nat) (hu : u < G.m_EdgeList.length)
    (fuel : Nat) (hfuel : G.storedEdges < fuel) :
    ∃ p, GetShortestPath H fuel G u v = .ok p ∧ TracesWalk G u p ∧
      (p = Graph.Path.single u ∨ p.GetFinalVertex = v) := by
  rw [GetShortestPath_eq H fuel G hfit u v hu]
  have hI := PathInv.atStart hH G hnn u hu
  have hb : (seedPaths H (Graph.Path.single u) (G.adj u) PriorityQueue.empty).m_MinHeap.length +
      G.pendingWork [u] < fuel := by
    rw [init_path_budget hH G u hu]
    exact hfuel
  by_cases huv : u = v
  · subst huv
    obtain ⟨p, hp, hA, hB⟩ := pathLoop_self_min hH G hfit hnn her u fuel [u] _ hI hb
    refine ⟨p, hp, ?_⟩
    by_cases hex : ∃ el ∈ (seedPaths H (Graph.Path.single u) (G.adj u)
        PriorityQueue.empty).m_MinHeap, el.m_Value.GetFinalVertex = u
    · obtain ⟨⟨el, hel, hv, hval, _⟩, _⟩ := hB hex
      rw [← hval]
      exact ⟨(hI.valid el hel).1, Or.inr hv⟩
    · have hp1 : p = Graph.Path.single u := hA (fun el hel hv => hex ⟨el, hel, hv⟩)
      rw [hp1]
      exact ⟨TracesWalk_single G u, Or.inl rfl⟩
  · obtain ⟨p, hp, h | h⟩ := pathLoop_correct hH G hfit hnn her u v fuel [u] _ hI
      (fun h => huv (List.mem_singleton.1 h).symm) hb
    · exact ⟨p, hp, h.1, Or.inr h.2.1⟩
    · refine ⟨p, hp, ?_, Or.inl h.1⟩
      rw [h.1]
      exact TracesWalk_single G u

/-- Claim C19: on a graph whose vertex count fits, whose stored edges end in vertices of
the graph and have non-negative weights, for a vertex `u` of the graph and any `v`,
`GetShortestPath(G, u, v)` returns (any iteration budget above the number of stored edges
is enough) a path that records a walk `W` along stored edges: its vertices are `u`
followed by the end vertices of the edges of `W`, each edge being taken from the list of
the vertex reached before it, and its weight is the sum of the weights of these edges.
When the path has more than one vertex it ends in `v`; when it has one vertex its weight
is 0. -/
theorem GetShortestPath_follows_edges {H : StlHeap} (hH : H.Conforms) (G : Graph)
    (hfit : G.Fits) (her : G.EndsInRange) (hnn : G.NonNegative) (u v : Nat)
    (hu : u < G.m_EdgeList.length) (fuel : Nat) (hfuel : G.storedEdges < fuel) :
    ∃ p, GetShortestPath H fuel G u v = .ok p ∧
      (∃ W, G.IsWalk u W p.GetFinalVertex ∧
        p.GetPath = u :: W.map (fun e => e.m_endVertex) ∧ p.GetWeight = walkWeight W) ∧
      (1 < p.GetPath.length → p.GetFinalVertex = v) ∧
      (p.GetPath.length = 1 → p.GetWeight = 0) := by
  obtain ⟨p, hp, hT, hend⟩ := GetShortestPath_spec hH G hfit her hnn u v hu fuel hfuel
  refine ⟨p, hp, hT, ?_, fun h => TracesWalk_weight_of_single hT h⟩
  intro hlen
  rcases hend with h | h
  · rw [h] at hlen
    simp [Graph.Path.GetPath, Graph.Path.single] at hlen
  · exact h

/-- Witness for `GetShortestPath_follows_edges`: the graph built by `AddEdge(0,1,1)`,
`AddEdge(1,2,2)`, `AddEdge(0,2,5)` on `Graph(3)`, from vertex 0 to vertex 2; the path
returned there is 0, 1, 2 with weight 3. -/
theorem GetShortestPath_follows_edges_witness :
    ((GetShortestPath binaryHeap 7 triangleGraph 0 2).bind
        fun p => .ok (p.GetPath, p.GetWeight)) = .ok ([0, 1, 2], 3) ∧
      ∃ p, GetShortestPath binaryHeap 7 triangleGraph 0 2 = .ok p ∧
        (∃ W, triangleGraph.IsWalk 0 W p.GetFinalVertex ∧
          p.GetPath = 0 :: W.map (fun e => e.m_endVertex) ∧ p.GetWeight = walkWeight W) ∧
        (1 < p.GetPath.length → p.GetFinalVertex = 2) ∧
        (p.GetPath.length = 1 → p.GetWeight = 0) :=
  ⟨by decide!,
    GetShortestPath_follows_edges binaryHeap_conforms triangleGraph (by decide)
      (EndsInRange_of_lists _ (by decide)) (NonNegative_of_lists _ (by decide!)) 0 2
      (by decide) 7 (by decide)⟩

/-- Claim C20: on a graph whose vertex count fits, whose stored edges end in vertices of
the graph and have non-negative weights, for a vertex `u` of the graph and any `v`, both
searches return (any iteration budget above the number of stored edges is enough); if
`GetShortestPathLength(G, u, v)` is `-1` then `GetShortestPath(G, u, v)` is the path `u`
alone with weight 0, and otherwise `GetShortestPath(G, u, v)` is a path that ends in `v`
and whose weight is the value of `GetShortestPathLength(G, u, v)`. -/
theorem GetShortestPath_agrees_with_length {H : StlHeap} (hH : H.Conforms) (G : Graph)
    (hfit : G.Fits) (her : G.EndsInRange) (hnn : G.NonNegative) (u v : Nat)
    (hu : u < G.m_EdgeList.length) (fuel : Nat) (hfuel : G.storedEdges < fuel) :
    ∃ r p, GetShortestPathLength H fuel G u v = .ok r ∧ GetShortestPath H fuel G u v = .ok p ∧
      (r = -1 → p.GetPath = [u] ∧ p.GetWeight = 0) ∧
      (r ≠ -1 → p.GetFinalVertex = v ∧ p.GetWeight = r) := by
  by_cases huv : u = v
  · subst huv
    rw [GetShortestPathLength_eq H fuel G hfit u u hu, GetShortestPath_eq H fuel G hfit u u hu]
    obtain ⟨r, hr, hA, hB⟩ := lengthLoop_self_min hH G hfit hnn her u fuel [u] _
      (Inv.init hH G hnn u hu) (by rw [init_budget hH G u hu]; exact hfuel)
    obtain ⟨p, hp, hC, hD⟩ := pathLoop_self_min hH G hfit hnn her u fuel [u] _
      (PathInv.atStart hH G hnn u hu) (by rw [init_path_budget hH G u hu]; exact hfuel)
    refine ⟨r, p, hr, hp, ?_⟩
    by_cases hex : ∃ e ∈ G.adj u, e.m_endVertex = u
    · obtain ⟨e0, he0, hend0⟩ := hex
      obtain ⟨⟨el1, hel1, hv1, hp1⟩, hmin1⟩ := hB
        ⟨⟨e0.m_endVertex, e0.m_Weight⟩, (mem_seedNeighbors hH _ _).2 ⟨e0, he0, rfl⟩, hend0⟩
      obtain ⟨⟨el2, hel2, hv2, hval2, hp2⟩, hmin2⟩ := hD
        ⟨⟨(Graph.Path.single u).extend e0, (Graph.Path.single u).m_Weight + e0.m_Weight⟩,
          (mem_seedPaths hH _ _ _).2 ⟨e0, he0, rfl⟩, by
            rw [Graph.Path.GetFinalVertex_extend]; exact hend0⟩
      obtain ⟨e1, he1, heq1⟩ := (mem_seedNeighbors hH _ _).1 hel1
      obtain ⟨e2, he2, heq2⟩ := (mem_seedPaths hH _ _ _).1 hel2
      have hend1 : e1.m_endVertex = u := by rw [heq1] at hv1; exact hv1
      have hend2 : e2.m_endVertex = u := by
        rw [heq2, Graph.Path.GetFinalVertex_extend] at hv2; exact hv2
      have hr1 : r = e1.m_Weight := by rw [← hp1, heq1]
      have hw2 : p.m_Weight = 0 + e2.m_Weight := by rw [← hp2, heq2]; rfl
      have hle1 : r ≤ e2.m_Weight :=
        hmin1 ⟨e2.m_endVertex, e2.m_Weight⟩ ((mem_seedNeighbors hH _ _).2 ⟨e2, he2, rfl⟩) hend2
      have hle2 : p.m_Weight ≤ 0 + e1.m_Weight :=
        hmin2 ⟨(Graph.Path.single u).extend e1, (Graph.Path.single u).m_Weight + e1.m_Weight⟩
          ((mem_seedPaths hH _ _ _).2 ⟨e1, he1, rfl⟩)
          (by rw [Graph.Path.GetFinalVertex_extend]; exact hend1)
      have hnn1 := hnn u e1 he1
      have hrw : p.m_Weight = r := by linarith
      refine ⟨fun h => ?_, fun _ => ⟨?_, hrw⟩⟩
      · exfalso
        linarith
      · rw [← hval2]
        exact hv2
    · have hr1 : r = -1 := by
        apply hA
        intro el hel hv
        obtain ⟨e, he, heq⟩ := (mem_seedNeighbors hH _ _).1 hel
        rw [heq] at hv
        exact hex ⟨e, he, hv⟩
      have hp1 : p = Graph.Path.single u := by
        apply hC
        intro el hel hv
        obtain ⟨e, he, heq⟩ := (mem_seedPaths hH _ _ _).1 hel
        rw [heq, Graph.Path.GetFinalVertex_extend] at hv
        exact hex ⟨e, he, hv⟩
      refine ⟨fun _ => ?_, fun h => absurd hr1 h⟩
      rw [hp1]
      exact ⟨rfl, rfl⟩
  · obtain ⟨r, hr, hR⟩ := GetShortestPathLength_spec hH G hfit her hnn u v hu huv fuel hfuel
    rw [GetShortestPath_eq H fuel G hfit u v hu]
    obtain ⟨p, hp, hP⟩ := pathLoop_correct hH G hfit hnn her u v fuel [u] _
      (PathInv.atStart hH G hnn u hu) (fun h => huv (List.mem_singleton.1 h).symm)
      (by rw [init_path_budget hH G u hu]; exact hfuel)
    refine ⟨r, p, hr, hp, ?_⟩
    rcases hR with hs | ⟨hneg, hno⟩
    · obtain ⟨⟨W, hW, hw⟩, hmin⟩ := hs
      have hpos : 0 ≤ r := by rw [← hw]; exact walkWeight_nonneg G hnn W u v hW
      rcases hP with ⟨_, hend, hs2⟩ | ⟨_, hno⟩
      · refine ⟨fun h => ?_,
          fun _ => ⟨hend, IsShortest_unique G u v _ _ hs2 ⟨⟨W, hW, hw⟩, hmin⟩⟩⟩
        exfalso
        linarith
      · exact absurd ⟨W, hW⟩ hno
    · rcases hP with ⟨_, _, ⟨⟨W, hW, _⟩, _⟩⟩ | ⟨hsingle, _⟩
      · exact absurd ⟨W, hW⟩ hno
      · refine ⟨fun _ => ?_, fun h => absurd hneg h⟩
        rw [hsingle]
        exact ⟨rfl, rfl⟩

/-- Witness for `GetShortestPath_agrees_with_length`: on the triangle graph from 0 to 2
both searches give 3, the path being 0, 1, 2; on the graph built by `AddEdge(0,1,1)` on
`Graph(2)`, from 0 to 0, the length is `-1` and the path is 0 alone with weight 0. -/
theorem GetShortestPath_agrees_with_length_witness :
    GetShortestPathLength binaryHeap 7 triangleGraph 0 2 = .ok 3 ∧
      ((GetShortestPath binaryHeap 7 triangleGraph 0 2).bind
        fun p => .ok (p.GetPath, p.GetWeight)) = .ok ([0, 1, 2], 3) ∧
      GetShortestPathLength binaryHeap 3 pairGraph 0 0 = .ok (-1) ∧
      ((GetShortestPath binaryHeap 3 pairGraph 0 0).bind
        fun p => .ok (p.GetPath, p.GetWeight)) = .ok ([0], 0) ∧
      ∃ r p, GetShortestPathLength binaryHeap 7 triangleGraph 0 2 = .ok r ∧
        GetShortestPath binaryHeap 7 triangleGraph 0 2 = .ok p ∧
        (r = -1 → p.GetPath = [0] ∧ p.GetWeight = 0) ∧
        (r ≠ -1 → p.GetFinalVertex = 2 ∧ p.GetWeight = r) :=
  ⟨by decide!, by decide!, by decide!, by decide!,
    GetShortestPath_agrees_with_length binaryHeap_conforms triangleGraph (by decide)
      (EndsInRange_of_lists _ (by decide)) (NonNegative_of_lists _ (by decide!)) 0 2
      (by decide) 7 (by decide)⟩

end ShortestPathAlgorithm

/-! ## Mutators on ids past the end -/

namespace Graph

theorem Adjacent_far (G : Graph) (hfit : G.Fits) (v1 v2 : Nat)
    (h : G.m_EdgeList.length + 1 < v1 ∨ G.m_EdgeList.length + 1 < v2) :
    G.Adjacent v1 v2 = .ok false := by
  unfold Adjacent
  rw [rangeBound_of_fits G hfit, if_pos h]

theorem Adjacent_past_end (G : Graph) (hfit : G.Fits) (v1 v2 : Nat)
    (h1 : G.m_EdgeList.length ≤ v1) (h1' : v1 ≤ G.m_EdgeList.length + 1)
    (h2 : v2 ≤ G.m_EdgeList.length + 1) : G.Adjacent v1 v2 = .outOfBounds := by
  unfold Adjacent
  rw [rangeBound_of_fits G hfit, if_neg (by omega), List.getElem?_eq_none h1]

theorem pushBackAt_past_end (ls : List (List Edge)) (i : Nat) (e : Edge) (h : ls.length ≤ i) :
    pushBackAt ls i e = .outOfBounds := by
  unfold pushBackAt
  rw [List.getElem?_eq_none h]

/-- On a graph whose stored edges end in vertices of the graph, `AddEdge` with an id that
is not a vertex always indexes the adjacency vector outside its bounds: in the scan of
`Adjacent` when `v1` is one of the two ids just past the end, in a `push_back` otherwise. -/
theorem AddEdge_out_of_range (G : Graph) (hfit : G.Fits) (her : G.EndsInRange) (v1 v2 : Nat)
    (w : ℚ) (h : G.m_EdgeList.length ≤ v1 ∨ G.m_EdgeList.length ≤ v2) :
    G.AddEdge v1 v2 w = .outOfBounds := by
  have hpush : ∀ (hA : G.Adjacent v1 v2 = .ok false), G.AddEdge v1 v2 w = .outOfBounds := by
    intro hA
    unfold AddEdge
    rw [hA]
    simp only [Res.bind_ok, Bool.not_false, if_true]
    by_cases hv1 : G.m_EdgeList.length ≤ v1
    · rw [pushBackAt_past_end _ _ _ hv1]
      rfl
    · have hv1' : v1 < G.m_EdgeList.length := by omega
      have hv2 : G.m_EdgeList.length ≤ v2 := by omega
      unfold pushBackAt
      rw [List.getElem?_eq_getElem hv1']
      simp only [Res.bind_ok]
      rw [List.getElem?_eq_none (by simpa using hv2)]
      rfl
  by_cases hfar : G.m_EdgeList.length + 1 < v1 ∨ G.m_EdgeList.length + 1 < v2
  · exact hpush (Adjacent_far G hfit v1 v2 hfar)
  · by_cases hv1 : G.m_EdgeList.length ≤ v1
    · unfold AddEdge
      rw [Adjacent_past_end G hfit v1 v2 hv1 (by omega) (by omega)]
      rfl
    · have hv1' : v1 < G.m_EdgeList.length := by omega
      have hv2 : G.m_EdgeList.length ≤ v2 := by omega
      apply hpush
      have hany : (G.adj v1).any (fun e => e.GetEndVertexNumber == v2) = false := by
        rw [Bool.eq_false_iff]
        intro hc
        obtain ⟨e, he, heq⟩ := List.any_eq_true.1 hc
        have := her v1 e he
        simp only [Edge.GetEndVertexNumber, beq_iff_eq] at heq
        omega
      unfold Adjacent
      rw [rangeBound_of_fits G hfit, if_neg (by omega), adj_of_lt G v1 hv1']
      simp only [hany]

/-- `DeleteEdge` and `SetEdgeValue` with `v1` one of the two ids just past the end (and
`v2` not beyond them) index the adjacency vector outside its bounds. -/
theorem DeleteEdge_SetEdgeValue_past_end (G : Graph) (hfit : G.Fits) (v1 v2 : Nat) (w : ℚ)
    (h1 : G.m_EdgeList.length ≤ v1) (h1' : v1 ≤ G.m_EdgeList.length + 1)
    (h2 : v2 ≤ G.m_EdgeList.length + 1) (hne : v1 ≠ v2) :
    G.DeleteEdge v1 v2 = .outOfBounds ∧ G.SetEdgeValue v1 v2 w = .outOfBounds := by
  have hA := Adjacent_past_end G hfit v1 v2 h1 h1' h2
  constructor
  · unfold DeleteEdge
    rw [if_neg hne, hA]
    rfl
  · unfold SetEdgeValue
    rw [hA]
    rfl

/-- `DeleteEdge` and `SetEdgeValue` with an id beyond the two ids just past the end
return the graph unchanged. -/
theorem DeleteEdge_SetEdgeValue_far (G : Graph) (hfit : G.Fits) (v1 v2 : Nat) (w : ℚ)
    (h : G.m_EdgeList.length + 1 < v1 ∨ G.m_EdgeList.length + 1 < v2) :
    G.DeleteEdge v1 v2 = .ok G ∧ G.SetEdgeValue v1 v2 w = .ok G :=
  ⟨DeleteEdge_of_not_adjacent G v1 v2 (Or.inr (Adjacent_far G hfit v1 v2 h)),
    SetEdgeValue_of_not_adjacent G v1 v2 w (Adjacent_far G hfit v1 v2 h)⟩

/-- Claim C22 (failing input): on `Graph(3)`, `AddEdge` indexes `m_EdgeList` outside its
bounds for every choice of an id that is not a vertex (3, 4 or 7, as `v1` or as `v2`);
`DeleteEdge` and `SetEdgeValue` do so when `v1` is 3 or 4, and return the graph
unchanged when `v1` is 7 or when `v1` is a vertex and `v2` is not. -/
theorem mutators_index_past_end :
    (ofSize 3).AddEdge 3 0 1 = .outOfBounds ∧ (ofSize 3).AddEdge 4 0 1 = .outOfBounds ∧
    (ofSize 3).AddEdge 7 0 1 = .outOfBounds ∧ (ofSize 3).AddEdge 0 3 1 = .outOfBounds ∧
    (ofSize 3).AddEdge 0 4 1 = .outOfBounds ∧ (ofSize 3).AddEdge 0 7 1 = .outOfBounds ∧
    (ofSize 3).DeleteEdge 3 0 = .outOfBounds ∧ (ofSize 3).DeleteEdge 4 0 = .outOfBounds ∧
    (ofSize 3).SetEdgeValue 3 0 1 = .outOfBounds ∧
    (ofSize 3).SetEdgeValue 4 0 1 = .outOfBounds ∧
    (ofSize 3).DeleteEdge 7 0 = .ok (ofSize 3) ∧ (ofSize 3).SetEdgeValue 7 0 1 = .ok (ofSize 3) ∧
    (ofSize 3).DeleteEdge 0 3 = .ok (ofSize 3) ∧ (ofSize 3).SetEdgeValue 0 3 1 = .ok (ofSize 3) ∧
    (ofSize 3).DeleteEdge 0 7 = .ok (ofSize 3) ∧
    (ofSize 3).SetEdgeValue 0 7 1 = .ok (ofSize 3) := by
  decide!

end Graph

/-! ## ChangePriority -/

namespace PriorityQueue

variable {V P : Type}

theorem setFirstPriority_length [BEq V] (value : V) (priority : P)
    (l : List (PriorityQueueElement V P)) :
    (setFirstPriority value priority l).length = l.length := by
  induction l with
  | nil => rfl
  | cons e es ih =>
    unfold setFirstPriority
    by_cases h : (e.m_Value == value) = true
    · rw [if_pos h]
      rfl
    · rw [if_neg h, List.length_cons, List.length_cons, ih]

theorem setFirstPriority_values [BEq V] (value : V) (priority : P)
    (l : List (PriorityQueueElement V P)) :
    (setFirstPriority value priority l).map (fun el => el.m_Value) =
      l.map (fun el => el.m_Value) := by
  induction l with
  | nil => rfl
  | cons e es ih =>
    unfold setFirstPriority
    by_cases h : (e.m_Value == value) = true
    · rw [if_pos h]
      rfl
    · rw [if_neg h, List.map_cons, List.map_cons, ih]

theorem setFirstPriority_absent [BEq V] (value : V) (priority : P)
    (l : List (PriorityQueueElement V P)) (h : ∀ el ∈ l, (el.m_Value == value) = false) :
    setFirstPriority value priority l = l := by
  induction l with
  | nil => rfl
  | cons e es ih =>
    unfold setFirstPriority
    have he : ¬ (e.m_Value == value) = true := by
      rw [h e (List.mem_cons_self _ _)]
      simp
    rw [if_neg he, ih (fun el hel => h el (List.mem_cons_of_mem _ hel))]

theorem setFirstPriority_first [BEq V] (value : V) (priority : P)
    (a : List (PriorityQueueElement V P)) (e : PriorityQueueElement V P)
    (b : List (PriorityQueueElement V P)) (ha : ∀ el ∈ a, (el.m_Value == value) = false)
    (he : (e.m_Value == value) = true) :
    setFirstPriority value priority (a ++ e :: b) = a ++ ⟨e.m_Value, priority⟩ :: b := by
  induction a with
  | nil =>
    simp only [List.nil_append]
    unfold setFirstPriority
    rw [if_pos he]
  | cons e1 es ih =>
    simp only [List.cons_append]
    unfold setFirstPriority
    have he1 : ¬ (e1.m_Value == value) = true := by
      rw [ha e1 (List.mem_cons_self _ _)]
      simp
    rw [if_neg he1, ih (fun el hel => ha el (List.mem_cons_of_mem _ hel))]

/-- Claim C23: `ChangePriority(value, p)` keeps `Size` and the value stored at every
position; when no stored value equals `value` the queue is unchanged; otherwise the first
entry, in storage order, whose value equals `value` gets priority `p` and every other
entry stays as it was. No heap order is restored: on the queue built by `Insert(1, 1)`,
`Insert(2, 2)` (heap functions of the GNU library), after `ChangePriority(1, 5)` the
vector is `(1,5), (2,2)`, so `GetTopPriority()` is 5 while the entry `(2,2)` is stored. -/
theorem ChangePriority_in_place :
    (∀ (V P : Type) [BEq V] (q : PriorityQueue V P) (value : V) (priority : P),
      (q.ChangePriority value priority).Size = q.Size ∧
      (q.ChangePriority value priority).m_MinHeap.map (fun el => el.m_Value) =
        q.m_MinHeap.map (fun el => el.m_Value) ∧
      ((∀ el ∈ q.m_MinHeap, (el.m_Value == value) = false) →
        q.ChangePriority value priority = q) ∧
      (∀ (a : List (PriorityQueueElement V P)) (e : PriorityQueueElement V P)
          (b : List (PriorityQueueElement V P)),
        q.m_MinHeap = a ++ e :: b → (∀ el ∈ a, (el.m_Value == value) = false) →
        (e.m_Value == value) = true →
        (q.ChangePriority value priority).m_MinHeap = a ++ ⟨e.m_Value, priority⟩ :: b)) ∧
    (((PriorityQueue.empty.Insert binaryHeap 1 1).Insert binaryHeap 2 2 :
        PriorityQueue Nat ℚ).ChangePriority 1 5).m_MinHeap = [⟨1, 5⟩, ⟨2, 2⟩] ∧
    (((PriorityQueue.empty.Insert binaryHeap 1 1).Insert binaryHeap 2 2 :
        PriorityQueue Nat ℚ).ChangePriority 1 5).GetTopPriority = .ok 5 ∧
    (⟨2, 2⟩ : PriorityQueueElement Nat ℚ) ∈
      (((PriorityQueue.empty.Insert binaryHeap 1 1).Insert binaryHeap 2 2 :
        PriorityQueue Nat ℚ).ChangePriority 1 5).m_MinHeap ∧
    (2 : ℚ) < 5 := by
  refine ⟨?_, by decide!, by decide!, by decide!, by norm_num⟩
  intro V P _ q value priority
  refine ⟨setFirstPriority_length value priority q.m_MinHeap,
    setFirstPriority_values value priority q.m_MinHeap, ?_, ?_⟩
  · intro h
    show PriorityQueue.mk (setFirstPriority value priority q.m_MinHeap) = q
    rw [setFirstPriority_absent value priority q.m_MinHeap h]
  · intro a e b hq ha he
    show setFirstPriority value priority q.m_MinHeap = _
    rw [hq]
    exact setFirstPriority_first value priority a e b ha he

end PriorityQueue

/-! ## Termination of the searches -/

namespace Graph

theorem StartsInRange_of_lists (G : Graph)
    (h : ∀ l ∈ G.m_EdgeList, ∀ e ∈ l, e.m_startVertex < G.m_EdgeList.length) :
    G.StartsInRange := by
  intro x e he
  by_cases hx : x < G.m_EdgeList.length
  · have hl : G.adj x ∈ G.m_EdgeList := by
      have := adj_of_lt G x hx
      exact List.getElem?_mem this
    exact h _ hl e he
  · rw [adj_of_ge G x (by omega)] at he
    simp at he

/-- On vertices of a graph `AddEdge` never indexes out of bounds, and it keeps the number
of vertices. -/
theorem AddEdge_total (G : Graph) (hfit : G.Fits) (v1 v2 : Nat) (w : ℚ)
    (h1 : v1 < G.m_EdgeList.length) (h2 : v2 < G.m_EdgeList.length) :
    ∃ G1, G.AddEdge v1 v2 w = .ok G1 ∧ G1.m_EdgeList.length = G.m_EdgeList.length := by
  by_cases hadj : ∃ e ∈ G.adj v1, e.m_endVertex = v2
  · exact ⟨G, AddEdge_of_adjacent G v1 v2 w ((Adjacent_true_iff G hfit v1 v2 h1 h2).2 hadj), rfl⟩
  · obtain ⟨G1, hG1, hlen, _, _⟩ := AddEdge_new G hfit v1 v2 w h1 h2
      (fun e he h => hadj ⟨e, he, h⟩)
    exact ⟨G1, hG1, hlen⟩

end Graph

namespace ShortestPathAlgorithm

open Graph

/-- The loop of `GetShortestPathLength` returns, whatever the weights: every pass pops an
entry, and entries are pushed only when a vertex enters the open set, which happens once
per vertex. -/
theorem lengthLoop_returns {H : StlHeap} (hH : H.Conforms) (G : Graph) (hfit : G.Fits)
    (her : G.EndsInRange) (v : Nat) :
    ∀ (fuel : Nat) (O : List Nat) (Q : PriorityQueue Nat ℚ), IsHeap Compare Q.m_MinHeap →
      (∀ el ∈ Q.m_MinHeap, el.m_Value < G.m_EdgeList.length) →
      Q.m_MinHeap.length + G.pendingWork O < fuel →
      ∃ r, lengthLoop H G v fuel O Q = .ok r := by
  intro fuel
  induction fuel with
  | zero => intro O Q _ _ hb; omega
  | succ fuel ih =>
    intro O Q hq hin hb
    cases hl : Q.m_MinHeap with
    | nil => exact ⟨-1, lengthLoop_empty H G v fuel O Q hl⟩
    | cons top rest =>
      obtain ⟨Q1, hpop, hheap, hperm⟩ := PriorityQueue.Pop_spec hH Q top rest hq hl
      rw [lengthLoop_step H G v fuel O Q Q1 top rest hl hpop]
      have hb1 : (rest.length + 1) + G.pendingWork O < fuel + 1 := by
        rw [hl] at hb
        simpa using hb
      have hQ1 : ∀ el ∈ Q1.m_MinHeap, el.m_Value < G.m_EdgeList.length := fun el hel =>
        hin el (by rw [hl]; exact List.mem_cons_of_mem _ (hperm.mem_iff.1 hel))
      by_cases htv : top.m_Value = v
      · rw [if_pos htv]
        exact ⟨_, rfl⟩
      · rw [if_neg htv]
        by_cases hmem : top.m_Value ∈ O
        · have hc : OpenSetContains O top.m_Value = true := (OpenSetContains_iff O _).2 hmem
          simp only [hc, Bool.not_true, Bool.false_eq_true, if_false]
          exact ih O Q1 hheap hQ1 (by rw [hperm.length_eq]; omega)
        · have hc : OpenSetContains O top.m_Value = false := by
            cases h : OpenSetContains O top.m_Value
            · rfl
            · exact absurd ((OpenSetContains_iff O _).1 h) hmem
          simp only [hc, Bool.not_false, if_true]
          have hx : top.m_Value < G.m_EdgeList.length :=
            hin top (by rw [hl]; exact List.mem_cons_self _ _)
          rw [GetNodeEdges_of_lt G hfit _ hx, Res.bind_ok]
          obtain ⟨r1, _, r3, _, _⟩ := relaxNeighbors_spec hH (O ++ [top.m_Value])
            top.m_Priority (G.adj top.m_Value) Q1 hheap
          refine ih _ _ r1 ?_ (budget_finalize hH G O Q1 _ _ rest fuel hheap hperm hx hmem hb1)
          intro el hel
          rcases r3 el hel with h | ⟨e, he, _, heq⟩
          · exact hQ1 el h
          · rw [heq]
            exact her _ e he

/-- The loop of `AverageShortestPath` returns, whatever the weights, and no vertex is
twice in the open set it ends with. -/
theorem averageLoop_returns {H : StlHeap} (hH : H.Conforms) (G : Graph) (hfit : G.Fits)
    (her : G.EndsInRange) :
    ∀ (fuel : Nat) (O : List Nat) (Q : PriorityQueue Nat ℚ) (sum : ℚ),
      IsHeap Compare Q.m_MinHeap →
      (∀ el ∈ Q.m_MinHeap, el.m_Value < G.m_EdgeList.length) → O.Nodup →
      Q.m_MinHeap.length + G.pendingWork O < fuel →
      ∃ O1 sum1, averageLoop H G fuel O Q sum = .ok (O1, sum1) ∧ O1.Nodup := by
  intro fuel
  induction fuel with
  | zero => intro O Q _ _ _ _ hb; omega
  | succ fuel ih =>
    intro O Q sum hq hin hnd hb
    cases hl : Q.m_MinHeap with
    | nil => exact ⟨O, sum, averageLoop_empty H G fuel O Q sum hl, hnd⟩
    | cons top rest =>
      obtain ⟨Q1, hpop, hheap, hperm⟩ := PriorityQueue.Pop_spec hH Q top rest hq hl
      rw [averageLoop_step H G fuel O Q Q1 sum top rest hl hpop]
      have hb1 : (rest.length + 1) + G.pendingWork O < fuel + 1 := by
        rw [hl] at hb
        simpa using hb
      have hQ1 : ∀ el ∈ Q1.m_MinHeap, el.m_Value < G.m_EdgeList.length := fun el hel =>
        hin el (by rw [hl]; exact List.mem_cons_of_mem _ (hperm.mem_iff.1 hel))
      by_cases hmem : top.m_Value ∈ O
      · have hc : OpenSetContains O top.m_Value = true := (OpenSetContains_iff O _).2 hmem
        simp only [hc, Bool.not_true, Bool.false_eq_true, if_false]
        exact ih O Q1 sum hheap hQ1 hnd (by rw [hperm.length_eq]; omega)
      · have hc : OpenSetContains O top.m_Value = false := by
          cases h : OpenSetContains O top.m_Value
          · rfl
          · exact absurd ((OpenSetContains_iff O _).1 h) hmem
        simp only [hc, Bool.not_false, if_true]
        have hx : top.m_Value < G.m_EdgeList.length :=
          hin top (by rw [hl]; exact List.mem_cons_self _ _)
        rw [GetNodeEdges_of_lt G hfit _ hx, Res.bind_ok]
        obtain ⟨r1, _, r3, _, _⟩ := relaxNeighbors_spec hH (O ++ [top.m_Value])
          top.m_Priority (G.adj top.m_Value) Q1 hheap
        refine ih _ _ _ r1 ?_ ?_
          (budget_finalize hH G O Q1 _ _ rest fuel hheap hperm hx hmem hb1)
        · intro el hel
          rcases r3 el hel with h | ⟨e, he, _, heq⟩
          · exact hQ1 el h
          · rw [heq]
            exact her _ e he
        · exact List.Nodup.append hnd (List.nodup_singleton _)
            (by
              intro a ha hb2
              rw [List.mem_singleton.1 hb2] at ha
              exact hmem ha)

/-- The loop of `GetShortestPath` returns, whatever the weights. -/
theorem pathLoop_returns {H : StlHeap} (hH : H.Conforms) (G : Graph) (hfit : G.Fits)
    (her : G.EndsInRange) (u v : Nat) :
    ∀ (fuel : Nat) (O : List Nat) (Q : PriorityQueue Graph.Path ℚ),
      IsHeap Compare Q.m_MinHeap →
      (∀ el ∈ Q.m_MinHeap, el.m_Value.GetFinalVertex < G.m_EdgeList.length) →
      Q.m_MinHeap.length + G.pendingWork O < fuel →
      ∃ p, pathLoop H G u v fuel O Q = .ok p := by
  intro fuel
  induction fuel with
  | zero => intro O Q _ _ hb; omega
  | succ fuel ih =>
    intro O Q hq hin hb
    cases hl : Q.m_MinHeap with
    | nil => exact ⟨_, pathLoop_empty H G u v fuel O Q hl⟩
    | cons top rest =>
      obtain ⟨Q1, hpop, hheap, hperm⟩ := PriorityQueue.Pop_spec hH Q top rest hq hl
      rw [pathLoop_step H G u v fuel O Q Q1 top rest hl hpop]
      have hb1 : (rest.length + 1) + G.pendingWork O < fuel + 1 := by
        rw [hl] at hb
        simpa using hb
      have hQ1 : ∀ el ∈ Q1.m_MinHeap, el.m_Value.GetFinalVertex < G.m_EdgeList.length :=
        fun el hel =>
          hin el (by rw [hl]; exact List.mem_cons_of_mem _ (hperm.mem_iff.1 hel))
      by_cases htv : top.m_Value.GetFinalVertex = v
      · rw [if_pos htv]
        exact ⟨_, rfl⟩
      · rw [if_neg htv]
        by_cases hmem : top.m_Value.GetFinalVertex ∈ O
        · have hc : OpenSetContains O top.m_Value.GetFinalVertex = true :=
            (OpenSetContains_iff O _).2 hmem
          simp only [hc, Bool.not_true, Bool.false_eq_true, if_false]
          exact ih O Q1 hheap hQ1 (by rw [hperm.length_eq]; omega)
        · have hc : OpenSetContains O top.m_Value.GetFinalVertex = false := by
            cases h : OpenSetContains O top.m_Value.GetFinalVertex
            · rfl
            · exact absurd ((OpenSetContains_iff O _).1 h) hmem
          simp only [hc, Bool.not_false, if_true]
          have hx : top.m_Value.GetFinalVertex < G.m_EdgeList.length :=
            hin top (by rw [hl]; exact List.mem_cons_self _ _)
          rw [GetNodeEdges_of_lt G hfit _ hx, Res.bind_ok]
          obtain ⟨r1, _, r3, _, _⟩ := relaxPaths_spec hH (O ++ [top.m_Value.GetFinalVertex])
            top.m_Value (G.adj top.m_Value.GetFinalVertex) Q1 hheap
          refine ih _ _ r1 ?_
            (path_budget_finalize hH G O Q1 _ _ rest fuel hheap hperm hx hmem hb1)
          intro el hel
          rcases r3 el hel with h | ⟨e, he, _, heq⟩
          · exact hQ1 el h
          · rw [heq, Graph.Path.GetFinalVertex_extend]
            exact her _ e he

end ShortestPathAlgorithm

namespace Graph

/-- The outer loop of `PrimMST` returns, whatever the weights and whether or not the
edges are mirrored, and no vertex is twice in the close set it ends with. -/
theorem primLoop_returns {H : StlHeap} (hH : H.Conforms) (src : Graph) (hfit : src.Fits)
    (hst : src.StartsInRange) (her : src.EndsInRange) :
    ∀ (fuel : Nat) (s : PrimState), IsHeap Compare s.PQ.m_MinHeap →
      (∀ el ∈ s.PQ.m_MinHeap, el.m_Value.m_startVertex < src.m_EdgeList.length ∧
        el.m_Value.m_endVertex < src.m_EdgeList.length) →
      s.G.m_EdgeList.length = src.m_EdgeList.length → s.closeSet.Nodup →
      s.PQ.m_MinHeap.length + src.pendingWork s.closeSet < fuel →
      ∃ s1, primLoop H src fuel s = .ok s1 ∧ s1.closeSet.Nodup := by
  intro fuel
  induction fuel with
  | zero => intro s _ _ _ _ hb; omega
  | succ fuel ih =>
    intro s hq hin hsize hnd hb
    by_cases hcond : s.closeSet.length ≠ s.G.GetVerticesAmount ∧ s.PQ.Size > 0
    swap
    · exact ⟨s, primLoop_exit H src fuel s hcond, hnd⟩
    · obtain ⟨bD, e, Q1, hfind, hheap1, hsub, _, hFnd⟩ :=
        primFind_spec hH s.closeSet (fuel + 1) Edge.default s.PQ hq (by omega)
      cases bD with
      | true =>
        exact ⟨{ s with PQ := Q1, bDisconnected := true },
          primLoop_step_none H src fuel s e Q1 hcond hfind, hnd⟩
      | false =>
        obtain ⟨hout, ⟨p, hpmem, _⟩, _, hlt⟩ := hFnd rfl
        obtain ⟨hstartN, hendN⟩ := hin _ hpmem
        simp only at hstartN hendN
        have hfitG : s.G.Fits := by unfold Fits; rw [hsize]; exact hfit
        obtain ⟨G1, hadd, hG1len⟩ := AddEdge_total s.G hfitG e.m_startVertex e.m_endVertex
          e.m_Weight (by rw [hsize]; exact hstartN) (by rw [hsize]; exact hendN)
        rw [primLoop_step_found H src fuel s e Q1 G1 hcond hfind hadd hendN]
        obtain ⟨i1, i2⟩ := insertEdges_spec hH (src.adj e.m_endVertex) Q1 hheap1
        refine ih _ i1 ?_ (hG1len.trans hsize) ?_ ?_
        · intro el hel
          rcases List.mem_append.1 (i2.mem_iff.1 hel) with h | h
          · exact hin el (hsub el h)
          · obtain ⟨e2, he2, rfl⟩ := List.mem_map.1 h
            exact ⟨hst _ e2 he2, her _ e2 he2⟩
        · exact List.Nodup.append hnd (List.nodup_singleton _)
            (by
              intro a ha hb2
              rw [List.mem_singleton.1 hb2] at ha
              exact hout ha)
        · show (insertEdges H (src.adj e.m_endVertex) Q1).m_MinHeap.length +
            src.pendingWork (s.closeSet ++ [e.m_endVertex]) < fuel
          rw [i2.length_eq, List.length_append, List.length_map]
          have := pendingWork_append src s.closeSet e.m_endVertex hendN hout
          omega

/-- `PrimMST` returns, whatever the weights and whether or not the edges are mirrored. -/
theorem PrimMST_returns {H : StlHeap} (hH : H.Conforms) (G : Graph) (hfit : G.Fits)
    (hst : G.StartsInRange) (her : G.EndsInRange) (fuel : Nat) (hfuel : G.storedEdges < fuel) :
    ∃ T len, PrimMST H fuel G = .ok (T, len) := by
  have hN := GetVerticesAmount_of_fits G hfit
  by_cases h0 : G.m_EdgeList.length = 0
  · refine ⟨ofSize 0, 0, ?_⟩
    unfold PrimMST
    rw [hN, if_pos h0, h0]
  · have hpos : 0 < G.m_EdgeList.length := Nat.pos_of_ne_zero h0
    obtain ⟨i1, i2⟩ := insertEdges_spec hH (G.adj 0) PriorityQueue.empty (IsHeap.nil _)
    obtain ⟨s1, hloop, _⟩ := primLoop_returns hH G hfit hst her fuel
      { G := ofSize G.m_EdgeList.length, closeSet := [0],
        PQ := insertEdges H (G.adj 0) PriorityQueue.empty, length := 0,
        bDisconnected := true } i1
      (by
        intro el hel
        rcases List.mem_append.1 (i2.mem_iff.1 hel) with h | h
        · simp [PriorityQueue.empty] at h
        · obtain ⟨e2, he2, rfl⟩ := List.mem_map.1 h
          exact ⟨hst _ e2 he2, her _ e2 he2⟩)
      (by simp [ofSize]) (List.nodup_singleton 0)
      (by
        show (insertEdges H (G.adj 0) PriorityQueue.empty).m_MinHeap.length +
          G.pendingWork [0] < fuel
        rw [i2.length_eq]
        simp only [PriorityQueue.empty, List.nil_append, List.length_map]
        have h1 := pendingWork_append G [] 0 hpos (by simp)
        have h2 := pendingWork_nil G
        simp only [List.nil_append] at h1
        omega)
    have hrun : PrimMST H fuel G =
        if !s1.bDisconnected then .ok (s1.G, s1.length) else .ok (ofSize 0, DBL_MAX) := by
      unfold PrimMST
      rw [hN, if_neg h0, adj_of_lt G 0 hpos]
      simp only [hloop, Res.bind_ok]
    cases hbd : s1.bDisconnected with
    | true => exact ⟨ofSize 0, DBL_MAX, by rw [hrun, hbd]; rfl⟩
    | false => exact ⟨s1.G, s1.length, by rw [hrun, hbd]; rfl⟩

end Graph

namespace ShortestPathAlgorithm

open Graph

theorem AverageShortestPath_returns {H : StlHeap} (hH : H.Conforms) (G : Graph) (hfit : G.Fits)
    (her : G.EndsInRange) (u : Nat) (hu : u < G.m_EdgeList.length) (fuel : Nat)
    (hfuel : G.storedEdges < fuel) : ∃ r, AverageShortestPath H fuel G u = .ok r := by
  obtain ⟨s1, s2⟩ := seedNeighbors_spec hH (G.adj u) PriorityQueue.empty (IsHeap.nil _)
  obtain ⟨O1, sum1, hrun, _⟩ := averageLoop_returns hH G hfit her fuel [u]
    (seedNeighbors H (G.adj u) PriorityQueue.empty) 0 s1
    (by
      intro el hel
      obtain ⟨e, he, rfl⟩ := (mem_seedNeighbors hH _ _).1 hel
      exact her _ e he)
    (List.nodup_singleton u) (by rw [init_budget hH G u hu]; exact hfuel)
  unfold AverageShortestPath
  rw [GetNodeEdges_of_lt G hfit u hu, Res.bind_ok, hrun, Res.bind_ok]
  by_cases hlen : O1.length > 1
  · exact ⟨sum1 / ((O1.length - 1 : Nat) : ℚ), by simp only [if_pos hlen]⟩
  · exact ⟨-1, by simp only [if_neg hlen]⟩

/-- Claim C24: on a graph whose vertex count fits and whose stored edges start and end in
vertices of the graph, with any weights, `GetShortestPathLength`, `AverageShortestPath`
and `GetShortestPath` from a vertex of the graph and `PrimMST` all return: a number of
loop passes above the number of stored edges is never needed, whatever heap functions
meeting the contract are used. -/
theorem searches_return {H : StlHeap} (hH : H.Conforms) (G : Graph) (hfit : G.Fits)
    (hst : G.StartsInRange) (her : G.EndsInRange) (fuel : Nat) (hfuel : G.storedEdges < fuel) :
    (∀ u v, u < G.m_EdgeList.length →
      (∃ r, GetShortestPathLength H fuel G u v = .ok r) ∧
      (∃ r, AverageShortestPath H fuel G u = .ok r) ∧
      (∃ p, GetShortestPath H fuel G u v = .ok p)) ∧
    ∃ T len, G.PrimMST H fuel = .ok (T, len) := by
  refine ⟨?_, PrimMST_returns hH G hfit hst her fuel hfuel⟩
  intro u v hu
  refine ⟨?_, AverageShortestPath_returns hH G hfit her u hu fuel hfuel, ?_⟩
  · rw [GetShortestPathLength_eq H fuel G hfit u v hu]
    obtain ⟨s1, _⟩ := seedNeighbors_spec hH (G.adj u) PriorityQueue.empty (IsHeap.nil _)
    exact lengthLoop_returns hH G hfit her v fuel [u] _ s1
      (by
        intro el hel
        obtain ⟨e, he, rfl⟩ := (mem_seedNeighbors hH _ _).1 hel
        exact her _ e he)
      (by rw [init_budget hH G u hu]; exact hfuel)
  · rw [GetShortestPath_eq H fuel G hfit u v hu]
    obtain ⟨s1, _⟩ := seedPaths_spec hH (Graph.Path.single u) (G.adj u) PriorityQueue.empty
      (IsHeap.nil _)
    exact pathLoop_returns hH G hfit her u v fuel [u] _ s1
      (by
        intro el hel
        obtain ⟨e, he, rfl⟩ := (mem_seedPaths hH _ _ _).1 hel
        rw [Graph.Path.GetFinalVertex_extend]
        exact her _ e he)
      (by rw [init_path_budget hH G u hu]; exact hfuel)

/-- Witness for `searches_return`: a graph with negative weights, with the heap functions
of the GNU library; from vertex 0 to vertex 2 the length search gives -5. -/
theorem searches_return_witness :
    GetShortestPathLength binaryHeap 5 negativeGraph 0 2 = .ok (-5) ∧
    ((∀ u v, u < negativeGraph.m_EdgeList.length →
      (∃ r, GetShortestPathLength binaryHeap 5 negativeGraph u v = .ok r) ∧
      (∃ r, AverageShortestPath binaryHeap 5 negativeGraph u = .ok r) ∧
      (∃ p, GetShortestPath binaryHeap 5 negativeGraph u v = .ok p)) ∧
    ∃ T len, negativeGraph.PrimMST binaryHeap 5 = .ok (T, len)) :=
  ⟨by decide!,
    searches_return binaryHeap_conforms negativeGraph (by decide)
      (StartsInRange_of_lists _ (by decide)) (EndsInRange_of_lists _ (by decide)) 5
      (by decide)⟩

end ShortestPathAlgorithm

/-! ## Prim: the tree that is returned -/

namespace Graph

theorem sum_map_range (φ : List Edge → ℚ) (ls : List (List Edge)) :
    ∑ x in Finset.range ls.length, φ ((ls[x]?).getD []) = (ls.map φ).sum := by
  induction ls with
  | nil => simp
  | cons l ls ih =>
    rw [List.length_cons, Finset.sum_range_succ']
    simp only [List.getElem?_cons_succ, List.getElem?_cons_zero, Option.getD_some, List.map_cons,
      List.sum_cons]
    rw [ih, add_comm]

theorem undirectedWeight_eq_sum (G : Graph) :
    G.undirectedWeight = ∑ x in Finset.range G.m_EdgeList.length, risingWeight (G.adj x) :=
  (sum_map_range risingWeight G.m_EdgeList).symm

theorem risingWeight_append_singleton (l : List Edge) (e : Edge) :
    risingWeight (l ++ [e]) =
      risingWeight l + if e.m_startVertex < e.m_endVertex then e.m_Weight else 0 := by
  unfold risingWeight
  rw [List.filter_append, walkWeight_append]
  by_cases h : e.m_startVertex < e.m_endVertex
  · simp [h, List.filter_cons]
  · simp [h, List.filter_cons]

theorem nodup_length_le (l : List Nat) (N : Nat) (hnd : l.Nodup) (h : ∀ c ∈ l, c < N) :
    l.length ≤ N := by
  have hsub : l.toFinset ⊆ Finset.range N := by
    intro c hc
    exact Finset.mem_range.2 (h c (List.mem_toFinset.1 hc))
  have := Finset.card_le_card hsub
  rw [List.toFinset_card_of_nodup hnd, Finset.card_range] at this
  exact this

theorem nodup_full (l : List Nat) (N : Nat) (hnd : l.Nodup) (h : ∀ c ∈ l, c < N)
    (hlen : l.length = N) : ∀ x, x < N → x ∈ l := by
  have hsub : l.toFinset ⊆ Finset.range N := by
    intro c hc
    exact Finset.mem_range.2 (h c (List.mem_toFinset.1 hc))
  have heq : l.toFinset = Finset.range N :=
    Finset.eq_of_subset_of_card_le hsub
      (by rw [List.toFinset_card_of_nodup hnd, Finset.card_range, hlen])
  intro x hx
  have : x ∈ l.toFinset := by rw [heq]; exact Finset.mem_range.2 hx
  exact List.mem_toFinset.1 this

theorem IsWalk_mono (G G1 : Graph) (hsub : ∀ x, ∀ e ∈ G.adj x, e ∈ G1.adj x) (W : List Edge)
    (a b : Nat) (h : G.IsWalk a W b) : G1.IsWalk a W b := by
  induction W generalizing a with
  | nil => exact h
  | cons e es ih =>
    simp only [IsWalk] at h ⊢
    exact ⟨hsub a e h.1, ih _ h.2⟩

/-- One pass of the outer loop of `PrimMST` that finds an edge `e` to a new vertex: the
edge is a stored edge from the close set, `AddEdge` stores it in both directions in the
tree, and the invariant holds for the next pass. -/
theorem PrimInv_found {H : StlHeap} (hH : H.Conforms) (src : Graph) (hfit : src.Fits)
    (hmir : src.Mirrored) (s : PrimState) (F : List Edge) (hI : PrimInv src s F) (e : Edge)
    (Q1 : PriorityQueue Edge ℚ) (hheap1 : IsHeap Compare Q1.m_MinHeap)
    (hsub : ∀ el ∈ Q1.m_MinHeap, el ∈ s.PQ.m_MinHeap) (hout : e.m_endVertex ∉ s.closeSet)
    (p : ℚ) (hpmem : (⟨e, p⟩ : PriorityQueueElement Edge ℚ) ∈ s.PQ.m_MinHeap)
    (hpmin : ∀ el ∈ s.PQ.m_MinHeap, el.m_Value.m_endVertex ∉ s.closeSet → p ≤ el.m_Priority)
    (hsurv : ∀ el ∈ s.PQ.m_MinHeap, el.m_Value.m_endVertex ∉ s.closeSet →
      el.m_Value.m_endVertex ≠ e.m_endVertex → el ∈ Q1.m_MinHeap) :
    e ∈ src.adj e.m_startVertex ∧ e.m_startVertex ∈ s.closeSet ∧
      e.m_endVertex < src.m_EdgeList.length ∧
      ∃ G1, s.G.AddEdgeE e = .ok G1 ∧
        G1.m_EdgesAmount = (s.G.m_EdgesAmount + 1) % UINT_RANGE ∧
        (∀ x, G1.adj x =
          if x = e.m_endVertex then
            s.G.adj e.m_endVertex ++ [⟨e.m_endVertex, e.m_startVertex, e.m_Weight⟩]
          else if x = e.m_startVertex then
            s.G.adj e.m_startVertex ++ [⟨e.m_startVertex, e.m_endVertex, e.m_Weight⟩]
          else s.G.adj x) ∧
        PrimInv src
          { G := G1
            closeSet := s.closeSet ++ [e.m_endVertex]
            PQ := insertEdges H (src.adj e.m_endVertex) Q1
            length := s.length + e.m_Weight
            bDisconnected := false } (e :: F) := by
  have hfitG : s.G.Fits := by unfold Fits; rw [hI.treeSize]; exact hfit
  obtain ⟨hpw, hstored, hstart⟩ := hI.ent _ hpmem
  simp only at hpw hstored hstart
  obtain ⟨_, hendN, e1, he1, _, _⟩ := hmir _ e hstored
  have hstartN := hI.inRange _ hstart
  have hne : e.m_endVertex ≠ e.m_startVertex := fun h => hout (h ▸ hstart)
  obtain ⟨G1, hadd, hG1len, hG1cnt, hG1adj⟩ :=
    AddEdge_new s.G hfitG e.m_startVertex e.m_endVertex e.m_Weight
      (by rw [hI.treeSize]; exact hstartN) (by rw [hI.treeSize]; exact hendN)
      (fun e2 he2 h => hout (h ▸ hI.treeEnds _ e2 he2))
  have hG1adj' : ∀ x, G1.adj x =
      if x = e.m_endVertex then
        s.G.adj e.m_endVertex ++ [⟨e.m_endVertex, e.m_startVertex, e.m_Weight⟩]
      else if x = e.m_startVertex then
        s.G.adj e.m_startVertex ++ [⟨e.m_startVertex, e.m_endVertex, e.m_Weight⟩]
      else s.G.adj x := by
    intro x
    rw [hG1adj x, if_neg hne]
  refine ⟨hstored, hstart, hendN, G1, hadd, hG1cnt, hG1adj', ?_⟩
  obtain ⟨i1, i2⟩ := insertEdges_spec hH (src.adj e.m_endVertex) Q1 hheap1
  have hminAll : ∀ t, t ∈ src.adj t.m_startVertex →
      (t.m_startVertex ∈ s.closeSet ∧ t.m_endVertex ∉ s.closeSet) ∨
        (t.m_startVertex ∉ s.closeSet ∧ t.m_endVertex ∈ s.closeSet) →
      e.m_Weight ≤ t.m_Weight := by
    intro t ht hcross
    rcases hcross with ⟨h1, h2⟩ | ⟨h1, h2⟩
    · have := hpmin _ (hI.cov _ h1 t ht h2) h2
      rw [hpw] at this
      exact this
    · obtain ⟨_, _, t2, ht2, ht2end, ht2w⟩ := hmir _ t ht
      have hnot : t2.m_endVertex ∉ s.closeSet := by rw [ht2end]; exact h1
      have := hpmin _ (hI.cov _ h2 t2 ht2 hnot) hnot
      rw [hpw] at this
      simp only at this
      rw [ht2w] at this
      exact this
  refine
    { heap := i1
      zero := List.mem_append_left _ hI.zero
      inRange := ?_, nodup := ?_, ent := ?_, cov := ?_, inside := ?_, len := ?_
      count := ?_, best := ?_
      treeSize := hG1len.trans hI.treeSize
      treeEnds := ?_, live := ?_ }
  · intro c hc
    rcases List.mem_append.1 hc with hc | hc
    · exact hI.inRange c hc
    · rw [List.mem_singleton.1 hc]; exact hendN
  · refine List.Nodup.append hI.nodup (List.nodup_singleton _) ?_
    intro a ha hb1
    rw [List.mem_singleton.1 hb1] at ha
    exact hout ha
  · intro el hel
    rcases List.mem_append.1 (i2.mem_iff.1 hel) with h | h
    · obtain ⟨h1, h2, h3⟩ := hI.ent el (hsub el h)
      exact ⟨h1, h2, List.mem_append_left _ h3⟩
    · obtain ⟨e2, he2, rfl⟩ := List.mem_map.1 h
      obtain ⟨hs2, _, _⟩ := hmir _ e2 he2
      refine ⟨rfl, ?_, ?_⟩
      · simp only [hs2]; exact he2
      · simp only [hs2]; exact List.mem_append_right _ (List.mem_singleton_self _)
  · intro y hy e2 he2 hout2
    have hout2C : e2.m_endVertex ∉ s.closeSet := fun h =>
      hout2 (List.mem_append_left _ h)
    have hne2 : e2.m_endVertex ≠ e.m_endVertex := fun h =>
      hout2 (List.mem_append_right _ (by rw [h]; exact List.mem_singleton_self _))
    rcases List.mem_append.1 hy with hy | hy
    · exact i2.mem_iff.2 (List.mem_append_left _
        (hsurv _ (hI.cov y hy e2 he2 hout2C) hout2C hne2))
    · rw [List.mem_singleton.1 hy] at he2
      exact i2.mem_iff.2 (List.mem_append_right _ (List.mem_map.2 ⟨e2, he2, rfl⟩))
  · intro f hf
    rcases List.mem_cons.1 hf with rfl | hf
    · exact ⟨List.mem_append_left _ hstart,
        List.mem_append_right _ (List.mem_singleton_self _)⟩
    · exact ⟨List.mem_append_left _ (hI.inside f hf).1,
        List.mem_append_left _ (hI.inside f hf).2⟩
  · show s.length + e.m_Weight = walkWeight (e :: F)
    rw [walkWeight_cons, ← hI.len, add_comm]
  · show (e :: F).length + 1 = (s.closeSet ++ [e.m_endVertex]).length
    have := hI.count
    simp only [List.length_cons, List.length_append, List.length_nil]
    omega
  · intro T hT0
    obtain ⟨T0, hT0s, hsubp, hw0⟩ := hI.best T hT0
    obtain ⟨T1, hT1, hsub1, hw1⟩ := exchange src T0 F s.closeSet e hT0s hsubp hI.inside
      hstored hstart hout hstartN hendN (fun t ht hc => hminAll t (hT0s.1 t ht) hc)
    exact ⟨T1, hT1, hsub1, le_trans hw1 hw0⟩
  · intro x e2 he2
    show e2.m_endVertex ∈ s.closeSet ++ [e.m_endVertex]
    rw [hG1adj' x] at he2
    by_cases hx : x = e.m_endVertex
    · rw [if_pos hx] at he2
      rcases List.mem_append.1 he2 with h | h
      · exact List.mem_append_left _ (hI.treeEnds _ e2 h)
      · rw [List.mem_singleton.1 h]
        exact List.mem_append_left _ hstart
    · rw [if_neg hx] at he2
      by_cases hx2 : x = e.m_startVertex
      · rw [if_pos hx2] at he2
        rcases List.mem_append.1 he2 with h | h
        · exact List.mem_append_left _ (hI.treeEnds _ e2 h)
        · rw [List.mem_singleton.1 h]
          exact List.mem_append_right _ (List.mem_singleton_self _)
      · rw [if_neg hx2] at he2
        exact List.mem_append_left _ (hI.treeEnds _ e2 he2)
  · intro _
    show 0 < (insertEdges H (src.adj e.m_endVertex) Q1).m_MinHeap.length
    rw [i2.length_eq, List.length_append, List.length_map]
    have := List.length_pos_of_mem he1
    omega

end Graph

namespace Graph

/-- The facts about the tree survive a pass of the outer loop of `PrimMST` that adds the
edge `e` from the close set to a new vertex. -/
theorem TreeInv_found (src : Graph) (hfit : src.Fits) (s : PrimState) (F : List Edge)
    (hI : PrimInv src s F) (hT : TreeInv src s F) (e : Edge) (G1 : Graph)
    (Q2 : PriorityQueue Edge ℚ) (hstored : e ∈ src.adj e.m_startVertex)
    (hstart : e.m_startVertex ∈ s.closeSet) (hout : e.m_endVertex ∉ s.closeSet)
    (hendN : e.m_endVertex < src.m_EdgeList.length)
    (hlen : G1.m_EdgeList.length = src.m_EdgeList.length)
    (hcnt : G1.m_EdgesAmount = (s.G.m_EdgesAmount + 1) % UINT_RANGE)
    (hadj : ∀ x, G1.adj x =
      if x = e.m_endVertex then
        s.G.adj e.m_endVertex ++ [⟨e.m_endVertex, e.m_startVertex, e.m_Weight⟩]
      else if x = e.m_startVertex then
        s.G.adj e.m_startVertex ++ [⟨e.m_startVertex, e.m_endVertex, e.m_Weight⟩]
      else s.G.adj x) :
    TreeInv src
      { G := G1
        closeSet := s.closeSet ++ [e.m_endVertex]
        PQ := Q2
        length := s.length + e.m_Weight
        bDisconnected := false } (e :: F) := by
  have hne : e.m_startVertex ≠ e.m_endVertex := fun h => hout (h ▸ hstart)
  have hne' : e.m_endVertex ≠ e.m_startVertex := fun h => hne h.symm
  have hstartN := hI.inRange _ hstart
  have hmono : ∀ x, ∀ e2 ∈ s.G.adj x, e2 ∈ G1.adj x := by
    intro x e2 he2
    rw [hadj x]
    by_cases hx : x = e.m_endVertex
    · rw [if_pos hx]
      rw [hx] at he2
      exact List.mem_append_left _ he2
    · rw [if_neg hx]
      by_cases hx2 : x = e.m_startVertex
      · rw [if_pos hx2]
        rw [hx2] at he2
        exact List.mem_append_left _ he2
      · rw [if_neg hx2]
        exact he2
  have hfwd : (⟨e.m_startVertex, e.m_endVertex, e.m_Weight⟩ : Edge) ∈ G1.adj e.m_startVertex := by
    rw [hadj e.m_startVertex, if_neg hne, if_pos rfl]
    exact List.mem_append_right _ (List.mem_singleton_self _)
  have hbwd : (⟨e.m_endVertex, e.m_startVertex, e.m_Weight⟩ : Edge) ∈ G1.adj e.m_endVertex := by
    rw [hadj e.m_endVertex, if_pos rfl]
    exact List.mem_append_right _ (List.mem_singleton_self _)
  have hcases : ∀ x, ∀ e2 ∈ G1.adj x, e2 ∈ s.G.adj x ∨
      (x = e.m_endVertex ∧ e2 = ⟨e.m_endVertex, e.m_startVertex, e.m_Weight⟩) ∨
      (x = e.m_startVertex ∧ e2 = ⟨e.m_startVertex, e.m_endVertex, e.m_Weight⟩) := by
    intro x e2 he2
    rw [hadj x] at he2
    by_cases hx : x = e.m_endVertex
    · rw [if_pos hx] at he2
      rcases List.mem_append.1 he2 with h | h
      · exact Or.inl (by rw [hx]; exact h)
      · exact Or.inr (Or.inl ⟨hx, List.mem_singleton.1 h⟩)
    · rw [if_neg hx] at he2
      by_cases hx2 : x = e.m_startVertex
      · rw [if_pos hx2] at he2
        rcases List.mem_append.1 he2 with h | h
        · exact Or.inl (by rw [hx2]; exact h)
        · exact Or.inr (Or.inr ⟨hx2, List.mem_singleton.1 h⟩)
      · rw [if_neg hx2] at he2
        exact Or.inl he2
  refine
    { stored := ?_, members := ?_, mirror := ?_, reach := ?_, weight := ?_, edges := ?_ }
  · intro f hf
    rcases List.mem_cons.1 hf with rfl | hf
    · exact hstored
    · exact hT.stored f hf
  · intro x e2 he2
    rcases hcases x e2 he2 with h | ⟨hx, rfl⟩ | ⟨hx, rfl⟩
    · obtain ⟨h1, h2, f, hf, h3, h4⟩ := hT.members x e2 h
      exact ⟨h1, h2, f, List.mem_cons_of_mem _ hf, h3, h4⟩
    · exact ⟨hx.symm, hne', e, List.mem_cons_self _ _, rfl, Or.inr ⟨rfl, rfl⟩⟩
    · exact ⟨hx.symm, hne, e, List.mem_cons_self _ _, rfl, Or.inl ⟨rfl, rfl⟩⟩
  · intro x e2 he2
    show (⟨e2.m_endVertex, e2.m_startVertex, e2.m_Weight⟩ : Edge) ∈ G1.adj e2.m_endVertex
    rcases hcases x e2 he2 with h | ⟨_, rfl⟩ | ⟨_, rfl⟩
    · exact hmono _ _ (hT.mirror x e2 h)
    · exact hfwd
    · exact hbwd
  · intro c hc
    show G1.Reachable 0 c
    rcases List.mem_append.1 hc with hc | hc
    · obtain ⟨W, hW⟩ := hT.reach c hc
      exact ⟨W, IsWalk_mono s.G G1 hmono W 0 c hW⟩
    · rw [List.mem_singleton.1 hc]
      obtain ⟨W, hW⟩ := hT.reach _ hstart
      have hlast : G1.IsWalk e.m_startVertex [⟨e.m_startVertex, e.m_endVertex, e.m_Weight⟩]
          e.m_endVertex := ⟨hfwd, rfl⟩
      exact ⟨W ++ [⟨e.m_startVertex, e.m_endVertex, e.m_Weight⟩],
        IsWalk_append G1 W _ 0 _ _ (IsWalk_mono s.G G1 hmono W 0 _ hW) hlast⟩
  · show G1.undirectedWeight = s.length + e.m_Weight
    have hterm : ∀ x, risingWeight (G1.adj x) = risingWeight (s.G.adj x) +
        ((if x = e.m_endVertex then
            (if e.m_endVertex < e.m_startVertex then e.m_Weight else 0) else 0) +
          (if x = e.m_startVertex then
            (if e.m_startVertex < e.m_endVertex then e.m_Weight else 0) else 0)) := by
      intro x
      rw [hadj x]
      by_cases hx : x = e.m_endVertex
      · have hx2 : ¬ x = e.m_startVertex := by rw [hx]; exact hne'
        rw [if_pos hx, if_pos hx, if_neg hx2, risingWeight_append_singleton, hx, add_zero]
      · rw [if_neg hx, if_neg hx]
        by_cases hx2 : x = e.m_startVertex
        · rw [if_pos hx2, if_pos hx2, risingWeight_append_singleton, hx2, zero_add]
        · rw [if_neg hx2, if_neg hx2]
          simp
    rw [undirectedWeight_eq_sum, hlen]
    simp only [hterm]
    rw [Finset.sum_add_distrib, Finset.sum_add_distrib, Finset.sum_ite_eq', Finset.sum_ite_eq',
      if_pos (Finset.mem_range.2 hendN), if_pos (Finset.mem_range.2 hstartN), ← hI.treeSize,
      ← undirectedWeight_eq_sum, hT.weight]
    rcases Nat.lt_or_gt_of_ne hne with h | h
    · have h1 : ¬ e.m_endVertex < e.m_startVertex := by omega
      rw [if_pos h, if_neg h1]
      simp
    · have h1 : ¬ e.m_startVertex < e.m_endVertex := by omega
      have h2 : e.m_endVertex < e.m_startVertex := h
      rw [if_neg h1, if_pos h2]
      simp
  · show G1.m_EdgesAmount = (e :: F).length
    rw [hcnt, hT.edges, List.length_cons]
    have h1 := nodup_length_le s.closeSet src.m_EdgeList.length hI.nodup hI.inRange
    have h2 := hI.count
    have h3 : src.m_EdgeList.length + 1 < UINT_RANGE := hfit
    exact Nat.mod_eq_of_lt (by omega)

/-- The outer loop of `PrimMST` on a graph with mirrored edges: it returns, and both
invariants hold at the end. -/
theorem primLoop_tree {H : StlHeap} (hH : H.Conforms) (src : Graph) (hfit : src.Fits)
    (hmir : src.Mirrored) :
    ∀ (fuel : Nat) (s : PrimState) (F : List Edge), PrimInv src s F → TreeInv src s F →
      s.PQ.m_MinHeap.length + src.pendingWork s.closeSet < fuel →
      ∃ s1 F1, primLoop H src fuel s = .ok s1 ∧ PrimInv src s1 F1 ∧ TreeInv src s1 F1 ∧
        (s1.bDisconnected = false → s1.closeSet.length = src.m_EdgeList.length) := by
  intro fuel
  induction fuel with
  | zero => intro s F _ _ hb; omega
  | succ fuel ih =>
    intro s F hI hT hb
    have hfitG : s.G.Fits := by unfold Fits; rw [hI.treeSize]; exact hfit
    have hGN : s.G.GetVerticesAmount = src.m_EdgeList.length := by
      rw [GetVerticesAmount_of_fits s.G hfitG, hI.treeSize]
    by_cases hcond : s.closeSet.length ≠ s.G.GetVerticesAmount ∧ s.PQ.Size > 0
    swap
    · refine ⟨s, F, primLoop_exit H src fuel s hcond, hI, hT, ?_⟩
      intro hbd
      have hlive := hI.live hbd
      by_contra hne
      exact hcond ⟨by rw [hGN]; exact hne, hlive⟩
    · obtain ⟨bD, e, Q1, hfind, hheap1, hsub, hNone, hFnd⟩ :=
        primFind_spec hH s.closeSet (fuel + 1) Edge.default s.PQ hI.heap (by omega)
      cases bD with
      | true =>
        obtain ⟨_, hall⟩ := hNone rfl
        refine ⟨{ s with PQ := Q1, bDisconnected := true }, F,
          primLoop_step_none H src fuel s e Q1 hcond hfind, ?_, ?_, fun h => (by cases h)⟩
        · exact
            { heap := hheap1, zero := hI.zero, inRange := hI.inRange, nodup := hI.nodup
              ent := fun el hel => hI.ent el (hsub el hel)
              cov := fun y hy e1 he1 hout => absurd (hall _ (hI.cov y hy e1 he1 hout)) hout
              inside := hI.inside, len := hI.len, count := hI.count, best := hI.best
              treeSize := hI.treeSize, treeEnds := hI.treeEnds
              live := fun h => (by cases h) }
        · exact
            { stored := hT.stored, members := hT.members, mirror := hT.mirror
              reach := hT.reach, weight := hT.weight, edges := hT.edges }
      | false =>
        obtain ⟨hout, ⟨p, hpmem, hpmin⟩, hsurv, hlt⟩ := hFnd rfl
        obtain ⟨hstored, hstart, hendN, G1, hadd, hcnt, hadj, hI1⟩ :=
          PrimInv_found hH src hfit hmir s F hI e Q1 hheap1 hsub hout p hpmem hpmin hsurv
        rw [primLoop_step_found H src fuel s e Q1 G1 hcond hfind hadd hendN]
        obtain ⟨_, i2⟩ := insertEdges_spec hH (src.adj e.m_endVertex) Q1 hheap1
        refine ih _ (e :: F) hI1
          (TreeInv_found src hfit s F hI hT e G1 _ hstored hstart hout hendN hI1.treeSize hcnt
            hadj) ?_
        show (insertEdges H (src.adj e.m_endVertex) Q1).m_MinHeap.length +
          src.pendingWork (s.closeSet ++ [e.m_endVertex]) < fuel
        rw [i2.length_eq, List.length_append, List.length_map]
        have := pendingWork_append src s.closeSet e.m_endVertex hendN hout
        omega

theorem undirectedWeight_ofSize (n : Nat) : (ofSize n).undirectedWeight = 0 := by
  rw [undirectedWeight_eq_sum]
  simp only [adj_ofSize]
  simp [risingWeight]

/-- Claim C21: on a graph with mirrored edges whose vertex count fits, `PrimMST` returns
(any budget above the number of stored edges is enough), and whenever the graph `T` it
returns is not empty: `T` has the vertices of the input; an edge in the list of `x` in
`T` starts at `x`, does not end at `x` (no self-loop), and has the end vertex and the
weight of an edge in the list of `x` in the input; `T` stores every edge in both
directions; every vertex can be reached from vertex 0 in `T`; the returned length is the
sum of the weights of the undirected edges of `T`; and `T` has one edge fewer than
vertices. -/
theorem PrimMST_spanning_tree {H : StlHeap} (hH : H.Conforms) (G : Graph) (hfit : G.Fits)
    (hmir : G.Mirrored) (fuel : Nat) (hfuel : G.storedEdges < fuel) :
    ∃ T len, PrimMST H fuel G = .ok (T, len) ∧
      (T.GetVerticesAmount ≠ 0 →
        T.GetVerticesAmount = G.GetVerticesAmount ∧
        (∀ x, ∀ e ∈ T.adj x, e.m_startVertex = x ∧ e.m_startVertex ≠ e.m_endVertex ∧
          ∃ g ∈ G.adj x, g.m_endVertex = e.m_endVertex ∧ g.m_Weight = e.m_Weight) ∧
        (∀ x, ∀ e ∈ T.adj x,
          (⟨e.m_endVertex, e.m_startVertex, e.m_Weight⟩ : Edge) ∈ T.adj e.m_endVertex) ∧
        (∀ x, x < G.m_EdgeList.length → T.Reachable 0 x) ∧
        T.undirectedWeight = len ∧
        T.GetEdgesAmount + 1 = G.GetVerticesAmount) := by
  have hN := GetVerticesAmount_of_fits G hfit
  by_cases h0 : G.m_EdgeList.length = 0
  · refine ⟨ofSize 0, 0, ?_, ?_⟩
    · unfold PrimMST
      rw [hN, if_pos h0, h0]
    · intro h
      exact absurd rfl h
  · have hpos : 0 < G.m_EdgeList.length := Nat.pos_of_ne_zero h0
    obtain ⟨i1, i2⟩ := insertEdges_spec hH (G.adj 0) PriorityQueue.empty (IsHeap.nil _)
    have hmem : ∀ el, el ∈ (insertEdges H (G.adj 0) PriorityQueue.empty).m_MinHeap ↔
        ∃ e ∈ G.adj 0, el = ⟨e, e.m_Weight⟩ := by
      intro el
      rw [i2.mem_iff]
      simp only [PriorityQueue.empty, List.nil_append, List.mem_map]
      constructor
      · rintro ⟨e, he, rfl⟩
        exact ⟨e, he, rfl⟩
      · rintro ⟨e, he, rfl⟩
        exact ⟨e, he, rfl⟩
    have hinit : PrimInv G
        { G := ofSize G.m_EdgeList.length, closeSet := [0],
          PQ := insertEdges H (G.adj 0) PriorityQueue.empty, length := 0,
          bDisconnected := true } [] :=
      { heap := i1
        zero := List.mem_singleton_self 0
        inRange := fun c hc => by rw [List.mem_singleton.1 hc]; exact hpos
        nodup := List.nodup_singleton 0
        ent := fun el hel => by
          obtain ⟨e, he, rfl⟩ := (hmem el).1 hel
          obtain ⟨hs, _, _⟩ := hmir _ e he
          refine ⟨rfl, ?_, ?_⟩
          · simp only [hs]; exact he
          · simp only [hs]; exact List.mem_singleton_self 0
        cov := fun y hy e he _ => by
          rw [List.mem_singleton.1 hy] at he
          exact (hmem _).2 ⟨e, he, rfl⟩
        inside := fun f hf => by simp at hf
        len := rfl
        count := rfl
        best := fun T hT => ⟨T, hT, List.nil_subperm, le_refl _⟩
        treeSize := by simp [ofSize]
        treeEnds := fun x e he => by
          rw [adj_ofSize] at he
          simp at he
        live := fun h => (by cases h) }
    have htree : TreeInv G
        { G := ofSize G.m_EdgeList.length, closeSet := [0],
          PQ := insertEdges H (G.adj 0) PriorityQueue.empty, length := 0,
          bDisconnected := true } [] :=
      { stored := fun f hf => by simp at hf
        members := fun x e he => by
          rw [adj_ofSize] at he
          simp at he
        mirror := fun x e he => by
          rw [adj_ofSize] at he
          simp at he
        reach := fun c hc => by
          rw [List.mem_singleton.1 hc]
          exact ⟨[], rfl⟩
        weight := undirectedWeight_ofSize _
        edges := rfl }
    have hbudget : (insertEdges H (G.adj 0) PriorityQueue.empty).m_MinHeap.length +
        G.pendingWork [0] < fuel := by
      rw [i2.length_eq]
      simp only [PriorityQueue.empty, List.nil_append, List.length_map]
      have h1 := pendingWork_append G [] 0 hpos (by simp)
      have h2 := pendingWork_nil G
      simp only [List.nil_append] at h1
      omega
    obtain ⟨s1, F1, hloop, hI1, hT1, hfin⟩ :=
      primLoop_tree hH G hfit hmir fuel _ [] hinit htree hbudget
    have hrun : PrimMST H fuel G =
        if !s1.bDisconnected then .ok (s1.G, s1.length) else .ok (ofSize 0, DBL_MAX) := by
      unfold PrimMST
      rw [hN, if_neg h0, adj_of_lt G 0 hpos]
      simp only [hloop, Res.bind_ok]
    cases hbd : s1.bDisconnected with
    | true =>
      refine ⟨ofSize 0, DBL_MAX, by rw [hrun, hbd]; rfl, fun h => absurd rfl h⟩
    | false =>
      refine ⟨s1.G, s1.length, by rw [hrun, hbd]; rfl, fun _ => ?_⟩
      have hfitT : s1.G.Fits := by unfold Fits; rw [hI1.treeSize]; exact hfit
      have hfull := hfin hbd
      refine ⟨?_, ?_, hT1.mirror, ?_, hT1.weight, ?_⟩
      · rw [GetVerticesAmount_of_fits s1.G hfitT, hI1.treeSize, hN]
      · intro x e he
        obtain ⟨h1, h2, f, hf, h3, h4⟩ := hT1.members x e he
        refine ⟨h1, h2, ?_⟩
        have hfs := hT1.stored f hf
        rcases h4 with ⟨h5, h6⟩ | ⟨h5, h6⟩
        · refine ⟨f, ?_, h6, h3⟩
          rw [← h1, ← h5]
          exact hfs
        · obtain ⟨_, _, g, hg, hgend, hgw⟩ := hmir _ f hfs
          refine ⟨g, ?_, ?_, ?_⟩
          · rw [← h1, ← h6]
            exact hg
          · rw [hgend, h5]
          · rw [hgw, h3]
      · intro x hx
        exact hT1.reach x (nodup_full s1.closeSet _ hI1.nodup hI1.inRange hfull x hx)
      · show s1.G.m_EdgesAmount + 1 = G.GetVerticesAmount
        rw [hT1.edges, hI1.count, hfull, hN]

/-- Witness for `PrimMST_spanning_tree`: the triangle graph with the heap functions of the
GNU library; the tree returned has the edges 0-1 and 1-2 and length 3. -/
theorem PrimMST_spanning_tree_witness :
    PrimMST binaryHeap 7 triangleGraph =
        .ok (⟨[[⟨0, 1, 1⟩], [⟨1, 0, 1⟩, ⟨1, 2, 2⟩], [⟨2, 1, 2⟩]], 2⟩, 3) ∧
      ∃ T len, PrimMST binaryHeap 7 triangleGraph = .ok (T, len) ∧
        (T.GetVerticesAmount ≠ 0 →
          T.GetVerticesAmount = triangleGraph.GetVerticesAmount ∧
          (∀ x, ∀ e ∈ T.adj x, e.m_startVertex = x ∧ e.m_startVertex ≠ e.m_endVertex ∧
            ∃ g ∈ triangleGraph.adj x, g.m_endVertex = e.m_endVertex ∧
              g.m_Weight = e.m_Weight) ∧
          (∀ x, ∀ e ∈ T.adj x,
            (⟨e.m_endVertex, e.m_startVertex, e.m_Weight⟩ : Edge) ∈ T.adj e.m_endVertex) ∧
          (∀ x, x < triangleGraph.m_EdgeList.length → T.Reachable 0 x) ∧
          T.undirectedWeight = len ∧
          T.GetEdgesAmount + 1 = triangleGraph.GetVerticesAmount) :=
  ⟨by decide!,
    PrimMST_spanning_tree binaryHeap_conforms triangleGraph (by decide)
      (Mirrored_of_lists _ (by decide!)) 7 (by decide)⟩

end Graph
